import Mathlib

/-!
# FileHarmony synchronization engine — verification development

A shallow embedding of the synchronization engine of the FileHarmony
repository (`src/core/sync/*`), with theorems checking the engine's
natural-language specification against the code.

Modelling conventions:
* File times (`mtimeMs`, `atimeMs`) are integers (milliseconds), mirroring
  the float millisecond values of `fs.Stats`.
* File contents are byte lists; the SHA-256 digest function
  (`crypto.createHash('sha256')`, an external library) is an abstract
  function `Env.hash` of the content.
* The `micromatch` glob library (external) is abstracted as `Env.matches`.
* Paths are lists of segments, always relative to the sync roots
  (`path.relative(root, p)` of the code); the target directory tree is a
  key-value store from relative paths to entries, and the source tree is
  an inductive directory listing (what `fs.promises.readdir` yields).
* Asynchronous fallible code runs in `M`, a state monad over the mutable
  engine state (target store, workspace state, pending-conflict set)
  with an `Except` error channel (a thrown/rejected promise) and a log of
  performed filesystem/UI operations (`Op`), used to state "no I/O",
  "read-only" and "never invoked" properties.
-/

/-- `fs.Stats` restricted to the fields the engine reads. -/
structure Stats where
  size : Nat
  mtimeMs : Int
  atimeMs : Int
  deriving DecidableEq, Repr

/-- An entry of the target directory tree: a regular file with stats and
content, or a directory.  (Directory stats are never consulted by any sync
decision, so they are not modelled; `stat` on a directory is modelled as a
failure, which every caller treats like any other per-entry I/O failure.) -/
inductive TEntry where
  | file (stat : Stats) (content : List Nat) : TEntry
  | dir : TEntry
  deriving DecidableEq, Repr

/-- The target directory tree: a store from relative paths (segment lists)
to entries.  Earlier bindings shadow later ones. -/
def TgtFS : Type := List (List String × TEntry)

/-- Look up the entry at a relative path (first binding wins). -/
def TgtFS.find : TgtFS → List String → Option TEntry
  | [], _ => none
  | (k, v) :: rest, q => if k = q then some v else TgtFS.find rest q

/-- Write (create or overwrite) the entry at a relative path. -/
def TgtFS.set (m : TgtFS) (k : List String) (v : TEntry) : TgtFS :=
  (k, v) :: m

/-- Remove the entry at a relative path (`fs.promises.unlink`). -/
def TgtFS.del (m : TgtFS) (k : List String) : TgtFS :=
  m.filter (fun kv => !(kv.1 = k : Bool))

/-- Remove a path and everything below it
(`fs.promises.rm(p, recursive, force)`). -/
def TgtFS.rmRec (m : TgtFS) (k : List String) : TgtFS :=
  m.filter (fun kv => !(k.isPrefixOf kv.1))

/-- The names of the immediate children of a directory key, in first
occurrence order (`fs.promises.readdir` on the target tree). -/
def TgtFS.childNames (m : TgtFS) (cur : List String) : List String :=
  ((m.map Prod.fst).filterMap (fun k =>
    if k.length = cur.length + 1 && cur.isPrefixOf k then k.getLastD "" else none)).dedup

/-- The greatest key length in the store (used as traversal fuel for the
target-rooted orphan scan, whose recursion depth is bounded by it). -/
def TgtFS.depth (m : TgtFS) : Nat :=
  m.foldr (fun kv n => max kv.1.length n) 0

/-- A source directory listing / tree.  `file` is a regular file entry;
`dnil`/`dcons` build a directory's entry list (readdir order).  A child that
is itself a `dnil`/`dcons` chain is a subdirectory. -/
inductive SrcNode where
  | file (stat : Stats) (content : List Nat) : SrcNode
  | dnil : SrcNode
  | dcons (name : String) (child : SrcNode) (rest : SrcNode) : SrcNode
  deriving DecidableEq, Repr

/-- The entry names of a directory listing. -/
def SrcNode.names : SrcNode → List String
  | .file _ _ => []
  | .dnil => []
  | .dcons n _ r => n :: r.names

/-- Well-formedness of a directory listing as a real filesystem produces it:
entry names within each directory are pairwise distinct. -/
def SrcNode.wf : SrcNode → Bool
  | .file _ _ => true
  | .dnil => true
  | .dcons n c r => !(r.names.contains n) && c.wf && r.wf

/-- The relative paths of all regular files in a listing rooted at `relDir`. -/
def SrcNode.fileKeys (relDir : List String) : SrcNode → List (List String)
  | .file _ _ => []
  | .dnil => []
  | .dcons n c r =>
      (match c with
       | .file _ _ => [relDir ++ [n]]
       | c => SrcNode.fileKeys (relDir ++ [n]) c) ++ SrcNode.fileKeys relDir r

/-- Look up an entry by name in a directory listing. -/
def SrcNode.findName : SrcNode → String → Option SrcNode
  | .file _ _, _ => none
  | .dnil, _ => none
  | .dcons n c r, q => if n = q then some c else SrcNode.findName r q

/-- Follow a relative path down a source listing (`fs.existsSync` on the
source side of the orphan scan). -/
def SrcNode.findPath : SrcNode → List String → Option SrcNode
  | t, [] => some t
  | t, n :: rest =>
      match SrcNode.findName t n with
      | some c => SrcNode.findPath c rest
      | none => none

/-- The four conflict-resolution policies of the workspace state
(`'Source Wins' | 'Target Wins' | 'Log Error and Skip' | 'Ask'`). -/
inductive Policy where
  | sourceWins
  | targetWins
  | logAndSkip
  | ask
  deriving DecidableEq, Repr

/-- The bulk/live sync mode (`'smart' | 'force'`). -/
inductive SyncMode where
  | smart
  | force
  deriving DecidableEq, Repr

/-- The three buttons of the `Ask` conflict dialog. -/
inductive AskSelection where
  | overwrite
  | skip
  | viewDiff
  deriving DecidableEq, Repr

/-- The outcome of presenting the interactive conflict prompt
(`vscodeAdapter.showWarningMessage`): it resolves with a selection (or with
nothing, when dismissed), or the call itself rejects. -/
inductive PromptOutcome where
  | returned (sel : Option AskSelection)
  | threw
  deriving DecidableEq, Repr

/-- The persisted workspace state fields the engine reads and writes
(`SettingsService.getState` / `updateEphemeralState`). -/
structure WorkspaceStateM where
  ignoreList : List String
  syncMode : SyncMode
  conflictResolution : Policy
  lastSynced : Option Int
  deriving DecidableEq, Repr

/-- The mutable engine state: the target tree, the stored workspace state,
and the set of source paths pending interactive conflict resolution. -/
structure SyncSt where
  tgt : TgtFS
  ws : WorkspaceStateM
  pending : List (List String)

/-- The immutable environment: the abstract content-digest function
(SHA-256), the abstract glob matcher (`micromatch.isMatch`), the wall
clock, and the oracle for interactive prompt outcomes. -/
structure Env where
  hash : List Nat → List Nat
  globMatch : String → List String → Bool
  now : Int
  promptChoice : List String → PromptOutcome

/-- The filesystem and UI operations the engine can perform, recorded in an
execution log. -/
inductive Op where
  | readdirS (p : List String)
  | readdirT (p : List String)
  | statS (p : List String)
  | statT (p : List String)
  | existsT (p : List String)
  | checksumS (p : List String)
  | checksumT (p : List String)
  | detect (src tgt : List String)
  | mkdir (p : List String)
  | copy (p : List String)
  | utimes (p : List String)
  | unlink (p : List String)
  | rmrf (p : List String)
  | resolve (pol : Policy) (p : List String)
  | prompt (p : List String)
  | openDiff (p : List String)
  | persistentError (p : List String)
  | setLastSynced
  deriving DecidableEq, Repr

/-- Is the operation a file copy (`FileCopierService.copyFileWithMetadata`'s
byte copy)? -/
def Op.isCopy : Op → Bool
  | .copy _ => true
  | _ => false

/-- Is the operation one that only reads the filesystem (list, stat,
existence check, content hash, change detection)? -/
def Op.isRead : Op → Bool
  | .readdirS _ => true
  | .readdirT _ => true
  | .statS _ => true
  | .statT _ => true
  | .existsT _ => true
  | .checksumS _ => true
  | .checksumT _ => true
  | .detect _ _ => true
  | _ => false

/-- The asynchronous engine computation monad: state passing over `SyncSt`,
an error channel for thrown errors / rejected promises, and a log of
performed operations. -/
def M (α : Type) : Type := SyncSt → Except Unit α × SyncSt × List Op

/-- Return a pure value. -/
def M.pure (a : α) : M α := fun s => (.ok a, s, [])

/-- Sequence two computations (`await`), accumulating the operation log and
propagating thrown errors. -/
def M.bind (x : M α) (f : α → M β) : M β := fun s =>
  match x s with
  | (.ok a, s1, ops) =>
      match f a s1 with
      | (r, s2, ops2) => (r, s2, ops ++ ops2)
  | (.error e, s1, ops) => (.error e, s1, ops)

/-- Throw (reject the promise). -/
def M.throw : M α := fun s => (.error (), s, [])

/-- `try x catch e => h e`. -/
def M.tryCatch (x : M α) (h : Unit → M α) : M α := fun s =>
  match x s with
  | (.ok a, s1, ops) => (.ok a, s1, ops)
  | (.error e, s1, ops) =>
      match h e s1 with
      | (r, s2, ops2) => (r, s2, ops ++ ops2)

/-- `try x finally fin` (the model's `fin` never throws). -/
def M.tryFinally (x : M α) (fin : M Unit) : M α := fun s =>
  match x s with
  | (r, s1, ops) =>
      match fin s1 with
      | (_, s2, ops2) => (r, s2, ops ++ ops2)

/-- Record an operation. -/
def emitOp (o : Op) : M Unit := fun s => (.ok (), s, [o])

/-- `stateManager.getState()`. -/
def getWState : M WorkspaceStateM := fun s => (.ok s.ws, s, [])

/-- `fs.existsSync` on the target tree. -/
def existsT (k : List String) : M Bool := fun s =>
  (.ok (s.tgt.find k).isSome, s, [.existsT k])

/-- `fs.promises.stat` on a target path: succeeds on a regular file.  (On a
missing path Node's `stat` rejects; directory stats are never used by a sync
decision and are modelled as a rejection as well.) -/
def statT (k : List String) : M Stats := fun s =>
  match s.tgt.find k with
  | some (.file st _) => (.ok st, s, [.statT k])
  | _ => (.error (), s, [.statT k])

/-- `fs.promises.stat` on a source path.  The source tree is immutable data
in this model, so the caller supplies the file's stats, which the operation
returns while logging the stat call. -/
def statSrc (p : List String) (st : Stats) : M Stats := fun s =>
  (.ok st, s, [.statS p])

/-- All nonempty prefixes of a path, shortest first (the directories
`fs.promises.mkdir(_, recursive)` must ensure). -/
def properPrefixes (k : List String) : List (List String) :=
  (List.range k.length).map (fun i => k.take (i + 1))

/-- Ensure one directory level exists: create it if absent, no-op if it is
already a directory, fail if a regular file occupies the path (`ENOTDIR`). -/
def mkdirStep (p : List String) : M Unit := fun s =>
  match s.tgt.find p with
  | none => (.ok (), { s with tgt := s.tgt.set p .dir }, [.mkdir p])
  | some .dir => (.ok (), s, [.mkdir p])
  | some (.file _ _) => (.error (), s, [.mkdir p])

/-- Walk a list of directory levels with `mkdirStep`. -/
def mkdirAux : List (List String) → M Unit
  | [] => M.pure ()
  | p :: rest => M.bind (mkdirStep p) (fun _ => mkdirAux rest)

/-- `fs.promises.mkdir(k, { recursive: true })` on the target tree. -/
def mkdirRec (k : List String) : M Unit :=
  mkdirAux (properPrefixes k)

/-- `fs.promises.unlink` on the target tree (callers guard with
`existsSync`, so the model is total). -/
def unlinkT (k : List String) : M Unit := fun s =>
  (.ok (), { s with tgt := s.tgt.del k }, [.unlink k])

/-- `fs.promises.rm(k, { recursive: true, force: true })` on the target. -/
def rmRecT (k : List String) : M Unit := fun s =>
  (.ok (), { s with tgt := s.tgt.rmRec k }, [.rmrf k])

/-- `pendingConflicts.add(sourcePath)` (JS `Set` semantics). -/
def addPending (p : List String) : M Unit := fun s =>
  (.ok (), { s with pending := if p ∈ s.pending then s.pending else p :: s.pending }, [])

/-- `pendingConflicts.delete(sourcePath)` (JS `Set` semantics). -/
def removePending (p : List String) : M Unit := fun s =>
  (.ok (), { s with pending := s.pending.filter (fun q => !(q = p : Bool)) }, [])

/-- `SyncActionHandler.updateLastSyncedTimestamp`: store the current time as
the `lastSynced` ephemeral workspace state. -/
def updateLastSyncedTimestamp (env : Env) : M Unit := fun s =>
  (.ok (), { s with ws := { s.ws with lastSynced := some env.now } }, [.setLastSynced])

/-- `isIgnored` (sync-utils): normalize separators and test the relative
path against the glob patterns with `micromatch.isMatch`.  Separators in
this model are already canonical, so normalization is the identity and the
external matcher is applied to the joined relative path. -/
def isIgnored (env : Env) (filePath : List String) (ignoreList : List String) : Bool :=
  env.globMatch (String.intercalate "/" filePath) ignoreList

/-- `calculateChecksum` on a source file: stream the content (supplied by
the immutable source tree) through the digest. -/
def calculateChecksumSrc (env : Env) (p : List String) (content : List Nat) : M (List Nat) :=
  fun s => (.ok (env.hash content), s, [.checksumS p])

/-- `calculateChecksum` on a target file: read the content at the relative
path from the target store and digest it; rejects if no regular file is
there (the read stream errors). -/
def calculateChecksumTgt (env : Env) (k : List String) : M (List Nat) := fun s =>
  match s.tgt.find k with
  | some (.file _ c) => (.ok (env.hash c), s, [.checksumT k])
  | _ => (.error (), s, [.checksumT k])

/-- `areFilesDifferent` (sync-utils): size comparison, then modification
time within a 2000 ms tolerance, then SHA-256 digests of both contents. -/
def areFilesDifferent (env : Env) (sourcePath : List String) (sourceStat : Stats)
    (sourceContent : List Nat) (targetPath : List String) (targetStat : Stats) : M Bool :=
  M.bind (emitOp (.detect sourcePath targetPath)) fun _ =>
  if sourceStat.size ≠ targetStat.size then
    M.pure true
  else if (sourceStat.mtimeMs - targetStat.mtimeMs).natAbs > 2000 then
    M.pure true
  else
    M.bind (calculateChecksumSrc env sourcePath sourceContent) fun sourceHash =>
    M.bind (calculateChecksumTgt env targetPath) fun targetHash =>
    M.pure (decide (sourceHash ≠ targetHash))

/-- The byte copy of `fs.promises.copyFile`: the target file receives the
source content and fresh timestamps (the clock's current time). -/
def copyFileRaw (env : Env) (sourceStat : Stats) (sourceContent : List Nat)
    (targetPath : List String) : M Unit := fun s =>
  (.ok (),
   { s with tgt := s.tgt.set targetPath (.file ⟨sourceStat.size, env.now, env.now⟩ sourceContent) },
   [.copy targetPath])

/-- `fs.promises.utimes(targetPath, atime, mtime)`. -/
def utimesT (targetPath : List String) (atimeMs mtimeMs : Int) : M Unit := fun s =>
  match s.tgt.find targetPath with
  | some (.file st c) =>
      (.ok (),
       { s with tgt := s.tgt.set targetPath (.file ⟨st.size, mtimeMs, atimeMs⟩ c) },
       [.utimes targetPath])
  | _ => (.error (), s, [.utimes targetPath])

/-- `FileCopierService.copyFileWithMetadata`: stat the source, copy the
bytes, then restore the source's pre-copy access and modification times on
the target. -/
def copyFileWithMetadata (env : Env) (sourceStat : Stats) (sourceContent : List Nat)
    (sourcePath targetPath : List String) : M Unit :=
  M.bind (statSrc sourcePath sourceStat) fun st =>
  M.bind (copyFileRaw env st sourceContent targetPath) fun _ =>
  utimesT targetPath st.atimeMs st.mtimeMs

/-- `ConflictHandler.handleAskConflict`: add the source path to the pending
set, present the three-choice modal dialog, map the selection to a verdict
(`View Diff` opens the diff and skips; dismissal skips), return `false` if
the dialog rejects, and always delete the path from the pending set. -/
def handleAskConflict (env : Env) (sourcePath targetPath relativePath : List String) : M Bool :=
  M.bind (addPending sourcePath) fun _ =>
  M.tryFinally
    (M.tryCatch
      (M.bind
        (fun s =>
          match env.promptChoice sourcePath with
          | .returned sel => (.ok sel, s, [.prompt relativePath])
          | .threw => (.error (), s, [.prompt relativePath]))
        fun selection =>
          match selection with
          | some .overwrite => M.pure true
          | some .skip => M.pure false
          | some .viewDiff => M.bind (emitOp (.openDiff relativePath)) fun _ => M.pure false
          | none => M.pure false)
      (fun _ => M.pure false))
    (removePending sourcePath)

/-- `ConflictHandler.handleConflict`: dispatch on the configured policy.
`Source Wins` copies, `Target Wins` skips, `Log Error and Skip` skips with a
persistent error status, `Ask` escalates to the interactive dialog. -/
def handleConflict (env : Env) (sourcePath targetPath relativePath : List String)
    (conflictResolution : Policy) : M Bool :=
  M.bind (emitOp (.resolve conflictResolution relativePath)) fun _ =>
  match conflictResolution with
  | .sourceWins => M.pure true
  | .targetWins => M.pure false
  | .logAndSkip => M.bind (emitOp (.persistentError relativePath)) fun _ => M.pure false
  | .ask => handleAskConflict env sourcePath targetPath relativePath

/-- The verdict `handleConflict` returns for each policy, as a pure
function: used only to state theorems about which runs copy. -/
def resolverVerdict (env : Env) (pol : Policy) (sourcePath : List String) : Bool :=
  match pol with
  | .sourceWins => true
  | .targetWins => false
  | .logAndSkip => false
  | .ask =>
      match env.promptChoice sourcePath with
      | .returned (some .overwrite) => true
      | _ => false

/-- `SmartSyncStrategy.shouldCopyFile`: copy when the target is absent;
otherwise stat both sides, skip when not different, treat a target newer
by more than 2000 ms as a conflict (substituting `Log Error and Skip` for
`Ask` during bulk sync), and otherwise copy as a normal update. -/
def shouldCopyFile (env : Env) (conflictResolution : Policy) (sourceStat : Stats)
    (sourceContent : List Nat) (sourcePath targetPath : List String) : M Bool :=
  M.bind (existsT targetPath) fun ex =>
  if !ex then M.pure true else
  M.bind (statSrc sourcePath sourceStat) fun sstat =>
  M.bind (statT targetPath) fun tstat =>
  M.bind (areFilesDifferent env sourcePath sstat sourceContent targetPath tstat) fun diff =>
  if !diff then M.pure false
  else if tstat.mtimeMs > sstat.mtimeMs + 2000 then
    let effectiveResolution := if conflictResolution = .ask then Policy.logAndSkip else conflictResolution
    handleConflict env sourcePath targetPath targetPath effectiveResolution
  else
    M.pure true

/-- The body of `SmartSyncStrategy.recursiveSmartSync`'s loop over one
directory listing at `relDir` (entries are keyed by their path relative to
the sync root; a degenerate bare-file listing is a no-op).  Ignored entries
are skipped; a directory entry is created on the target and recursed into
(readdir first); a file entry ensures its parent directory, asks
`shouldCopyFile`, copies via `copyFileWithMetadata`, and catches any
per-file error so the traversal continues with its siblings. -/
def smartLoop (env : Env) (ignoreList : List String) (conflictResolution : Policy)
    (relDir : List String) : SrcNode → M Unit
  | .file _ _ => M.pure ()
  | .dnil => M.pure ()
  | .dcons name child rest =>
      M.bind
        (if isIgnored env (relDir ++ [name]) ignoreList then M.pure () else
         match child with
         | .file st c =>
             M.tryCatch
               (M.bind (mkdirRec relDir) fun _ =>
                M.bind (shouldCopyFile env conflictResolution st c
                         (relDir ++ [name]) (relDir ++ [name])) fun b =>
                if b then
                  copyFileWithMetadata env st c (relDir ++ [name]) (relDir ++ [name])
                else M.pure ())
               (fun _ => M.pure ())
         | child =>
             M.bind (mkdirRec (relDir ++ [name])) fun _ =>
             M.bind (emitOp (.readdirS (relDir ++ [name]))) fun _ =>
             smartLoop env ignoreList conflictResolution (relDir ++ [name]) child)
        fun _ => smartLoop env ignoreList conflictResolution relDir rest

/-- `SmartSyncStrategy.execute`: read the source root and run the smart
traversal from the sync roots. -/
def smartExecute (env : Env) (ignoreList : List String) (conflictResolution : Policy)
    (root : SrcNode) : M Unit :=
  M.bind (emitOp (.readdirS [])) fun _ =>
  smartLoop env ignoreList conflictResolution [] root

/-- The body of `ForceSyncStrategy.recursiveForceSync`'s loop: like the
smart loop but every non-ignored file is copied unconditionally, with no
change detection and no conflict handling. -/
def forceLoop (env : Env) (ignoreList : List String) (relDir : List String) :
    SrcNode → M Unit
  | .file _ _ => M.pure ()
  | .dnil => M.pure ()
  | .dcons name child rest =>
      M.bind
        (if isIgnored env (relDir ++ [name]) ignoreList then M.pure () else
         match child with
         | .file st c =>
             M.tryCatch
               (M.bind (mkdirRec relDir) fun _ =>
                copyFileWithMetadata env st c (relDir ++ [name]) (relDir ++ [name]))
               (fun _ => M.pure ())
         | child =>
             M.bind (mkdirRec (relDir ++ [name])) fun _ =>
             M.bind (emitOp (.readdirS (relDir ++ [name]))) fun _ =>
             forceLoop env ignoreList (relDir ++ [name]) child)
        fun _ => forceLoop env ignoreList relDir rest

/-- `ForceSyncStrategy.execute`. -/
def forceExecute (env : Env) (ignoreList : List String) (root : SrcNode) : M Unit :=
  M.bind (emitOp (.readdirS [])) fun _ =>
  forceLoop env ignoreList [] root

/-- The `try` body of `SyncActionHandler.syncFile`: read the workspace
state, honor the ignore list, derive the last-synced threshold (epoch when
never synced), ensure the target parent directory, decide whether to copy
(force mode, absent target, conflict via `handleConflict` when the target
changed after the last successful sync, else plain copy), and on a copy
update the last-synced timestamp. -/
def syncFileBody (env : Env) (sourceStat : Stats) (sourceContent : List Nat)
    (relativePath : List String) : M Unit :=
  M.bind getWState fun ws =>
  if isIgnored env relativePath ws.ignoreList then M.pure () else
  let lastSyncedTimestamp : Int :=
    match ws.lastSynced with
    | some t => t
    | none => 0
  M.bind (mkdirRec relativePath.dropLast) fun _ =>
  M.bind
    (if ws.syncMode = .force then M.pure true
     else
       M.bind (existsT relativePath) fun ex =>
       if !ex then M.pure true
       else
         M.bind (statT relativePath) fun tstat =>
         if tstat.mtimeMs > lastSyncedTimestamp then
           handleConflict env relativePath relativePath relativePath ws.conflictResolution
         else M.pure true)
    fun shouldCopy =>
  if shouldCopy then
    M.bind (copyFileWithMetadata env sourceStat sourceContent relativePath relativePath) fun _ =>
    updateLastSyncedTimestamp env
  else M.pure ()

/-- `SyncActionHandler.syncFile` (watcher add/change event): no-op when the
path is pending interactive resolution, otherwise run the body and turn any
error into a logged persistent error status. -/
def syncFile (env : Env) (sourceStat : Stats) (sourceContent : List Nat)
    (relativePath : List String) : M Unit := fun s =>
  if relativePath ∈ s.pending then (.ok (), s, []) else
  M.tryCatch (syncFileBody env sourceStat sourceContent relativePath)
    (fun _ => emitOp (.persistentError relativePath)) s

/-- `SyncActionHandler.deleteFile` (watcher unlink event): delete the
corresponding target file if it exists and record a successful sync time. -/
def deleteFile (env : Env) (relativePath : List String) : M Unit :=
  M.tryCatch
    (M.bind (existsT relativePath) fun ex =>
     if ex then
       M.bind (unlinkT relativePath) fun _ => updateLastSyncedTimestamp env
     else M.pure ())
    (fun _ => emitOp (.persistentError relativePath))

/-- `SyncActionHandler.syncDirectory` (watcher addDir event). -/
def syncDirectory (env : Env) (relativePath : List String) : M Unit :=
  M.tryCatch (mkdirRec relativePath)
    (fun _ => emitOp (.persistentError relativePath))

/-- `SyncActionHandler.deleteDirectory` (watcher unlinkDir event):
recursively delete the corresponding target directory if it exists.  (The
code records no sync timestamp here, unlike `deleteFile` and `syncFile`.) -/
def deleteDirectory (env : Env) (relativePath : List String) : M Unit :=
  M.tryCatch
    (M.bind (existsT relativePath) fun ex =>
     if ex then rmRecT relativePath
     else M.pure ())
    (fun _ => emitOp (.persistentError relativePath))

/-- The kind of a pending change found by the preview. -/
inductive ChangeType where
  | CREATE
  | UPDATE
  | CONFLICT
  | WARNING_ONLY_IN_TARGET
  deriving DecidableEq, Repr

/-- A `ChangeLog` record of the Preview Calculator. -/
structure ChangeLog where
  type : ChangeType
  relativePath : List String
  sourcePath : Option (List String)
  targetPath : Option (List String)
  deriving DecidableEq, Repr

/-- The loop of `PreviewCalculator.recursivePreviewScan` over one source
directory listing: classify each non-ignored file as CREATE (target
absent), UPDATE (different, source mtime greater) or CONFLICT (different,
target at least as new), recurse into directories, and catch per-entry
errors. -/
def previewLoop (env : Env) (ignoreList : List String) (relDir : List String) :
    SrcNode → M (List ChangeLog)
  | .file _ _ => M.pure []
  | .dnil => M.pure []
  | .dcons name child rest =>
      M.bind
        (if isIgnored env (relDir ++ [name]) ignoreList then M.pure [] else
         match child with
         | .file st c =>
             M.tryCatch
               (M.bind (existsT (relDir ++ [name])) fun ex =>
                if !ex then
                  M.pure [⟨.CREATE, relDir ++ [name], some (relDir ++ [name]),
                           some (relDir ++ [name])⟩]
                else
                  M.bind (statSrc (relDir ++ [name]) st) fun sstat =>
                  M.bind (statT (relDir ++ [name])) fun tstat =>
                  M.bind (areFilesDifferent env (relDir ++ [name]) sstat c
                           (relDir ++ [name]) tstat) fun diff =>
                  if diff then
                    M.pure [⟨if sstat.mtimeMs > tstat.mtimeMs then ChangeType.UPDATE
                             else ChangeType.CONFLICT,
                             relDir ++ [name], some (relDir ++ [name]),
                             some (relDir ++ [name])⟩]
                  else M.pure [])
               (fun _ => M.pure [])
         | child =>
             M.bind (emitOp (.readdirS (relDir ++ [name]))) fun _ =>
             previewLoop env ignoreList (relDir ++ [name]) child)
        fun cs =>
      M.bind (previewLoop env ignoreList relDir rest) fun rests =>
      M.pure (cs ++ rests)

/-- One directory level of `PreviewCalculator.recursiveOrphanScan`: list the
target directory, flag non-ignored entries with no corresponding source
path as orphans, and recurse into target subdirectories.  `fuel` bounds the
recursion depth (always at least the deepest target key, so real traversals
never exhaust it). -/
def orphanGo (env : Env) (ignoreList : List String) (root : SrcNode) :
    Nat → List String → M (List ChangeLog)
  | 0, _ => M.pure []
  | Nat.succ fuel, cur =>
      M.bind (fun s => (.ok (s.tgt.childNames cur), s, [.readdirT cur])) fun names =>
      (names.foldr
        (fun name acc =>
          M.bind
            (if isIgnored env (cur ++ [name]) ignoreList then M.pure [] else
             M.bind (fun s => (.ok (s.tgt.find (cur ++ [name])), s, [])) fun entry =>
             if (root.findPath (cur ++ [name])).isNone then
               M.pure [⟨.WARNING_ONLY_IN_TARGET, cur ++ [name], none, some (cur ++ [name])⟩]
             else
               match entry with
               | some .dir => orphanGo env ignoreList root fuel (cur ++ [name])
               | _ => M.pure [])
            fun cs => M.bind acc fun rests => M.pure (cs ++ rests))
        (M.pure []))

/-- `PreviewCalculator.calculate`: the forward scan over the source tree
followed by the orphan scan over the target tree; returns the accumulated
change records and performs no mutation. -/
def previewCalculate (env : Env) (ignoreList : List String) (root : SrcNode) :
    M (List ChangeLog) :=
  M.bind (emitOp (.readdirS [])) fun _ =>
  M.bind (previewLoop env ignoreList [] root) fun cs =>
  M.bind (fun s => (.ok s.tgt.depth, s, [])) fun fuel =>
  M.bind (orphanGo env ignoreList root (fuel + 1) []) fun orphans =>
  M.pure (cs ++ orphans)

/-- Pointwise relation between two states: at key `k`, the second state
either agrees with the first or has a directory where the first had
nothing.  (Re-running a sync can at most re-create directories.) -/
def DirExtAt (s s2 : SyncSt) (k : List String) : Prop :=
  s2.tgt.find k = s.tgt.find k ∨ (s.tgt.find k = none ∧ s2.tgt.find k = some TEntry.dir)

/-- The keys a smart traversal of listing `t` at `relDir` can read or
write: ancestors of `relDir` (parent-directory creation) and keys below a
listed entry. -/
def touchedKey (relDir : List String) (t : SrcNode) (k : List String) : Prop :=
  k.isPrefixOf relDir = true ∨ ∃ n, n ∈ t.names ∧ (relDir ++ [n]).isPrefixOf k = true

/-- A concrete environment for witness evaluations: the identity digest, a
matcher that ignores a path exactly when it is listed literally, the clock
at 5000 ms, and a prompt that is dismissed without a choice. -/
def envW : Env where
  hash := fun c => c
  globMatch := fun p pats => pats.contains p
  now := 5000
  promptChoice := fun _ => .returned none

/-- Like `envW`, but presenting the prompt throws. -/
def envWThrew : Env where
  hash := fun c => c
  globMatch := fun p pats => pats.contains p
  now := 5000
  promptChoice := fun _ => .threw

/-- A concrete workspace state for witness evaluations. -/
def wsW : WorkspaceStateM where
  ignoreList := []
  syncMode := .smart
  conflictResolution := .sourceWins
  lastSynced := none

theorem TgtFS.find_set (m : TgtFS) (k : List String) (v : TEntry) (q : List String) :
    (m.set k v).find q = if k = q then some v else m.find q := rfl

theorem DirExtAt.refl (s : SyncSt) (k : List String) : DirExtAt s s k :=
  Or.inl rfl

theorem DirExtAt.trans {s1 s2 s3 : SyncSt} {k : List String}
    (h1 : DirExtAt s1 s2 k) (h2 : DirExtAt s2 s3 k) : DirExtAt s1 s3 k := by
  rcases h1 with h1 | ⟨h1a, h1b⟩
  · rcases h2 with h2 | ⟨h2a, h2b⟩
    · exact Or.inl (h2.trans h1)
    · exact Or.inr ⟨h1 ▸ h2a, h2b⟩
  · rcases h2 with h2 | ⟨h2a, h2b⟩
    · exact Or.inr ⟨h1a, h2.trans h1b⟩
    · exact Or.inr ⟨h1a, h2b⟩

/-- Full evaluation of `areFilesDifferent`: it never changes the state, and
its outcome is determined by the two stat records and the two contents. -/
theorem areFilesDifferent_run (env : Env) (sp : List String) (sst : Stats)
    (sc : List Nat) (tp : List String) (tst : Stats) (s : SyncSt) :
    areFilesDifferent env sp sst sc tp tst s =
      (if sst.size ≠ tst.size then ((.ok true : Except Unit Bool), s, [Op.detect sp tp])
       else if (sst.mtimeMs - tst.mtimeMs).natAbs > 2000 then (.ok true, s, [Op.detect sp tp])
       else
         match s.tgt.find tp with
         | some (.file _ tc) =>
             (.ok (decide (env.hash sc ≠ env.hash tc)), s,
              [Op.detect sp tp, Op.checksumS sp, Op.checksumT tp])
         | _ => (.error (), s, [Op.detect sp tp, Op.checksumS sp, Op.checksumT tp])) := by
  by_cases hsize : sst.size = tst.size
  · by_cases htime : (sst.mtimeMs - tst.mtimeMs).natAbs > 2000
    · simp [areFilesDifferent, M.bind, emitOp, M.pure, hsize, htime]
    · rcases hf : s.tgt.find tp with _ | e
      · simp [areFilesDifferent, M.bind, emitOp, M.pure, hsize, htime,
          calculateChecksumSrc, calculateChecksumTgt, hf]
      · cases e <;>
          simp [areFilesDifferent, M.bind, emitOp, M.pure, hsize, htime,
            calculateChecksumSrc, calculateChecksumTgt, hf]
  · simp [areFilesDifferent, M.bind, emitOp, M.pure, hsize]

/-- Full evaluation of `copyFileWithMetadata`: it always succeeds, performs
a stat, a copy and a utimes, and afterwards the target path holds the
source content with the source's pre-copy times, all other keys unchanged. -/
theorem copyFileWithMetadata_run (env : Env) (st : Stats) (c : List Nat)
    (sp tp : List String) (s : SyncSt) :
    copyFileWithMetadata env st c sp tp s =
      (.ok (),
       { s with tgt := (s.tgt.set tp (.file ⟨st.size, env.now, env.now⟩ c)).set tp
                         (.file ⟨st.size, st.mtimeMs, st.atimeMs⟩ c) },
       [Op.statS sp, Op.copy tp, Op.utimes tp]) := by
  simp only [copyFileWithMetadata, M.bind, statSrc, copyFileRaw, utimesT]
  simp [TgtFS.find, TgtFS.set]

theorem copyFileWithMetadata_find (env : Env) (st : Stats) (c : List Nat)
    (sp tp : List String) (s : SyncSt) (q : List String) :
    ((copyFileWithMetadata env st c sp tp s).2.1).tgt.find q =
      if tp = q then some (.file ⟨st.size, st.mtimeMs, st.atimeMs⟩ c)
      else s.tgt.find q := by
  rw [copyFileWithMetadata_run]
  by_cases h : tp = q <;> simp [TgtFS.find_set, h]

theorem handleConflict_sourceWins (env : Env) (sp tp rp : List String) (s : SyncSt) :
    handleConflict env sp tp rp .sourceWins s = (.ok true, s, [Op.resolve .sourceWins rp]) := rfl

theorem handleConflict_targetWins (env : Env) (sp tp rp : List String) (s : SyncSt) :
    handleConflict env sp tp rp .targetWins s = (.ok false, s, [Op.resolve .targetWins rp]) := rfl

theorem handleConflict_logAndSkip (env : Env) (sp tp rp : List String) (s : SyncSt) :
    handleConflict env sp tp rp .logAndSkip s =
      (.ok false, s, [Op.resolve .logAndSkip rp, Op.persistentError rp]) := rfl

/-- Full evaluation of the `Ask` path of the conflict handler: it returns
the verdict matching the prompt outcome (`false` on dismissal and on a
thrown prompt), removes the source path from the pending set on every exit
path, and touches nothing else. -/
theorem handleAskConflict_run (env : Env) (sp tp rp : List String) (s : SyncSt) :
    ∃ ops, handleAskConflict env sp tp rp s =
      (.ok (resolverVerdict env .ask sp),
       { s with pending := s.pending.filter (fun q => !(q = sp : Bool)) }, ops) ∧
      (∀ o ∈ ops, o = Op.prompt rp ∨ o = Op.openDiff rp) := by
  have hpend : (if sp ∈ s.pending then s.pending else sp :: s.pending).filter
      (fun q => !(q = sp : Bool)) = s.pending.filter (fun q => !(q = sp : Bool)) := by
    split
    · rfl
    · simp [List.filter_cons]
  rcases hout : env.promptChoice sp with sel | _
  · rcases sel with _ | ch
    · refine ⟨[Op.prompt rp], ?_, by simp⟩
      simp only [handleAskConflict, M.bind, addPending, M.tryFinally, M.tryCatch, M.pure,
        removePending, hout, resolverVerdict]
      simp [hpend, hout]
    · cases ch
      · refine ⟨[Op.prompt rp], ?_, by simp⟩
        simp only [handleAskConflict, M.bind, addPending, M.tryFinally, M.tryCatch, M.pure,
          removePending, hout, resolverVerdict]
        simp [hpend, hout]
      · refine ⟨[Op.prompt rp], ?_, by simp⟩
        simp only [handleAskConflict, M.bind, addPending, M.tryFinally, M.tryCatch, M.pure,
          removePending, hout, resolverVerdict]
        simp [hpend, hout]
      · refine ⟨[Op.prompt rp, Op.openDiff rp], ?_, by simp⟩
        simp only [handleAskConflict, M.bind, addPending, M.tryFinally, M.tryCatch, M.pure,
          removePending, emitOp, hout, resolverVerdict]
        simp [hpend, hout]
  · refine ⟨[Op.prompt rp], ?_, by simp⟩
    simp only [handleAskConflict, M.bind, addPending, M.tryFinally, M.tryCatch, M.pure,
      removePending, hout, resolverVerdict]
    simp [hpend, hout]

/-- Full evaluation of `handleConflict` for any policy. -/
theorem handleConflict_run (env : Env) (sp tp rp : List String) (pol : Policy) (s : SyncSt) :
    ∃ ops, handleConflict env sp tp rp pol s =
      (.ok (resolverVerdict env pol sp),
       { s with pending := if pol = .ask then s.pending.filter (fun q => !(q = sp : Bool))
                           else s.pending }, ops) ∧
      ops.head? = some (Op.resolve pol rp) ∧
      (∀ o ∈ ops, o = Op.resolve pol rp ∨ o = Op.persistentError rp ∨
        o = Op.prompt rp ∨ o = Op.openDiff rp) := by
  cases pol
  · exact ⟨[Op.resolve .sourceWins rp], by simp [handleConflict_sourceWins, resolverVerdict], by simp, by simp⟩
  · exact ⟨[Op.resolve .targetWins rp], by simp [handleConflict_targetWins, resolverVerdict], by simp, by simp⟩
  · exact ⟨[Op.resolve .logAndSkip rp, Op.persistentError rp],
      by simp [handleConflict_logAndSkip, resolverVerdict], by simp, by simp⟩
  · obtain ⟨ops, hrun, hkinds⟩ := handleAskConflict_run env sp tp rp s
    refine ⟨Op.resolve .ask rp :: ops, ?_, by simp, ?_⟩
    · simp only [handleConflict, M.bind, emitOp, hrun]
      simp
    · intro o ho
      rcases List.mem_cons.mp ho with h | h
      · exact Or.inl h
      · rcases hkinds o h with h | h
        · exact Or.inr (Or.inr (Or.inl h))
        · exact Or.inr (Or.inr (Or.inr h))

/-- `mkdirAux` only records `mkdir` operations and only changes the target
store by creating directories (at walked keys) where nothing existed. -/
theorem mkdirAux_run (ps : List (List String)) (s : SyncSt) :
    ∃ r s2 ops, mkdirAux ps s = (r, s2, ops) ∧ s2.ws = s.ws ∧ s2.pending = s.pending ∧
      (∀ k, s2.tgt.find k = s.tgt.find k ∨
        (s.tgt.find k = none ∧ s2.tgt.find k = some TEntry.dir ∧ k ∈ ps)) ∧
      (∀ o ∈ ops, ∃ p, o = Op.mkdir p) := by
  induction ps generalizing s with
  | nil =>
      exact ⟨.ok (), s, [], rfl, rfl, rfl, fun k => Or.inl rfl, by simp⟩
  | cons p rest ih =>
      rcases hf : s.tgt.find p with _ | e
      · obtain ⟨r, s2, ops, hrun, hws, hpend, hfind, hops⟩ :=
          ih { s with tgt := s.tgt.set p .dir }
        refine ⟨r, s2, Op.mkdir p :: ops, ?_, hws, hpend, ?_, ?_⟩
        · simp [mkdirAux, M.bind, mkdirStep, hf, hrun]
        · intro k
          rcases hfind k with h | ⟨h1, h2, h3⟩
          · rw [h]
            simp only [TgtFS.find_set]
            by_cases hpk : p = k
            · subst hpk
              exact Or.inr ⟨hf, by simp, by simp⟩
            · simp [hpk]
          · simp only [TgtFS.find_set] at h1
            by_cases hpk : p = k
            · simp [hpk] at h1
            · simp only [if_neg hpk] at h1
              exact Or.inr ⟨h1, h2, List.mem_cons_of_mem _ h3⟩
        · intro o ho
          rcases List.mem_cons.mp ho with h | h
          · exact ⟨p, h⟩
          · exact hops o h
      · cases e
        · refine ⟨.error (), s, [Op.mkdir p], ?_, rfl, rfl, fun k => Or.inl rfl, by simp⟩
          simp only [mkdirAux, M.bind, mkdirStep, hf]
        · obtain ⟨r, s2, ops, hrun, hws, hpend, hfind, hops⟩ := ih s
          refine ⟨r, s2, Op.mkdir p :: ops, ?_, hws, hpend, ?_, ?_⟩
          · simp [mkdirAux, M.bind, mkdirStep, hf, hrun]
          · intro k
            rcases hfind k with h | ⟨h1, h2, h3⟩
            · exact Or.inl h
            · exact Or.inr ⟨h1, h2, List.mem_cons_of_mem _ h3⟩
          · intro o ho
            rcases List.mem_cons.mp ho with h | h
            · exact ⟨p, h⟩
            · exact hops o h

/-- `mkdirAux` succeeds when no walked key is occupied by a regular file. -/
theorem mkdirAux_ok (ps : List (List String)) (s : SyncSt)
    (h : ∀ p ∈ ps, ∀ st c, s.tgt.find p ≠ some (TEntry.file st c)) :
    ∃ s2 ops, mkdirAux ps s = (.ok (), s2, ops) := by
  induction ps generalizing s with
  | nil => exact ⟨s, [], rfl⟩
  | cons p rest ih =>
      rcases hf : s.tgt.find p with _ | e
      · have hpres : ∀ q ∈ rest, ∀ st c,
            ({ s with tgt := s.tgt.set p .dir } : SyncSt).tgt.find q ≠ some (TEntry.file st c) := by
          intro q hq st c
          simp only [TgtFS.find_set]
          by_cases hpq : p = q
          · simp [hpq]
          · simp only [if_neg hpq]
            exact h q (List.mem_cons_of_mem _ hq) st c
        obtain ⟨s2, ops, hrun⟩ := ih { s with tgt := s.tgt.set p .dir } hpres
        exact ⟨s2, Op.mkdir p :: ops, by simp [mkdirAux, M.bind, mkdirStep, hf, hrun]⟩
      · cases e with
        | file st c => exact absurd hf (h p (List.mem_cons_self _ _) st c)
        | dir =>
            obtain ⟨s2, ops, hrun⟩ := ih s (fun q hq => h q (List.mem_cons_of_mem _ hq))
            exact ⟨s2, Op.mkdir p :: ops, by simp [mkdirAux, M.bind, mkdirStep, hf, hrun]⟩

/-- Re-running `mkdirAux` after a run whose final state is preserved (up to
directory re-creation) at the walked keys yields the same outcome and
leaves the state untouched. -/
theorem mkdirAux_idem (ps : List (List String)) :
    ∀ (s : SyncSt) r s1 ops, mkdirAux ps s = (r, s1, ops) →
    ∀ s3, (∀ p ∈ ps, DirExtAt s1 s3 p) →
    ∃ ops2, mkdirAux ps s3 = (r, s3, ops2) ∧ (∀ o ∈ ops2, ∃ p, o = Op.mkdir p) := by
  induction ps with
  | nil =>
      intro s r s1 ops hrun s3 _
      have hq : (r, s1, ops) = ((.ok () : Except Unit Unit), s, ([] : List Op)) := by
        rw [← hrun]
        rfl
      have hr : r = .ok () := congrArg Prod.fst hq
      exact ⟨[], by simp [mkdirAux, M.pure, hr], by simp⟩
  | cons p rest ih =>
      intro s r s1 ops hrun s3 hext
      rcases hf : s.tgt.find p with _ | e
      · -- created p as a directory, then walked the rest
        rcases hrest : mkdirAux rest { s with tgt := s.tgt.set p .dir } with ⟨r2, s2, ops2⟩
        have hruns : mkdirAux (p :: rest) s = (r2, s2, Op.mkdir p :: ops2) := by
          simp only [mkdirAux, M.bind, mkdirStep, hf, hrest, List.singleton_append]
        rw [hrun] at hruns
        obtain ⟨hr, hs, hops⟩ : r = r2 ∧ s1 = s2 ∧ ops = Op.mkdir p :: ops2 := by
          exact ⟨congrArg Prod.fst hruns, congrArg (fun x => x.2.1) hruns,
                 congrArg (fun x => x.2.2) hruns⟩
        subst hr hs
        have hs1p : s1.tgt.find p = some TEntry.dir := by
          obtain ⟨r3, s4, ops4, hrun4, _, _, hfind4, _⟩ :=
            mkdirAux_run rest { s with tgt := s.tgt.set p .dir }
          rw [hrest] at hrun4
          have hs4 : s4 = s1 := congrArg (fun x => x.2.1) hrun4.symm
          subst hs4
          rcases hfind4 p with h | ⟨h1, _, _⟩
          · rw [h]
            simp [TgtFS.find_set]
          · simp [TgtFS.find_set] at h1
        have hs3p : s3.tgt.find p = some TEntry.dir := by
          rcases hext p (List.mem_cons_self _ _) with h | ⟨h1, _⟩
          · rw [h, hs1p]
          · rw [hs1p] at h1
            cases h1
        obtain ⟨ops5, hrun5, hkinds5⟩ :=
          ih { s with tgt := s.tgt.set p .dir } r s1 ops2 hrest s3
            (fun q hq => hext q (List.mem_cons_of_mem _ hq))
        refine ⟨Op.mkdir p :: ops5, ?_, ?_⟩
        · simp only [mkdirAux, M.bind, mkdirStep, hs3p, hrun5, List.singleton_append]
        · intro o ho
          rcases List.mem_cons.mp ho with h | h
          · exact ⟨p, h⟩
          · exact hkinds5 o h
      · cases e
        · -- a file blocks the walk: it fails identically on the re-run
          have hruns : mkdirAux (p :: rest) s = (.error (), s, [Op.mkdir p]) := by
            simp only [mkdirAux, M.bind, mkdirStep, hf]
          rw [hrun] at hruns
          obtain ⟨hr, hs, hops⟩ : r = (.error () : Except Unit Unit) ∧ s1 = s ∧ ops = [Op.mkdir p] := by
            exact ⟨congrArg Prod.fst hruns, congrArg (fun x => x.2.1) hruns,
                   congrArg (fun x => x.2.2) hruns⟩
          subst hr
          have hs3p : ∃ st c, s3.tgt.find p = some (TEntry.file st c) := by
            rcases hext p (List.mem_cons_self _ _) with h | ⟨h1, _⟩
            · rw [h, hs, hf]
              exact ⟨_, _, rfl⟩
            · rw [hs, hf] at h1
              cases h1
          obtain ⟨st, c, hs3p⟩ := hs3p
          exact ⟨[Op.mkdir p], by simp only [mkdirAux, M.bind, mkdirStep, hs3p], by simp⟩
        · -- p is already a directory
          rcases hrest : mkdirAux rest s with ⟨r2, s2, ops2⟩
          have hruns : mkdirAux (p :: rest) s = (r2, s2, Op.mkdir p :: ops2) := by
            simp only [mkdirAux, M.bind, mkdirStep, hf, hrest, List.singleton_append]
          rw [hrun] at hruns
          obtain ⟨hr, hs, hops⟩ : r = r2 ∧ s1 = s2 ∧ ops = Op.mkdir p :: ops2 := by
            exact ⟨congrArg Prod.fst hruns, congrArg (fun x => x.2.1) hruns,
                   congrArg (fun x => x.2.2) hruns⟩
          subst hr hs
          have hs1p : s1.tgt.find p = some TEntry.dir := by
            obtain ⟨r3, s4, ops4, hrun4, _, _, hfind4, _⟩ := mkdirAux_run rest s
            rw [hrest] at hrun4
            have hs4 : s4 = s1 := congrArg (fun x => x.2.1) hrun4.symm
            subst hs4
            rcases hfind4 p with h | ⟨h1, _, _⟩
            · rw [h, hf]
            · rw [hf] at h1
              cases h1
          have hs3p : s3.tgt.find p = some TEntry.dir := by
            rcases hext p (List.mem_cons_self _ _) with h | ⟨h1, _⟩
            · rw [h, hs1p]
            · rw [hs1p] at h1
              cases h1
          obtain ⟨ops5, hrun5, hkinds5⟩ :=
            ih s r s1 ops2 hrest s3 (fun q hq => hext q (List.mem_cons_of_mem _ hq))
          refine ⟨Op.mkdir p :: ops5, ?_, ?_⟩
          · simp only [mkdirAux, M.bind, mkdirStep, hs3p, hrun5, List.singleton_append]
          · intro o ho
            rcases List.mem_cons.mp ho with h | h
            · exact ⟨p, h⟩
            · exact hkinds5 o h

/-- C1: the Change Detector `areFilesDifferent` returns `true` when the
sizes differ (performing no content I/O: the operation log holds only the
detect marker); otherwise returns `true` when the modification times differ
by more than 2000 ms; otherwise returns `true` exactly when the SHA-256
digests of the two files' full contents differ, and `false` when they are
equal. -/
theorem claim_C1_change_detector (env : Env) (sp : List String) (sst : Stats)
    (sc : List Nat) (tp : List String) (tst : Stats) (tc : List Nat) (s : SyncSt) :
    (sst.size ≠ tst.size →
      areFilesDifferent env sp sst sc tp tst s = (.ok true, s, [Op.detect sp tp])) ∧
    (sst.size = tst.size → (sst.mtimeMs - tst.mtimeMs).natAbs > 2000 →
      areFilesDifferent env sp sst sc tp tst s = (.ok true, s, [Op.detect sp tp])) ∧
    (sst.size = tst.size → (sst.mtimeMs - tst.mtimeMs).natAbs ≤ 2000 →
      s.tgt.find tp = some (.file tst tc) →
      areFilesDifferent env sp sst sc tp tst s =
        (.ok (decide (env.hash sc ≠ env.hash tc)), s,
         [Op.detect sp tp, Op.checksumS sp, Op.checksumT tp])) := by
  refine ⟨?_, ?_, ?_⟩
  · intro h
    rw [areFilesDifferent_run]
    simp [h]
  · intro h1 h2
    rw [areFilesDifferent_run]
    simp [h1, h2]
  · intro h1 h2 h3
    rw [areFilesDifferent_run, h3]
    simp [h1, Nat.not_lt.mpr h2]

theorem claim_C1_witness :
    ((⟨5, 1000, 0⟩ : Stats).size = (⟨5, 2500, 0⟩ : Stats).size ∧
     ((⟨5, 1000, 0⟩ : Stats).mtimeMs - (⟨5, 2500, 0⟩ : Stats).mtimeMs).natAbs ≤ 2000 ∧
     (SyncSt.mk [(["a"], .file ⟨5, 2500, 0⟩ [2])] wsW []).tgt.find ["a"] =
       some (.file ⟨5, 2500, 0⟩ [2])) ∧
    areFilesDifferent envW ["a"] ⟨5, 1000, 0⟩ [1] ["a"] ⟨5, 2500, 0⟩
      (SyncSt.mk [(["a"], .file ⟨5, 2500, 0⟩ [2])] wsW []) =
      (.ok true, SyncSt.mk [(["a"], .file ⟨5, 2500, 0⟩ [2])] wsW [],
       [Op.detect ["a"] ["a"], Op.checksumS ["a"], Op.checksumT ["a"]]) := by
  refine ⟨⟨by decide, by decide, by decide⟩, ?_⟩
  have h := (claim_C1_change_detector envW ["a"] ⟨5, 1000, 0⟩ [1] ["a"] ⟨5, 2500, 0⟩ [2]
    (SyncSt.mk [(["a"], .file ⟨5, 2500, 0⟩ [2])] wsW [])).2.2 (by decide) (by decide) (by decide)
  exact h

/-- C4: immediately after `copyFileWithMetadata`, the target holds the
source content with modification and access times equal to the source's
pre-copy values, and re-running the Change Detector on the same pair
reports "not different". -/
theorem claim_C4_copy_roundtrip (env : Env) (st : Stats) (c : List Nat)
    (sp tp : List String) (s : SyncSt) :
    (copyFileWithMetadata env st c sp tp s).1 = .ok () ∧
    ((copyFileWithMetadata env st c sp tp s).2.1).tgt.find tp =
      some (.file ⟨st.size, st.mtimeMs, st.atimeMs⟩ c) ∧
    (areFilesDifferent env sp st c tp ⟨st.size, st.mtimeMs, st.atimeMs⟩
      ((copyFileWithMetadata env st c sp tp s).2.1)).1 = .ok false := by
  refine ⟨by rw [copyFileWithMetadata_run], ?_, ?_⟩
  · rw [copyFileWithMetadata_find]
    simp
  · rw [areFilesDifferent_run, copyFileWithMetadata_find]
    simp

/-- C6: in the Ask resolver, a throwing prompt resolves to `false` (skip,
never overwrite), and on every exit path the source path added to the
pending-conflict set at entry has been removed by the time resolution
completes, leaving all other pending paths as they were (and the rest of
the state untouched). -/
theorem claim_C6_ask_failure_and_cleanup (env : Env) (sp tp rp : List String) (s : SyncSt) :
    ∃ b ops, handleAskConflict env sp tp rp s =
      (.ok b, { s with pending := s.pending.filter (fun q => !(q = sp : Bool)) }, ops) ∧
      (env.promptChoice sp = .threw → b = false) ∧
      sp ∉ s.pending.filter (fun q => !(q = sp : Bool)) ∧
      (∀ q, q ≠ sp → (q ∈ s.pending.filter (fun q2 => !(q2 = sp : Bool)) ↔ q ∈ s.pending)) := by
  obtain ⟨ops, hrun, _⟩ := handleAskConflict_run env sp tp rp s
  refine ⟨resolverVerdict env .ask sp, ops, hrun, ?_, ?_, ?_⟩
  · intro h
    simp [resolverVerdict, h]
  · simp [List.mem_filter]
  · intro q hq
    simp [List.mem_filter, hq]

theorem claim_C6_witness :
    ∃ b ops, handleAskConflict envWThrew ["a"] ["b"] ["a"]
        (SyncSt.mk [] wsW [["a"], ["z"]]) =
      (.ok b, { SyncSt.mk [] wsW [["a"], ["z"]] with
                pending := (SyncSt.mk [] wsW [["a"], ["z"]]).pending.filter
                  (fun q => !(q = ["a"] : Bool)) }, ops) ∧
      (envWThrew.promptChoice ["a"] = .threw → b = false) ∧
      ["a"] ∉ (SyncSt.mk [] wsW [["a"], ["z"]]).pending.filter (fun q => !(q = ["a"] : Bool)) ∧
      (∀ q, q ≠ ["a"] →
        (q ∈ (SyncSt.mk [] wsW [["a"], ["z"]]).pending.filter (fun q2 => !(q2 = ["a"] : Bool)) ↔
         q ∈ (SyncSt.mk [] wsW [["a"], ["z"]]).pending)) :=
  claim_C6_ask_failure_and_cleanup envWThrew ["a"] ["b"] ["a"] (SyncSt.mk [] wsW [["a"], ["z"]])

/-- `shouldCopyFile` when the target exists, is a file, and is not
different: it returns `false` and performs only reads. -/
theorem shouldCopyFile_run_same (env : Env) (pol : Policy) (st : Stats) (c : List Nat)
    (sp tp : List String) (s : SyncSt) (tst : Stats) (tc : List Nat)
    (hfind : s.tgt.find tp = some (.file tst tc))
    (hsize : st.size = tst.size)
    (htime : (st.mtimeMs - tst.mtimeMs).natAbs ≤ 2000)
    (hhash : env.hash c = env.hash tc) :
    shouldCopyFile env pol st c sp tp s =
      (.ok false, s,
       [Op.existsT tp, Op.statS sp, Op.statT tp, Op.detect sp tp,
        Op.checksumS sp, Op.checksumT tp]) := by
  simp only [shouldCopyFile, M.bind, existsT, statSrc, statT, hfind, Option.isSome_some,
    Bool.not_true, Bool.false_eq_true, if_false, areFilesDifferent_run, M.pure]
  simp [M.pure, hsize, Nat.not_lt.mpr htime, hhash]

/-- `shouldCopyFile` when the target exists, is a file, is different, and
is not newer than the source by more than the tolerance: an ordinary
update, returning `true` with only reads and no conflict resolution. -/
theorem shouldCopyFile_run_update (env : Env) (pol : Policy) (st : Stats) (c : List Nat)
    (sp tp : List String) (s : SyncSt) (tst : Stats) (tc : List Nat)
    (hfind : s.tgt.find tp = some (.file tst tc))
    (hdiff : st.size ≠ tst.size ∨ env.hash c ≠ env.hash tc)
    (hnotnewer : ¬tst.mtimeMs > st.mtimeMs + 2000) :
    ∃ ops, shouldCopyFile env pol st c sp tp s = (.ok true, s, ops) ∧
      ∀ o ∈ ops, o.isRead = true := by
  by_cases hsize : st.size = tst.size
  · by_cases htime : (st.mtimeMs - tst.mtimeMs).natAbs > 2000
    · refine ⟨[Op.existsT tp, Op.statS sp, Op.statT tp, Op.detect sp tp], ?_, by intro o ho; fin_cases ho <;> rfl⟩
      simp only [shouldCopyFile, M.bind, existsT, statSrc, statT, hfind, Option.isSome_some,
        Bool.not_true, Bool.false_eq_true, if_false, areFilesDifferent_run, M.pure]
      simp [M.pure, hsize, htime, hnotnewer]
    · have hhash : env.hash c ≠ env.hash tc := by
        rcases hdiff with h | h
        · exact absurd hsize h
        · exact h
      refine ⟨[Op.existsT tp, Op.statS sp, Op.statT tp, Op.detect sp tp,
               Op.checksumS sp, Op.checksumT tp], ?_, by intro o ho; fin_cases ho <;> rfl⟩
      simp only [shouldCopyFile, M.bind, existsT, statSrc, statT, hfind, Option.isSome_some,
        Bool.not_true, Bool.false_eq_true, if_false, areFilesDifferent_run, M.pure]
      simp [M.pure, hsize, htime, hhash, hnotnewer]
  · refine ⟨[Op.existsT tp, Op.statS sp, Op.statT tp, Op.detect sp tp], ?_, by intro o ho; fin_cases ho <;> rfl⟩
    simp only [shouldCopyFile, M.bind, existsT, statSrc, statT, hfind, Option.isSome_some,
      Bool.not_true, Bool.false_eq_true, if_false, areFilesDifferent_run, M.pure]
    simp [M.pure, hsize, hnotnewer]

/-- `handleConflict` under any non-interactive policy: exact outcome. -/
theorem handleConflict_nonask_run (env : Env) (sp tp rp : List String) (pol : Policy)
    (s : SyncSt) (h : pol ≠ .ask) :
    handleConflict env sp tp rp pol s =
      (.ok (resolverVerdict env pol sp), s,
       if pol = .logAndSkip then [Op.resolve pol rp, Op.persistentError rp]
       else [Op.resolve pol rp]) := by
  cases pol
  · simp [handleConflict_sourceWins, resolverVerdict]
  · simp [handleConflict_targetWins, resolverVerdict]
  · simp [handleConflict_logAndSkip, resolverVerdict]
  · exact absurd rfl h

/-- `shouldCopyFile` when the target exists, is a file, is different, and
is newer than the source by more than the tolerance: a conflict.  The
resolver is invoked with the bulk-effective policy (`Ask` replaced by
`Log Error and Skip`), its verdict is returned, and the state is left
unchanged. -/
theorem shouldCopyFile_run_conflict (env : Env) (pol : Policy) (st : Stats) (c : List Nat)
    (sp tp : List String) (s : SyncSt) (tst : Stats) (tc : List Nat)
    (hfind : s.tgt.find tp = some (.file tst tc))
    (hdiff : st.size ≠ tst.size ∨ (st.mtimeMs - tst.mtimeMs).natAbs > 2000 ∨
      env.hash c ≠ env.hash tc)
    (hnewer : tst.mtimeMs > st.mtimeMs + 2000) :
    ∃ ops, shouldCopyFile env pol st c sp tp s =
      (.ok (resolverVerdict env (if pol = .ask then .logAndSkip else pol) sp), s, ops) ∧
      Op.resolve (if pol = .ask then .logAndSkip else pol) tp ∈ ops ∧
      (∀ o ∈ ops, o.isRead = true ∨
        o = Op.resolve (if pol = .ask then .logAndSkip else pol) tp ∨
        o = Op.persistentError tp) ∧
      (∀ p, Op.copy p ∉ ops) := by
  cases pol
  case sourceWins =>
    by_cases hsize : st.size = tst.size
    · by_cases htime : (st.mtimeMs - tst.mtimeMs).natAbs > 2000
      · refine ⟨[Op.existsT tp, Op.statS sp, Op.statT tp, Op.detect sp tp] ++ [Op.resolve Policy.sourceWins tp],
          ?_, by simp, ?_, ?_⟩
        · simp only [shouldCopyFile, M.bind, existsT, statSrc, statT, hfind, Option.isSome_some,
            Bool.not_true, Bool.false_eq_true, if_false, areFilesDifferent_run, M.pure]
          simp [M.pure, hsize, htime, hnewer, handleConflict_sourceWins, resolverVerdict]
        · intro o ho
          fin_cases ho <;> simp [Op.isRead]
        · intro p hp
          simp [List.mem_cons, List.mem_singleton] at hp
      · have hhash : env.hash c ≠ env.hash tc := by
          rcases hdiff with h | h | h
          · exact absurd hsize h
          · exact absurd h htime
          · exact h
        refine ⟨[Op.existsT tp, Op.statS sp, Op.statT tp, Op.detect sp tp,
            Op.checksumS sp, Op.checksumT tp] ++ [Op.resolve Policy.sourceWins tp], ?_, by simp, ?_, ?_⟩
        · simp only [shouldCopyFile, M.bind, existsT, statSrc, statT, hfind, Option.isSome_some,
            Bool.not_true, Bool.false_eq_true, if_false, areFilesDifferent_run, M.pure]
          simp [M.pure, hsize, htime, hhash, hnewer, handleConflict_sourceWins, resolverVerdict]
        · intro o ho
          fin_cases ho <;> simp [Op.isRead]
        · intro p hp
          simp [List.mem_cons, List.mem_singleton] at hp
    · refine ⟨[Op.existsT tp, Op.statS sp, Op.statT tp, Op.detect sp tp] ++ [Op.resolve Policy.sourceWins tp],
        ?_, by simp, ?_, ?_⟩
      · simp only [shouldCopyFile, M.bind, existsT, statSrc, statT, hfind, Option.isSome_some,
          Bool.not_true, Bool.false_eq_true, if_false, areFilesDifferent_run, M.pure]
        simp [M.pure, hsize, hnewer, handleConflict_sourceWins, resolverVerdict]
      · intro o ho
        fin_cases ho <;> simp [Op.isRead]
      · intro p hp
        simp [List.mem_cons, List.mem_singleton] at hp
  case targetWins =>
    by_cases hsize : st.size = tst.size
    · by_cases htime : (st.mtimeMs - tst.mtimeMs).natAbs > 2000
      · refine ⟨[Op.existsT tp, Op.statS sp, Op.statT tp, Op.detect sp tp] ++ [Op.resolve Policy.targetWins tp],
          ?_, by simp, ?_, ?_⟩
        · simp only [shouldCopyFile, M.bind, existsT, statSrc, statT, hfind, Option.isSome_some,
            Bool.not_true, Bool.false_eq_true, if_false, areFilesDifferent_run, M.pure]
          simp [M.pure, hsize, htime, hnewer, handleConflict_targetWins, resolverVerdict]
        · intro o ho
          fin_cases ho <;> simp [Op.isRead]
        · intro p hp
          simp [List.mem_cons, List.mem_singleton] at hp
      · have hhash : env.hash c ≠ env.hash tc := by
          rcases hdiff with h | h | h
          · exact absurd hsize h
          · exact absurd h htime
          · exact h
        refine ⟨[Op.existsT tp, Op.statS sp, Op.statT tp, Op.detect sp tp,
            Op.checksumS sp, Op.checksumT tp] ++ [Op.resolve Policy.targetWins tp], ?_, by simp, ?_, ?_⟩
        · simp only [shouldCopyFile, M.bind, existsT, statSrc, statT, hfind, Option.isSome_some,
            Bool.not_true, Bool.false_eq_true, if_false, areFilesDifferent_run, M.pure]
          simp [M.pure, hsize, htime, hhash, hnewer, handleConflict_targetWins, resolverVerdict]
        · intro o ho
          fin_cases ho <;> simp [Op.isRead]
        · intro p hp
          simp [List.mem_cons, List.mem_singleton] at hp
    · refine ⟨[Op.existsT tp, Op.statS sp, Op.statT tp, Op.detect sp tp] ++ [Op.resolve Policy.targetWins tp],
        ?_, by simp, ?_, ?_⟩
      · simp only [shouldCopyFile, M.bind, existsT, statSrc, statT, hfind, Option.isSome_some,
          Bool.not_true, Bool.false_eq_true, if_false, areFilesDifferent_run, M.pure]
        simp [M.pure, hsize, hnewer, handleConflict_targetWins, resolverVerdict]
      · intro o ho
        fin_cases ho <;> simp [Op.isRead]
      · intro p hp
        simp [List.mem_cons, List.mem_singleton] at hp
  case logAndSkip =>
    by_cases hsize : st.size = tst.size
    · by_cases htime : (st.mtimeMs - tst.mtimeMs).natAbs > 2000
      · refine ⟨[Op.existsT tp, Op.statS sp, Op.statT tp, Op.detect sp tp] ++ [Op.resolve Policy.logAndSkip tp, Op.persistentError tp],
          ?_, by simp, ?_, ?_⟩
        · simp only [shouldCopyFile, M.bind, existsT, statSrc, statT, hfind, Option.isSome_some,
            Bool.not_true, Bool.false_eq_true, if_false, areFilesDifferent_run, M.pure]
          simp [M.pure, hsize, htime, hnewer, handleConflict_logAndSkip, resolverVerdict]
        · intro o ho
          fin_cases ho <;> simp [Op.isRead]
        · intro p hp
          simp [List.mem_cons, List.mem_singleton] at hp
      · have hhash : env.hash c ≠ env.hash tc := by
          rcases hdiff with h | h | h
          · exact absurd hsize h
          · exact absurd h htime
          · exact h
        refine ⟨[Op.existsT tp, Op.statS sp, Op.statT tp, Op.detect sp tp,
            Op.checksumS sp, Op.checksumT tp] ++ [Op.resolve Policy.logAndSkip tp, Op.persistentError tp], ?_, by simp, ?_, ?_⟩
        · simp only [shouldCopyFile, M.bind, existsT, statSrc, statT, hfind, Option.isSome_some,
            Bool.not_true, Bool.false_eq_true, if_false, areFilesDifferent_run, M.pure]
          simp [M.pure, hsize, htime, hhash, hnewer, handleConflict_logAndSkip, resolverVerdict]
        · intro o ho
          fin_cases ho <;> simp [Op.isRead]
        · intro p hp
          simp [List.mem_cons, List.mem_singleton] at hp
    · refine ⟨[Op.existsT tp, Op.statS sp, Op.statT tp, Op.detect sp tp] ++ [Op.resolve Policy.logAndSkip tp, Op.persistentError tp],
        ?_, by simp, ?_, ?_⟩
      · simp only [shouldCopyFile, M.bind, existsT, statSrc, statT, hfind, Option.isSome_some,
          Bool.not_true, Bool.false_eq_true, if_false, areFilesDifferent_run, M.pure]
        simp [M.pure, hsize, hnewer, handleConflict_logAndSkip, resolverVerdict]
      · intro o ho
        fin_cases ho <;> simp [Op.isRead]
      · intro p hp
        simp [List.mem_cons, List.mem_singleton] at hp
  case ask =>
    by_cases hsize : st.size = tst.size
    · by_cases htime : (st.mtimeMs - tst.mtimeMs).natAbs > 2000
      · refine ⟨[Op.existsT tp, Op.statS sp, Op.statT tp, Op.detect sp tp] ++ [Op.resolve Policy.logAndSkip tp, Op.persistentError tp],
          ?_, by simp, ?_, ?_⟩
        · simp only [shouldCopyFile, M.bind, existsT, statSrc, statT, hfind, Option.isSome_some,
            Bool.not_true, Bool.false_eq_true, if_false, areFilesDifferent_run, M.pure]
          simp [M.pure, hsize, htime, hnewer, handleConflict_logAndSkip, resolverVerdict]
        · intro o ho
          fin_cases ho <;> simp [Op.isRead]
        · intro p hp
          simp [List.mem_cons, List.mem_singleton] at hp
      · have hhash : env.hash c ≠ env.hash tc := by
          rcases hdiff with h | h | h
          · exact absurd hsize h
          · exact absurd h htime
          · exact h
        refine ⟨[Op.existsT tp, Op.statS sp, Op.statT tp, Op.detect sp tp,
            Op.checksumS sp, Op.checksumT tp] ++ [Op.resolve Policy.logAndSkip tp, Op.persistentError tp], ?_, by simp, ?_, ?_⟩
        · simp only [shouldCopyFile, M.bind, existsT, statSrc, statT, hfind, Option.isSome_some,
            Bool.not_true, Bool.false_eq_true, if_false, areFilesDifferent_run, M.pure]
          simp [M.pure, hsize, htime, hhash, hnewer, handleConflict_logAndSkip, resolverVerdict]
        · intro o ho
          fin_cases ho <;> simp [Op.isRead]
        · intro p hp
          simp [List.mem_cons, List.mem_singleton] at hp
    · refine ⟨[Op.existsT tp, Op.statS sp, Op.statT tp, Op.detect sp tp] ++ [Op.resolve Policy.logAndSkip tp, Op.persistentError tp],
        ?_, by simp, ?_, ?_⟩
      · simp only [shouldCopyFile, M.bind, existsT, statSrc, statT, hfind, Option.isSome_some,
          Bool.not_true, Bool.false_eq_true, if_false, areFilesDifferent_run, M.pure]
        simp [M.pure, hsize, hnewer, handleConflict_logAndSkip, resolverVerdict]
      · intro o ho
        fin_cases ho <;> simp [Op.isRead]
      · intro p hp
        simp [List.mem_cons, List.mem_singleton] at hp

/-- C2: in the Smart bulk strategy, for a non-ignored source file whose
target exists with differing content, a target mtime of source mtime
+ 2001 ms is classified as a conflict — the Conflict Resolver is invoked
(with the bulk-effective policy) and the file is copied exactly when the
resolver returns `true` — while a target mtime of source mtime + 1999 ms
is an ordinary update: copied unconditionally with no resolver call. -/
theorem claim_C2_conflict_boundary (env : Env) (ign : List String) (pol : Policy)
    (n : String) (st tst : Stats) (c tc : List Nat) (s : SyncSt)
    (hig : isIgnored env [n] ign = false)
    (hfind : s.tgt.find [n] = some (.file tst tc))
    (hdiff : st.size ≠ tst.size ∨ env.hash c ≠ env.hash tc) :
    (tst.mtimeMs = st.mtimeMs + 2001 →
      ∃ ops s2, smartLoop env ign pol [] (.dcons n (.file st c) .dnil) s = (.ok (), s2, ops) ∧
        Op.resolve (if pol = .ask then .logAndSkip else pol) [n] ∈ ops ∧
        (Op.copy [n] ∈ ops ↔
          resolverVerdict env (if pol = .ask then .logAndSkip else pol) [n] = true)) ∧
    (tst.mtimeMs = st.mtimeMs + 1999 →
      ∃ ops s2, smartLoop env ign pol [] (.dcons n (.file st c) .dnil) s = (.ok (), s2, ops) ∧
        Op.copy [n] ∈ ops ∧ (∀ q p, Op.resolve q p ∉ ops)) := by
  constructor
  · intro hmt
    obtain ⟨ops, hrun, hmem, hkinds, hnocopy⟩ :=
      shouldCopyFile_run_conflict env pol st c [n] [n] s tst tc hfind
        (Or.inr (Or.inl (by rw [hmt]; omega))) (by rw [hmt]; omega)
    rcases hb : resolverVerdict env (if pol = .ask then .logAndSkip else pol) [n] with _ | _
    · -- verdict false: no copy
      refine ⟨ops, s, ?_, hmem, ?_⟩
      · simp only [smartLoop, M.bind, M.tryCatch, M.pure, mkdirRec, properPrefixes,
          List.range_zero, List.map_nil, mkdirAux, List.nil_append, hig, Bool.false_eq_true,
          if_false]
        rw [hb] at hrun
        simp [hrun, M.pure]
      · simp [hnocopy [n]]
    · -- verdict true: the file is copied
      refine ⟨ops ++ [Op.statS [n], Op.copy [n], Op.utimes [n]],
        { s with tgt := (s.tgt.set [n] (.file ⟨st.size, env.now, env.now⟩ c)).set [n]
                          (.file ⟨st.size, st.mtimeMs, st.atimeMs⟩ c) }, ?_, ?_, ?_⟩
      · simp only [smartLoop, M.bind, M.tryCatch, M.pure, mkdirRec, properPrefixes,
          List.range_zero, List.map_nil, mkdirAux, List.nil_append, hig, Bool.false_eq_true,
          if_false]
        rw [hb] at hrun
        simp [hrun, M.pure, copyFileWithMetadata_run]
      · exact List.mem_append_left _ hmem
      · simp [hb]
  · intro hmt
    obtain ⟨ops, hrun, hreads⟩ :=
      shouldCopyFile_run_update env pol st c [n] [n] s tst tc hfind hdiff (by rw [hmt]; omega)
    refine ⟨ops ++ [Op.statS [n], Op.copy [n], Op.utimes [n]],
      { s with tgt := (s.tgt.set [n] (.file ⟨st.size, env.now, env.now⟩ c)).set [n]
                        (.file ⟨st.size, st.mtimeMs, st.atimeMs⟩ c) }, ?_, ?_, ?_⟩
    · simp only [smartLoop, M.bind, M.tryCatch, M.pure, mkdirRec, properPrefixes,
        List.range_zero, List.map_nil, mkdirAux, List.nil_append, hig, Bool.false_eq_true,
        if_false]
      simp [hrun, M.pure, copyFileWithMetadata_run]
    · simp
    · intro q p hqp
      rcases List.mem_append.mp hqp with h | h
      · have := hreads _ h
        simp [Op.isRead] at this
      · simp [List.mem_cons, List.mem_singleton] at h

theorem claim_C2_witness :
    (isIgnored envW ["a"] [] = false ∧
     (SyncSt.mk [(["a"], .file ⟨3, 3001, 0⟩ [9])] wsW []).tgt.find ["a"] =
       some (.file ⟨3, 3001, 0⟩ [9]) ∧
     ((⟨3, 1000, 0⟩ : Stats).size ≠ (⟨3, 3001, 0⟩ : Stats).size ∨
       envW.hash [1] ≠ envW.hash [9])) ∧
    (((⟨3, 3001, 0⟩ : Stats).mtimeMs = (⟨3, 1000, 0⟩ : Stats).mtimeMs + 2001 →
      ∃ ops s2, smartLoop envW [] .ask [] (.dcons "a" (.file ⟨3, 1000, 0⟩ [1]) .dnil)
          (SyncSt.mk [(["a"], .file ⟨3, 3001, 0⟩ [9])] wsW []) = (.ok (), s2, ops) ∧
        Op.resolve (if Policy.ask = .ask then .logAndSkip else .ask) ["a"] ∈ ops ∧
        (Op.copy ["a"] ∈ ops ↔
          resolverVerdict envW (if Policy.ask = .ask then .logAndSkip else .ask) ["a"] = true)) ∧
     ((⟨3, 3001, 0⟩ : Stats).mtimeMs = (⟨3, 1000, 0⟩ : Stats).mtimeMs + 1999 →
      ∃ ops s2, smartLoop envW [] .ask [] (.dcons "a" (.file ⟨3, 1000, 0⟩ [1]) .dnil)
          (SyncSt.mk [(["a"], .file ⟨3, 3001, 0⟩ [9])] wsW []) = (.ok (), s2, ops) ∧
        Op.copy ["a"] ∈ ops ∧ (∀ q p, Op.resolve q p ∉ ops))) :=
  ⟨⟨by decide, by decide, by decide⟩,
   claim_C2_conflict_boundary envW [] .ask "a" ⟨3, 1000, 0⟩ ⟨3, 3001, 0⟩ [1] [9]
     (SyncSt.mk [(["a"], .file ⟨3, 3001, 0⟩ [9])] wsW []) (by decide) (by decide) (by decide)⟩

/-- Operations of a bound computation all satisfy `P` when both halves'
operations do. -/
theorem M.bind_ops_sub {α β : Type} (x : M α) (f : α → M β) (s : SyncSt) (P : Op → Prop)
    (hx : ∀ o ∈ (x s).2.2, P o) (hf : ∀ a s1, ∀ o ∈ (f a s1).2.2, P o) :
    ∀ o ∈ ((M.bind x f) s).2.2, P o := by
  intro o ho
  rcases hxs : x s with ⟨r, s1, ops⟩
  rw [hxs] at hx
  cases r with
  | ok a =>
      rcases hfs : f a s1 with ⟨r2, s2, ops2⟩
      have : (M.bind x f) s = (r2, s2, ops ++ ops2) := by
        simp only [M.bind, hxs, hfs]
      rw [this] at ho
      rcases List.mem_append.mp ho with h | h
      · exact hx o h
      · have := hf a s1
        rw [hfs] at this
        exact this o h
  | error e =>
      have : (M.bind x f) s = (.error e, s1, ops) := by
        simp only [M.bind, hxs]
      rw [this] at ho
      exact hx o ho

/-- Operations of a `tryCatch` all satisfy `P` when the body's and the
handler's do. -/
theorem M.tryCatch_ops_sub {α : Type} (x : M α) (h : Unit → M α) (s : SyncSt) (P : Op → Prop)
    (hx : ∀ o ∈ (x s).2.2, P o) (hh : ∀ e s1, ∀ o ∈ (h e s1).2.2, P o) :
    ∀ o ∈ ((M.tryCatch x h) s).2.2, P o := by
  intro o ho
  rcases hxs : x s with ⟨r, s1, ops⟩
  rw [hxs] at hx
  cases r with
  | ok a =>
      have : (M.tryCatch x h) s = (.ok a, s1, ops) := by
        simp only [M.tryCatch, hxs]
      rw [this] at ho
      exact hx o ho
  | error e =>
      rcases hhs : h e s1 with ⟨r2, s2, ops2⟩
      have : (M.tryCatch x h) s = (r2, s2, ops ++ ops2) := by
        simp only [M.tryCatch, hxs, hhs]
      rw [this] at ho
      rcases List.mem_append.mp ho with hm | hm
      · exact hx o hm
      · have := hh e s1
        rw [hhs] at this
        exact this o hm

/-- Every operation of a recursive-mkdir run is a `mkdir`. -/
theorem mkdirRec_ops (k : List String) (s : SyncSt) :
    ∀ o ∈ (mkdirRec k s).2.2, ∃ p, o = Op.mkdir p := by
  obtain ⟨r, s2, ops, hrun, _, _, _, hkinds⟩ := mkdirAux_run (properPrefixes k) s
  intro o ho
  rw [mkdirRec, hrun] at ho
  exact hkinds o ho

/-- The Force strategy traversal never performs change detection: no
`detect` operation (the Change Detector entry marker) ever appears in its
log, for any tree, directory and state. -/
theorem forceLoop_no_detect (t : SrcNode) :
    ∀ (env : Env) (ign : List String) (relDir : List String) (s : SyncSt),
    ∀ o ∈ (forceLoop env ign relDir t s).2.2, ∀ a b, o ≠ Op.detect a b := by
  induction t with
  | file st c =>
      intro env ign relDir s o ho
      simp only [forceLoop, M.pure] at ho
      cases ho
  | dnil =>
      intro env ign relDir s o ho
      simp only [forceLoop, M.pure] at ho
      cases ho
  | dcons name child rest ihc ihr =>
      intro env ign relDir s
      cases child with
      | file st c =>
          simp only [forceLoop]
          refine M.bind_ops_sub _ _ s (fun o => ∀ a b, o ≠ Op.detect a b) ?_ ?_
          · split
            · intro o ho
              simp only [M.pure] at ho
              cases ho
            · refine M.tryCatch_ops_sub _ _ s (fun o => ∀ a b, o ≠ Op.detect a b) ?_ ?_
              · refine M.bind_ops_sub _ _ s (fun o => ∀ a b, o ≠ Op.detect a b) ?_ ?_
                · intro o ho a b
                  obtain ⟨p, hp⟩ := mkdirRec_ops relDir s o ho
                  rw [hp]
                  intro h
                  cases h
                · intro u s1 o ho a b
                  rw [copyFileWithMetadata_run] at ho
                  fin_cases ho <;> intro h <;> cases h
              · intro e s1 o ho
                simp only [M.pure] at ho
                cases ho
          · intro u s1
            exact ihr env ign relDir s1
      | dnil =>
          simp only [forceLoop]
          refine M.bind_ops_sub _ _ s (fun o => ∀ a b, o ≠ Op.detect a b) ?_ ?_
          · split
            · intro o ho
              simp only [M.pure] at ho
              cases ho
            · refine M.bind_ops_sub _ _ s (fun o => ∀ a b, o ≠ Op.detect a b) ?_ ?_
              · intro o ho a b
                obtain ⟨p, hp⟩ := mkdirRec_ops (relDir ++ [name]) s o ho
                rw [hp]
                intro h
                cases h
              · intro u s1
                refine M.bind_ops_sub _ _ s1 (fun o => ∀ a b, o ≠ Op.detect a b) ?_ ?_
                · intro o ho
                  simp only [emitOp] at ho
                  rcases List.mem_singleton.mp ho with h
                  rw [h]
                  intro a b hab
                  cases hab
                · intro u2 s2
                  exact ihc env ign (relDir ++ [name]) s2
          · intro u s1
            exact ihr env ign relDir s1
      | dcons m c2 r2 =>
          simp only [forceLoop]
          refine M.bind_ops_sub _ _ s (fun o => ∀ a b, o ≠ Op.detect a b) ?_ ?_
          · split
            · intro o ho
              simp only [M.pure] at ho
              cases ho
            · refine M.bind_ops_sub _ _ s (fun o => ∀ a b, o ≠ Op.detect a b) ?_ ?_
              · intro o ho a b
                obtain ⟨p, hp⟩ := mkdirRec_ops (relDir ++ [name]) s o ho
                rw [hp]
                intro h
                cases h
              · intro u s1
                refine M.bind_ops_sub _ _ s1 (fun o => ∀ a b, o ≠ Op.detect a b) ?_ ?_
                · intro o ho
                  simp only [emitOp] at ho
                  rcases List.mem_singleton.mp ho with h
                  rw [h]
                  intro a b hab
                  cases hab
                · intro u2 s2
                  exact ihc env ign (relDir ++ [name]) s2
          · intro u s1
            exact ihr env ign relDir s1

/-- C9 (amended): for a non-ignored source file whose target exists with
identical size and identical modification time, the Force strategy issues a
copy (and never performs change detection on any file in any traversal);
the Smart strategy hashes the contents and also issues a copy — as an
ordinary update, never invoking the Conflict Resolver — exactly when the
content digests differ, and issues no copy (and performs no mutation) when
the digests are equal. -/
theorem claim_C9_force_vs_smart (env : Env) (ign : List String) (pol : Policy)
    (n : String) (st tst : Stats) (c tc : List Nat) (s : SyncSt)
    (hig : isIgnored env [n] ign = false)
    (hfind : s.tgt.find [n] = some (.file tst tc))
    (hsize : st.size = tst.size)
    (hmtime : st.mtimeMs = tst.mtimeMs) :
    (∀ (t : SrcNode) (relDir : List String) (s1 : SyncSt),
      ∀ o ∈ (forceLoop env ign relDir t s1).2.2, ∀ a b, o ≠ Op.detect a b) ∧
    Op.copy [n] ∈ (forceLoop env ign [] (.dcons n (.file st c) .dnil) s).2.2 ∧
    (env.hash c ≠ env.hash tc →
      ∃ ops s2, smartLoop env ign pol [] (.dcons n (.file st c) .dnil) s = (.ok (), s2, ops) ∧
        Op.copy [n] ∈ ops ∧ (∀ q p, Op.resolve q p ∉ ops)) ∧
    (env.hash c = env.hash tc →
      smartLoop env ign pol [] (.dcons n (.file st c) .dnil) s =
        (.ok (), s, [Op.existsT [n], Op.statS [n], Op.statT [n], Op.detect [n] [n],
                     Op.checksumS [n], Op.checksumT [n]])) := by
  refine ⟨fun t relDir s1 => forceLoop_no_detect t env ign relDir s1, ?_, ?_, ?_⟩
  · simp only [forceLoop, M.bind, M.tryCatch, M.pure, mkdirRec, properPrefixes,
      List.range_zero, List.map_nil, mkdirAux, List.nil_append, hig, Bool.false_eq_true,
      if_false, copyFileWithMetadata_run]
    simp [M.pure, copyFileWithMetadata_run]
  · intro hhash
    obtain ⟨ops, hrun, hreads⟩ :=
      shouldCopyFile_run_update env pol st c [n] [n] s tst tc hfind (Or.inr hhash)
        (by rw [hmtime]; omega)
    refine ⟨ops ++ [Op.statS [n], Op.copy [n], Op.utimes [n]],
      { s with tgt := (s.tgt.set [n] (.file ⟨st.size, env.now, env.now⟩ c)).set [n]
                        (.file ⟨st.size, st.mtimeMs, st.atimeMs⟩ c) }, ?_, ?_, ?_⟩
    · simp only [smartLoop, M.bind, M.tryCatch, M.pure, mkdirRec, properPrefixes,
        List.range_zero, List.map_nil, mkdirAux, List.nil_append, hig, Bool.false_eq_true,
        if_false]
      simp [hrun, M.pure, copyFileWithMetadata_run]
    · simp
    · intro q p hqp
      rcases List.mem_append.mp hqp with h | h
      · have := hreads _ h
        simp [Op.isRead] at this
      · simp [List.mem_cons, List.mem_singleton] at h
  · intro hhash
    have hrun := shouldCopyFile_run_same env pol st c [n] [n] s tst tc hfind hsize
      (by rw [hmtime]; simp) hhash
    simp only [smartLoop, M.bind, M.tryCatch, M.pure, mkdirRec, properPrefixes,
      List.range_zero, List.map_nil, mkdirAux, List.nil_append, hig, Bool.false_eq_true,
      if_false]
    simp [hrun, M.pure]

/-- C9 counterexample: with identical size and mtime but differing content
(differing digests), the Smart strategy does issue a copy — a `copy`
operation appears in its log — contradicting the claim that it does not. -/
theorem claim_C9_counterexample :
    Op.copy ["a"] ∈ (smartLoop envW [] .logAndSkip []
      (.dcons "a" (.file ⟨1, 1000, 0⟩ [1]) .dnil)
      (SyncSt.mk [(["a"], .file ⟨1, 1000, 0⟩ [2])] wsW [])).2.2 := by decide

theorem claim_C9_witness :
    (isIgnored envW ["a"] [] = false ∧
     (SyncSt.mk [(["a"], .file ⟨1, 1000, 0⟩ [2])] wsW []).tgt.find ["a"] =
       some (.file ⟨1, 1000, 0⟩ [2]) ∧
     (⟨1, 1000, 0⟩ : Stats).size = (⟨1, 1000, 0⟩ : Stats).size ∧
     (⟨1, 1000, 0⟩ : Stats).mtimeMs = (⟨1, 1000, 0⟩ : Stats).mtimeMs) ∧
    ((∀ (t : SrcNode) (relDir : List String) (s1 : SyncSt),
       ∀ o ∈ (forceLoop envW [] relDir t s1).2.2, ∀ a b, o ≠ Op.detect a b) ∧
     Op.copy ["a"] ∈ (forceLoop envW [] [] (.dcons "a" (.file ⟨1, 1000, 0⟩ [1]) .dnil)
       (SyncSt.mk [(["a"], .file ⟨1, 1000, 0⟩ [2])] wsW [])).2.2 ∧
     (envW.hash [1] ≠ envW.hash [2] →
       ∃ ops s2, smartLoop envW [] .logAndSkip [] (.dcons "a" (.file ⟨1, 1000, 0⟩ [1]) .dnil)
           (SyncSt.mk [(["a"], .file ⟨1, 1000, 0⟩ [2])] wsW []) = (.ok (), s2, ops) ∧
         Op.copy ["a"] ∈ ops ∧ (∀ q p, Op.resolve q p ∉ ops)) ∧
     (envW.hash [1] = envW.hash [2] →
       smartLoop envW [] .logAndSkip [] (.dcons "a" (.file ⟨1, 1000, 0⟩ [1]) .dnil)
           (SyncSt.mk [(["a"], .file ⟨1, 1000, 0⟩ [2])] wsW []) =
         (.ok (), SyncSt.mk [(["a"], .file ⟨1, 1000, 0⟩ [2])] wsW [],
          [Op.existsT ["a"], Op.statS ["a"], Op.statT ["a"], Op.detect ["a"] ["a"],
           Op.checksumS ["a"], Op.checksumT ["a"]]))) :=
  ⟨⟨by decide, by decide, by decide, by decide⟩,
   claim_C9_force_vs_smart envW [] .logAndSkip "a" ⟨1, 1000, 0⟩ ⟨1, 1000, 0⟩ [1] [2]
     (SyncSt.mk [(["a"], .file ⟨1, 1000, 0⟩ [2])] wsW [])
     (by decide) (by decide) (by decide) (by decide)⟩

theorem head?_mem {l : List Op} {o : Op} (h : l.head? = some o) : o ∈ l := by
  cases l with
  | nil => cases h
  | cons a t =>
      have ha : a = o := by
        injection h
      rw [← ha]
      exact List.mem_cons_self _ _

/-- C10: with `lastSynced` null the live-watch `syncFile` handler compares
the target's mtime against 0 (the epoch); in smart mode, for a non-pending,
non-ignored add/change event whose target file exists with a positive
mtime, the handler takes the conflict path: the Conflict Resolver is
invoked with the configured policy and the file is copied exactly when the
resolver returns `true`. -/
theorem claim_C10_null_lastSynced_conflict (env : Env) (st : Stats) (c : List Nat)
    (rel : List String) (s : SyncSt) (tst : Stats) (tc : List Nat)
    (hpend : rel ∉ s.pending)
    (hig : isIgnored env rel s.ws.ignoreList = false)
    (hmode : s.ws.syncMode = .smart)
    (hlast : s.ws.lastSynced = none)
    (hfind : s.tgt.find rel = some (.file tst tc))
    (hmt : tst.mtimeMs > 0)
    (hpar : ∀ p ∈ properPrefixes rel.dropLast, ∀ st2 c2,
      s.tgt.find p ≠ some (TEntry.file st2 c2)) :
    ∃ ops s2, syncFile env st c rel s = (.ok (), s2, ops) ∧
      Op.resolve s.ws.conflictResolution rel ∈ ops ∧
      (Op.copy rel ∈ ops ↔ resolverVerdict env s.ws.conflictResolution rel = true) := by
  obtain ⟨rM, sM, opsM, hMrun, hMws, hMpend, hMfind, hMkinds⟩ :=
    mkdirAux_run (properPrefixes rel.dropLast) s
  have hMok : rM = .ok () := by
    obtain ⟨s2x, opsx, hok⟩ := mkdirAux_ok (properPrefixes rel.dropLast) s hpar
    rw [hMrun] at hok
    exact congrArg Prod.fst hok
  subst hMok
  have hfindM : sM.tgt.find rel = some (.file tst tc) := by
    rcases hMfind rel with h | ⟨h1, _, _⟩
    · rw [h, hfind]
    · rw [hfind] at h1
      cases h1
  obtain ⟨opsC, hcrun, hchead, hckinds⟩ :=
    handleConflict_run env rel rel rel s.ws.conflictResolution sM
  have hnocopyC : ∀ p, Op.copy p ∉ opsC := by
    intro p hp
    rcases hckinds _ hp with h | h | h | h <;> cases h
  have hnocopyM : ∀ p, Op.copy p ∉ opsM := by
    intro p hp
    obtain ⟨q, hq⟩ := hMkinds _ hp
    cases hq
  rcases hb : resolverVerdict env s.ws.conflictResolution rel with _ | _
  · -- the resolver skips: no copy
    refine ⟨opsM ++ [Op.existsT rel] ++ [Op.statT rel] ++ opsC,
      { sM with pending := if s.ws.conflictResolution = .ask then
          sM.pending.filter (fun q => !(q = rel : Bool)) else sM.pending }, ?_, ?_, ?_⟩
    · rw [hb] at hcrun
      simp only [syncFile, hpend, if_neg, M.tryCatch, syncFileBody, M.bind, getWState, hig,
        Bool.false_eq_true, if_false, hlast, mkdirRec, hMrun, hmode, existsT, hfindM,
        Option.isSome_some, Bool.not_true, statT, hcrun, M.pure]
      simp [M.bind, existsT, statT, M.pure, hfindM, hmt, hcrun, List.append_assoc]
    · apply List.mem_append_right
      exact head?_mem hchead
    · simp only [Bool.false_eq_true, iff_false]
      intro hmem
      simp only [List.mem_append, List.mem_singleton] at hmem
      rcases hmem with ((h | h) | h) | h
      · exact hnocopyM rel h
      · cases h
      · cases h
      · exact hnocopyC rel h
  · -- the resolver allows the overwrite: copy plus timestamp update
    refine ⟨opsM ++ [Op.existsT rel] ++ [Op.statT rel] ++ opsC ++
        [Op.statS rel, Op.copy rel, Op.utimes rel] ++ [Op.setLastSynced],
      { tgt := (sM.tgt.set rel (.file ⟨st.size, env.now, env.now⟩ c)).set rel
                 (.file ⟨st.size, st.mtimeMs, st.atimeMs⟩ c),
        ws := { sM.ws with lastSynced := some env.now },
        pending := if s.ws.conflictResolution = .ask then
          sM.pending.filter (fun q => !(q = rel : Bool)) else sM.pending }, ?_, ?_, ?_⟩
    · rw [hb] at hcrun
      simp only [syncFile, hpend, if_neg, M.tryCatch, syncFileBody, M.bind, getWState, hig,
        Bool.false_eq_true, if_false, hlast, mkdirRec, hMrun, hmode, existsT, hfindM,
        Option.isSome_some, Bool.not_true, statT, hcrun, M.pure, copyFileWithMetadata_run,
        updateLastSyncedTimestamp]
      simp [M.bind, existsT, statT, M.pure, hfindM, hmt, hcrun, List.append_assoc,
        copyFileWithMetadata_run, updateLastSyncedTimestamp, TgtFS.set]
    · apply List.mem_append_left
      apply List.mem_append_left
      apply List.mem_append_right
      exact head?_mem hchead
    · simp

theorem claim_C10_witness :
    ((["a"] : List String) ∉ (SyncSt.mk [(["a"], .file ⟨1, 100, 0⟩ [2])]
        (WorkspaceStateM.mk [] .smart .logAndSkip none) []).pending ∧
     isIgnored envW ["a"] (SyncSt.mk [(["a"], .file ⟨1, 100, 0⟩ [2])]
        (WorkspaceStateM.mk [] .smart .logAndSkip none) []).ws.ignoreList = false ∧
     (SyncSt.mk [(["a"], .file ⟨1, 100, 0⟩ [2])]
        (WorkspaceStateM.mk [] .smart .logAndSkip none) []).ws.syncMode = .smart ∧
     (SyncSt.mk [(["a"], .file ⟨1, 100, 0⟩ [2])]
        (WorkspaceStateM.mk [] .smart .logAndSkip none) []).ws.lastSynced = none ∧
     (SyncSt.mk [(["a"], .file ⟨1, 100, 0⟩ [2])]
        (WorkspaceStateM.mk [] .smart .logAndSkip none) []).tgt.find ["a"] =
       some (.file ⟨1, 100, 0⟩ [2]) ∧
     (⟨1, 100, 0⟩ : Stats).mtimeMs > 0) ∧
    (∃ ops s2, syncFile envW ⟨1, 4000, 0⟩ [1] ["a"]
        (SyncSt.mk [(["a"], .file ⟨1, 100, 0⟩ [2])]
          (WorkspaceStateM.mk [] .smart .logAndSkip none) []) = (.ok (), s2, ops) ∧
      Op.resolve (SyncSt.mk [(["a"], .file ⟨1, 100, 0⟩ [2])]
          (WorkspaceStateM.mk [] .smart .logAndSkip none) []).ws.conflictResolution ["a"] ∈ ops ∧
      (Op.copy ["a"] ∈ ops ↔
        resolverVerdict envW (SyncSt.mk [(["a"], .file ⟨1, 100, 0⟩ [2])]
          (WorkspaceStateM.mk [] .smart .logAndSkip none) []).ws.conflictResolution ["a"] = true)) :=
  ⟨⟨by decide, by decide, by decide, by decide, by decide, by decide⟩,
   claim_C10_null_lastSynced_conflict envW ⟨1, 4000, 0⟩ [1] ["a"]
     (SyncSt.mk [(["a"], .file ⟨1, 100, 0⟩ [2])]
       (WorkspaceStateM.mk [] .smart .logAndSkip none) []) ⟨1, 100, 0⟩ [2]
     (by decide) (by decide) (by decide) (by decide) (by decide) (by decide)
     (by intro p hp st2 c2; simp [properPrefixes] at hp)⟩

/-- Whenever the live-watch `syncFile` body performs a file copy, it
completes successfully and its final state carries `lastSynced = now`. -/
theorem syncFileBody_copy_updates (env : Env) (st : Stats) (c : List Nat)
    (rel : List String) (s : SyncSt) :
    (∃ p, Op.copy p ∈ (syncFileBody env st c rel s).2.2) →
    (syncFileBody env st c rel s).1 = .ok () ∧
    ((syncFileBody env st c rel s).2.1).ws.lastSynced = some env.now := by
  intro hcopy
  by_cases hig : isIgnored env rel s.ws.ignoreList
  · exfalso
    obtain ⟨p, hp⟩ := hcopy
    simp only [syncFileBody, M.bind, getWState, hig, if_true, M.pure] at hp
    cases hp
  · obtain ⟨rM, sM, opsM, hMrun, hMws, hMpend, hMfind, hMkinds⟩ :=
      mkdirAux_run (properPrefixes rel.dropLast) s
    have hnocopyM : ∀ p, Op.copy p ∉ opsM := by
      intro p hp
      obtain ⟨q, hq⟩ := hMkinds _ hp
      cases hq
    cases rM with
    | error e =>
        exfalso
        obtain ⟨p, hp⟩ := hcopy
        simp only [syncFileBody, M.bind, getWState, hig, Bool.false_eq_true, if_false,
          mkdirRec, hMrun] at hp
        exact hnocopyM p hp
    | ok u =>
        by_cases hforce : s.ws.syncMode = SyncMode.force
        · -- force mode: unconditional copy
          constructor <;>
            simp [syncFileBody, M.bind, getWState, hig, mkdirRec, hMrun, hforce, M.pure,
              copyFileWithMetadata_run, updateLastSyncedTimestamp]
        · -- smart mode
          rcases hex : sM.tgt.find rel with _ | e
          · -- target absent: plain copy
            constructor <;>
              simp [syncFileBody, M.bind, getWState, hig, mkdirRec, hMrun, hforce, existsT,
                hex, M.pure, statT, copyFileWithMetadata_run, updateLastSyncedTimestamp]
          · cases e with
            | dir =>
                exfalso
                obtain ⟨p, hp⟩ := hcopy
                simp only [syncFileBody, M.bind, getWState, hig, Bool.false_eq_true, if_false,
                  mkdirRec, hMrun, hforce, existsT, hex, Option.isSome_some, Bool.not_true,
                  statT, M.pure] at hp
                simp only [List.mem_append, List.mem_singleton, List.mem_cons,
                  List.not_mem_nil, or_false, false_or] at hp
                rcases hp with h | h | h
                · exact hnocopyM p h
                · cases h
                · cases h
            | file tst tc =>
                by_cases hgt : tst.mtimeMs >
                    (match s.ws.lastSynced with | some t => t | none => 0)
                · obtain ⟨opsC, hcrun, hchead, hckinds⟩ :=
                    handleConflict_run env rel rel rel s.ws.conflictResolution sM
                  have hnocopyC : ∀ p, Op.copy p ∉ opsC := by
                    intro p hp
                    rcases hckinds _ hp with h | h | h | h <;> cases h
                  rcases hb : resolverVerdict env s.ws.conflictResolution rel with _ | _
                  · exfalso
                    rw [hb] at hcrun
                    obtain ⟨p, hp⟩ := hcopy
                    simp only [syncFileBody, M.bind, getWState, hig, Bool.false_eq_true,
                      if_false, mkdirRec, hMrun, hforce, existsT, hex, Option.isSome_some,
                      Bool.not_true, statT, hgt, if_true, hcrun, M.pure] at hp
                    simp only [List.mem_append, List.mem_singleton, List.mem_cons,
                      List.not_mem_nil, or_false, false_or] at hp
                    rcases hp with h | h | h | h
                    · exact hnocopyM p h
                    · cases h
                    · cases h
                    · exact hnocopyC p h
                  · rw [hb] at hcrun
                    constructor <;>
                      simp [syncFileBody, M.bind, getWState, hig, mkdirRec, hMrun, hforce,
                        existsT, hex, statT, hgt, hcrun, M.pure, copyFileWithMetadata_run,
                        updateLastSyncedTimestamp]
                · constructor <;>
                    simp [syncFileBody, M.bind, getWState, hig, mkdirRec, hMrun, hforce,
                      existsT, hex, statT, hgt, M.pure, copyFileWithMetadata_run,
                      updateLastSyncedTimestamp]

/-- C7 counterexample: a successful recursive directory deletion mutates
the target tree (the directory and its contents are removed) yet leaves
`lastSynced` unchanged — it is not updated to the current time, contrary to
the claim that every successful mutating action updates it. -/
theorem claim_C7_counterexample :
    (SyncSt.mk [(["d"], TEntry.dir), (["d", "x"], .file ⟨1, 0, 0⟩ [7])]
        (WorkspaceStateM.mk [] .smart .sourceWins (some 5)) []).tgt.find ["d"] =
      some TEntry.dir ∧
    ((deleteDirectory envW ["d"] (SyncSt.mk [(["d"], TEntry.dir), (["d", "x"], .file ⟨1, 0, 0⟩ [7])]
        (WorkspaceStateM.mk [] .smart .sourceWins (some 5)) [])).2.1).tgt.find ["d"] = none ∧
    ((deleteDirectory envW ["d"] (SyncSt.mk [(["d"], TEntry.dir), (["d", "x"], .file ⟨1, 0, 0⟩ [7])]
        (WorkspaceStateM.mk [] .smart .sourceWins (some 5)) [])).2.1).ws.lastSynced = some 5 ∧
    envW.now = 5000 := by decide

/-- C7 (amended): in the Live Watch Action Handler, a successful file copy
and a successful file deletion update `lastSynced` to the current time
before the handler completes, but a recursive directory deletion does not
touch the stored workspace state (its timestamp included) at all. -/
theorem claim_C7_timestamp_updates (env : Env) (st : Stats) (c : List Nat)
    (rel : List String) (s : SyncSt) :
    ((s.tgt.find rel).isSome = true →
      ((deleteFile env rel s).2.1).ws.lastSynced = some env.now) ∧
    ((∃ p, Op.copy p ∈ (syncFile env st c rel s).2.2) →
      ((syncFile env st c rel s).2.1).ws.lastSynced = some env.now) ∧
    ((deleteDirectory env rel s).2.1).ws = s.ws := by
  refine ⟨?_, ?_, ?_⟩
  · intro hex
    simp [deleteFile, M.tryCatch, M.bind, existsT, hex, unlinkT,
      updateLastSyncedTimestamp, M.pure]
  · intro hcopy
    by_cases hpend : rel ∈ s.pending
    · exfalso
      obtain ⟨p, hp⟩ := hcopy
      simp only [syncFile, hpend, if_true] at hp
      cases hp
    · rcases hbody : syncFileBody env st c rel s with ⟨rB, sB, opsB⟩
      cases rB with
      | ok u =>
          have hwrap : syncFile env st c rel s = (.ok u, sB, opsB) := by
            simp only [syncFile, hpend, if_false, M.tryCatch, hbody]
          rw [hwrap]
          rw [hwrap] at hcopy
          have := syncFileBody_copy_updates env st c rel s (by rw [hbody]; exact hcopy)
          rw [hbody] at this
          exact this.2
      | error e =>
          exfalso
          have hwrap : syncFile env st c rel s =
              (.ok (), sB, opsB ++ [Op.persistentError rel]) := by
            simp only [syncFile, hpend, if_false, M.tryCatch, hbody, emitOp]
          rw [hwrap] at hcopy
          obtain ⟨p, hp⟩ := hcopy
          rcases List.mem_append.mp hp with h | h
          · have := syncFileBody_copy_updates env st c rel s (by rw [hbody]; exact ⟨p, h⟩)
            rw [hbody] at this
            cases this.1
          · have h2 := List.mem_singleton.mp h
            cases h2
  · by_cases hex : (s.tgt.find rel).isSome = true
    · simp [deleteDirectory, M.tryCatch, M.bind, existsT, hex, rmRecT, M.pure]
    · simp only [Bool.not_eq_true] at hex
      simp [deleteDirectory, M.tryCatch, M.bind, existsT, hex, M.pure]

theorem claim_C7_witness :
    (((SyncSt.mk [(["f"], .file ⟨1, 0, 0⟩ [7])] wsW []).tgt.find ["f"]).isSome = true →
      ((deleteFile envW ["f"] (SyncSt.mk [(["f"], .file ⟨1, 0, 0⟩ [7])] wsW [])).2.1).ws.lastSynced =
        some envW.now) ∧
    ((∃ p, Op.copy p ∈ (syncFile envW ⟨1, 0, 0⟩ [7] ["f"]
        (SyncSt.mk [(["f"], .file ⟨1, 0, 0⟩ [7])] wsW [])).2.2) →
      ((syncFile envW ⟨1, 0, 0⟩ [7] ["f"]
        (SyncSt.mk [(["f"], .file ⟨1, 0, 0⟩ [7])] wsW [])).2.1).ws.lastSynced = some envW.now) ∧
    ((deleteDirectory envW ["f"] (SyncSt.mk [(["f"], .file ⟨1, 0, 0⟩ [7])] wsW [])).2.1).ws =
      (SyncSt.mk [(["f"], .file ⟨1, 0, 0⟩ [7])] wsW []).ws :=
  claim_C7_timestamp_updates envW ⟨1, 0, 0⟩ [7] ["f"]
    (SyncSt.mk [(["f"], .file ⟨1, 0, 0⟩ [7])] wsW [])

theorem M.bind_ws {α β : Type} (x : M α) (f : α → M β) (s : SyncSt)
    (hx : ((x s).2.1).ws = s.ws) (hf : ∀ a s1, ((f a s1).2.1).ws = s1.ws) :
    (((M.bind x f) s).2.1).ws = s.ws := by
  rcases hxs : x s with ⟨r, s1, ops⟩
  rw [hxs] at hx
  cases r with
  | ok a =>
      rcases hfs : f a s1 with ⟨r2, s2, ops2⟩
      have heq : (M.bind x f) s = (r2, s2, ops ++ ops2) := by
        simp only [M.bind, hxs, hfs]
      rw [heq]
      have := hf a s1
      rw [hfs] at this
      exact this.trans hx
  | error e =>
      have heq : (M.bind x f) s = (.error e, s1, ops) := by
        simp only [M.bind, hxs]
      rw [heq]
      exact hx

theorem M.tryCatch_ws {α : Type} (x : M α) (h : Unit → M α) (s : SyncSt)
    (hx : ((x s).2.1).ws = s.ws) (hh : ∀ e s1, ((h e s1).2.1).ws = s1.ws) :
    (((M.tryCatch x h) s).2.1).ws = s.ws := by
  rcases hxs : x s with ⟨r, s1, ops⟩
  rw [hxs] at hx
  cases r with
  | ok a =>
      have heq : (M.tryCatch x h) s = (.ok a, s1, ops) := by
        simp only [M.tryCatch, hxs]
      rw [heq]
      exact hx
  | error e =>
      rcases hhs : h e s1 with ⟨r2, s2, ops2⟩
      have heq : (M.tryCatch x h) s = (r2, s2, ops ++ ops2) := by
        simp only [M.tryCatch, hxs, hhs]
      rw [heq]
      have := hh e s1
      rw [hhs] at this
      exact this.trans hx

theorem mkdirRec_ws (k : List String) (s : SyncSt) : (((mkdirRec k) s).2.1).ws = s.ws := by
  obtain ⟨r, s2, ops, hrun, hws, _, _, _⟩ := mkdirAux_run (properPrefixes k) s
  rw [mkdirRec, hrun]
  exact hws

theorem copyFileWithMetadata_ws (env : Env) (st : Stats) (c : List Nat)
    (sp tp : List String) (s : SyncSt) :
    (((copyFileWithMetadata env st c sp tp) s).2.1).ws = s.ws := by
  rw [copyFileWithMetadata_run]

theorem handleConflict_ws (env : Env) (sp tp rp : List String) (pol : Policy) (s : SyncSt) :
    (((handleConflict env sp tp rp pol) s).2.1).ws = s.ws := by
  obtain ⟨ops, hrun, _, _⟩ := handleConflict_run env sp tp rp pol s
  rw [hrun]

theorem shouldCopyFile_ws (env : Env) (pol : Policy) (st : Stats) (c : List Nat)
    (sp tp : List String) (s : SyncSt) :
    (((shouldCopyFile env pol st c sp tp) s).2.1).ws = s.ws := by
  refine M.bind_ws _ _ s rfl ?_
  intro ex s1
  split
  · rfl
  · refine M.bind_ws _ _ s1 rfl ?_
    intro sstat s2
    refine M.bind_ws _ _ s2 ?_ ?_
    · simp only [statT]
      rcases s2.tgt.find tp with _ | e
      · rfl
      · cases e <;> rfl
    · intro tstat s3
      refine M.bind_ws _ _ s3 ?_ ?_
      · rw [areFilesDifferent_run]
        split
        · rfl
        · split
          · rfl
          · rcases s3.tgt.find tp with _ | e
            · rfl
            · cases e <;> rfl
      · intro diff s4
        split
        · rfl
        · split
          · exact handleConflict_ws env sp tp tp _ s4
          · rfl

/-- A smart bulk traversal never touches the stored workspace state. -/
theorem smartLoop_ws (t : SrcNode) :
    ∀ (env : Env) (ign : List String) (pol : Policy) (relDir : List String) (s : SyncSt),
    (((smartLoop env ign pol relDir t) s).2.1).ws = s.ws := by
  induction t with
  | file st c =>
      intro env ign pol relDir s
      rfl
  | dnil =>
      intro env ign pol relDir s
      rfl
  | dcons name child rest ihc ihr =>
      intro env ign pol relDir s
      cases child with
      | file st c =>
          simp only [smartLoop]
          refine M.bind_ws _ _ s ?_ (fun a s1 => ihr env ign pol relDir s1)
          split
          · rfl
          · refine M.tryCatch_ws _ _ s ?_ (fun e s1 => rfl)
            refine M.bind_ws _ _ s (mkdirRec_ws relDir s) ?_
            intro a s1
            refine M.bind_ws _ _ s1 (shouldCopyFile_ws env pol st c _ _ s1) ?_
            intro b s2
            split
            · exact copyFileWithMetadata_ws env st c _ _ s2
            · rfl
      | dnil =>
          simp only [smartLoop]
          refine M.bind_ws _ _ s ?_ (fun a s1 => ihr env ign pol relDir s1)
          split
          · rfl
          · refine M.bind_ws _ _ s (mkdirRec_ws _ s) ?_
            intro a s1
            refine M.bind_ws _ _ s1 rfl ?_
            intro b s2
            exact ihc env ign pol (relDir ++ [name]) s2
      | dcons m c2 r2 =>
          simp only [smartLoop]
          refine M.bind_ws _ _ s ?_ (fun a s1 => ihr env ign pol relDir s1)
          split
          · rfl
          · refine M.bind_ws _ _ s (mkdirRec_ws _ s) ?_
            intro a s1
            refine M.bind_ws _ _ s1 rfl ?_
            intro b s2
            exact ihc env ign pol (relDir ++ [name]) s2

/-- Change detection performs only read operations. -/
theorem areFilesDifferent_ops (env : Env) (sp : List String) (sst : Stats) (sc : List Nat)
    (tp : List String) (tst : Stats) (s : SyncSt) :
    ∀ o ∈ (areFilesDifferent env sp sst sc tp tst s).2.2, o.isRead = true := by
  intro o ho
  rw [areFilesDifferent_run] at ho
  by_cases h1 : sst.size ≠ tst.size
  · rw [if_pos h1] at ho
    simp only [List.mem_singleton] at ho
    rw [ho]
    rfl
  · rw [if_neg h1] at ho
    by_cases h2 : (sst.mtimeMs - tst.mtimeMs).natAbs > 2000
    · rw [if_pos h2] at ho
      simp only [List.mem_singleton] at ho
      rw [ho]
      rfl
    · rw [if_neg h2] at ho
      rcases hf : s.tgt.find tp with _ | e
      · rw [hf] at ho
        fin_cases ho <;> rfl
      · rw [hf] at ho
        cases e <;> fin_cases ho <;> rfl

/-- Non-interactive conflict handling records exactly a `resolve` and
possibly a `persistentError`. -/
theorem handleConflict_nonask_ops (env : Env) (sp tp rp : List String) (pol : Policy)
    (s : SyncSt) (h : pol ≠ .ask) :
    ∀ o ∈ ((handleConflict env sp tp rp pol) s).2.2,
      o = Op.resolve pol rp ∨ o = Op.persistentError rp := by
  intro o ho
  rw [handleConflict_nonask_run env sp tp rp pol s h] at ho
  by_cases hl : pol = .logAndSkip
  · rw [if_pos hl] at ho
    rcases List.mem_cons.mp ho with h1 | h1
    · exact Or.inl h1
    · exact Or.inr (List.mem_singleton.mp h1)
  · rw [if_neg hl] at ho
    exact Or.inl (List.mem_singleton.mp ho)

/-- Every resolver invocation recorded by `shouldCopyFile` carries the
bulk-effective policy, and no prompt is ever shown. -/
theorem shouldCopyFile_resolve_ops (env : Env) (pol : Policy) (st : Stats) (c : List Nat)
    (sp tp : List String) (s : SyncSt) :
    ∀ o ∈ ((shouldCopyFile env pol st c sp tp) s).2.2,
      (∀ q p, o = Op.resolve q p → q = (if pol = .ask then .logAndSkip else pol)) ∧
      (∀ p, o ≠ Op.prompt p) := by
  have hP : ∀ (o : Op), o.isRead = true →
      (∀ q p, o = Op.resolve q p → q = (if pol = .ask then .logAndSkip else pol)) ∧
      (∀ p, o ≠ Op.prompt p) := by
    intro o hr
    constructor
    · intro q p hqp
      rw [hqp] at hr
      cases hr
    · intro p hp
      rw [hp] at hr
      cases hr
  refine M.bind_ops_sub _ _ s _ ?_ ?_
  · intro o ho
    simp only [existsT, List.mem_singleton] at ho
    exact hP _ (by rw [ho]; rfl)
  · intro ex s1
    split
    · intro o ho
      cases ho
    · refine M.bind_ops_sub _ _ s1 _ ?_ ?_
      · intro o ho
        simp only [statSrc, List.mem_singleton] at ho
        exact hP _ (by rw [ho]; rfl)
      · intro sstat s2
        refine M.bind_ops_sub _ _ s2 _ ?_ ?_
        · intro o ho
          have hops : ((statT tp) s2).2.2 = [Op.statT tp] := by
            simp only [statT]
            rcases s2.tgt.find tp with _ | e
            · rfl
            · cases e <;> rfl
          rw [hops] at ho
          simp only [List.mem_singleton] at ho
          exact hP _ (by rw [ho]; rfl)
        · intro tstat s3
          refine M.bind_ops_sub _ _ s3 _ ?_ ?_
          · intro o ho
            exact hP _ (areFilesDifferent_ops env sp sstat c tp tstat s3 o ho)
          · intro diff s4
            split
            · intro o ho
              cases ho
            · split
              · intro o ho
                have heff : (if pol = Policy.ask then Policy.logAndSkip else pol) ≠ .ask := by
                  cases pol <;> simp
                rcases handleConflict_nonask_ops env sp tp tp _ s4 heff o ho with h | h
                · refine ⟨?_, ?_⟩
                  · intro q p hqp
                    rw [hqp] at h
                    exact ((Op.resolve.injEq _ _ _ _).mp h).1
                  · intro p hp
                    rw [hp] at h
                    cases h
                · refine ⟨?_, ?_⟩
                  · intro q p hqp
                    rw [hqp] at h
                    cases h
                  · intro p hp
                    rw [hp] at h
                    cases h
              · intro o ho
                cases ho

/-- Every resolver invocation in a smart bulk traversal carries the
bulk-effective policy, and no interactive prompt is ever shown. -/
theorem smartLoop_resolve_ops (t : SrcNode) :
    ∀ (env : Env) (ign : List String) (pol : Policy) (relDir : List String) (s : SyncSt),
    ∀ o ∈ ((smartLoop env ign pol relDir t) s).2.2,
      (∀ q p, o = Op.resolve q p → q = (if pol = .ask then .logAndSkip else pol)) ∧
      (∀ p, o ≠ Op.prompt p) := by
  induction t with
  | file st c =>
      intro env ign pol relDir s o ho
      cases ho
  | dnil =>
      intro env ign pol relDir s o ho
      cases ho
  | dcons name child rest ihc ihr =>
      intro env ign pol relDir s
      have hP : ∀ (o : Op), (∃ p, o = Op.mkdir p) ∨ o = Op.statS (relDir ++ [name]) ∨
          o = Op.copy (relDir ++ [name]) ∨ o = Op.utimes (relDir ++ [name]) ∨
          o = Op.readdirS (relDir ++ [name]) →
          (∀ q p, o = Op.resolve q p → q = (if pol = .ask then .logAndSkip else pol)) ∧
          (∀ p2, o ≠ Op.prompt p2) := by
        intro o hk
        constructor
        · intro q p hqp
          rw [hqp] at hk
          rcases hk with ⟨p2, h⟩ | h | h | h | h <;> cases h
        · intro p2 hp
          rw [hp] at hk
          rcases hk with ⟨p3, h⟩ | h | h | h | h <;> cases h
      cases child with
      | file st c =>
          simp only [smartLoop]
          refine M.bind_ops_sub _ _ s _ ?_ (fun a s1 => ihr env ign pol relDir s1)
          split
          · intro o ho
            cases ho
          · refine M.tryCatch_ops_sub _ _ s _ ?_ ?_
            · refine M.bind_ops_sub _ _ s _ ?_ ?_
              · intro o ho
                exact hP o (Or.inl (mkdirRec_ops relDir s o ho))
              · intro a s1
                refine M.bind_ops_sub _ _ s1 _ ?_ ?_
                · exact shouldCopyFile_resolve_ops env pol st c _ _ s1
                · intro b s2
                  split
                  · intro o ho
                    rw [copyFileWithMetadata_run] at ho
                    fin_cases ho
                    · exact hP _ (Or.inr (Or.inl rfl))
                    · exact hP _ (Or.inr (Or.inr (Or.inl rfl)))
                    · exact hP _ (Or.inr (Or.inr (Or.inr (Or.inl rfl))))
                  · intro o ho
                    cases ho
            · intro e s1 o ho
              cases ho
      | dnil =>
          simp only [smartLoop]
          refine M.bind_ops_sub _ _ s _ ?_ (fun a s1 => ihr env ign pol relDir s1)
          split
          · intro o ho
            cases ho
          · refine M.bind_ops_sub _ _ s _ ?_ ?_
            · intro o ho
              exact hP o (Or.inl (mkdirRec_ops (relDir ++ [name]) s o ho))
            · intro a s1
              refine M.bind_ops_sub _ _ s1 _ ?_ ?_
              · intro o ho
                simp only [emitOp, List.mem_singleton] at ho
                exact hP o (Or.inr (Or.inr (Or.inr (Or.inr ho))))
              · intro b s2
                exact ihc env ign pol (relDir ++ [name]) s2
      | dcons m c2 r2 =>
          simp only [smartLoop]
          refine M.bind_ops_sub _ _ s _ ?_ (fun a s1 => ihr env ign pol relDir s1)
          split
          · intro o ho
            cases ho
          · refine M.bind_ops_sub _ _ s _ ?_ ?_
            · intro o ho
              exact hP o (Or.inl (mkdirRec_ops (relDir ++ [name]) s o ho))
            · intro a s1
              refine M.bind_ops_sub _ _ s1 _ ?_ ?_
              · intro o ho
                simp only [emitOp, List.mem_singleton] at ho
                exact hP o (Or.inr (Or.inr (Or.inr (Or.inr ho))))
              · intro b s2
                exact ihc env ign pol (relDir ++ [name]) s2

/-- C3: during a Smart bulk sync with the configured policy `Ask`, the
Conflict Resolver is never invoked with `Ask` — no interactive prompt ever
appears and every resolver invocation carries `Log Error and Skip`, whose
behavior is to return `false` and raise a persistent error — and the
traversal leaves the stored workspace state (the configured conflict
policy included) unchanged. -/
theorem claim_C3_bulk_never_ask (env : Env) (ign : List String) (pol : Policy)
    (root : SrcNode) (s : SyncSt) (hask : pol = .ask) :
    (∀ o ∈ ((smartExecute env ign pol root) s).2.2,
      (∀ p, o ≠ Op.prompt p) ∧ (∀ q p, o = Op.resolve q p → q = .logAndSkip)) ∧
    (∀ sp tp rp s0, handleConflict env sp tp rp .logAndSkip s0 =
      (.ok false, s0, [Op.resolve .logAndSkip rp, Op.persistentError rp])) ∧
    (((smartExecute env ign pol root) s).2.1).ws = s.ws := by
  subst hask
  refine ⟨?_, fun sp tp rp s0 => handleConflict_logAndSkip env sp tp rp s0, ?_⟩
  · simp only [smartExecute]
    refine M.bind_ops_sub _ _ s _ ?_ ?_
    · intro o ho
      simp only [emitOp, List.mem_singleton] at ho
      constructor
      · intro p hp
        rw [hp] at ho
        cases ho
      · intro q p hqp
        rw [hqp] at ho
        cases ho
    · intro a s1 o ho
      have := smartLoop_resolve_ops root env ign .ask [] s1 o ho
      simp only [if_pos rfl] at this
      exact ⟨this.2, this.1⟩
  · simp only [smartExecute]
    exact M.bind_ws _ _ s rfl (fun a s1 => smartLoop_ws root env ign .ask [] s1)

theorem claim_C3_witness :
    ((Policy.ask = Policy.ask) ∧
     (∀ o ∈ ((smartExecute envW [] .ask
         (.dcons "a" (.file ⟨1, 0, 0⟩ [1]) .dnil))
         (SyncSt.mk [(["a"], .file ⟨1, 5000, 0⟩ [2])] wsW [])).2.2,
       (∀ p, o ≠ Op.prompt p) ∧ (∀ q p, o = Op.resolve q p → q = .logAndSkip)) ∧
     (∀ sp tp rp s0, handleConflict envW sp tp rp .logAndSkip s0 =
       (.ok false, s0, [Op.resolve .logAndSkip rp, Op.persistentError rp])) ∧
     (((smartExecute envW [] .ask (.dcons "a" (.file ⟨1, 0, 0⟩ [1]) .dnil))
         (SyncSt.mk [(["a"], .file ⟨1, 5000, 0⟩ [2])] wsW [])).2.1).ws =
       (SyncSt.mk [(["a"], .file ⟨1, 5000, 0⟩ [2])] wsW []).ws) :=
  ⟨rfl, claim_C3_bulk_never_ask envW [] .ask (.dcons "a" (.file ⟨1, 0, 0⟩ [1]) .dnil)
    (SyncSt.mk [(["a"], .file ⟨1, 5000, 0⟩ [2])] wsW []) rfl⟩

theorem M.bind_state_id {α β : Type} (x : M α) (f : α → M β) (s : SyncSt)
    (hx : (x s).2.1 = s) (hf : ∀ a, ((f a) s).2.1 = s) :
    (((M.bind x f) s)).2.1 = s := by
  rcases hxs : x s with ⟨r, s1, ops⟩
  have hs1 : s = s1 := by
    rw [hxs] at hx
    exact hx.symm
  subst hs1
  cases r with
  | ok a =>
      rcases hfs : f a s with ⟨r2, s2, ops2⟩
      have heq : (M.bind x f) s = (r2, s2, ops ++ ops2) := by
        simp only [M.bind, hxs, hfs]
      rw [heq]
      have := hf a
      rw [hfs] at this
      exact this
  | error e =>
      have heq : (M.bind x f) s = (.error e, s, ops) := by
        simp only [M.bind, hxs]
      rw [heq]

theorem M.tryCatch_state_id {α : Type} (x : M α) (h : Unit → M α) (s : SyncSt)
    (hx : (x s).2.1 = s) (hh : ∀ e, ((h e) s).2.1 = s) :
    (((M.tryCatch x h) s)).2.1 = s := by
  rcases hxs : x s with ⟨r, s1, ops⟩
  have hs1 : s = s1 := by
    rw [hxs] at hx
    exact hx.symm
  subst hs1
  cases r with
  | ok a =>
      have heq : (M.tryCatch x h) s = (.ok a, s, ops) := by
        simp only [M.tryCatch, hxs]
      rw [heq]
  | error e =>
      rcases hhs : h e s with ⟨r2, s2, ops2⟩
      have heq : (M.tryCatch x h) s = (r2, s2, ops ++ ops2) := by
        simp only [M.tryCatch, hxs, hhs]
      rw [heq]
      have := hh e
      rw [hhs] at this
      exact this

theorem statT_state (k : List String) (s : SyncSt) : ((statT k) s).2.1 = s := by
  simp only [statT]
  rcases s.tgt.find k with _ | e
  · rfl
  · cases e <;> rfl

theorem areFilesDifferent_state (env : Env) (sp : List String) (sst : Stats) (sc : List Nat)
    (tp : List String) (tst : Stats) (s : SyncSt) :
    ((areFilesDifferent env sp sst sc tp tst) s).2.1 = s := by
  rw [areFilesDifferent_run]
  split
  · rfl
  · split
    · rfl
    · rcases s.tgt.find tp with _ | e
      · rfl
      · cases e <;> rfl

/-- The forward preview scan never changes the state. -/
theorem previewLoop_state (t : SrcNode) :
    ∀ (env : Env) (ign : List String) (relDir : List String) (s : SyncSt),
    ((previewLoop env ign relDir t) s).2.1 = s := by
  induction t with
  | file st c =>
      intro env ign relDir s
      rfl
  | dnil =>
      intro env ign relDir s
      rfl
  | dcons name child rest ihc ihr =>
      intro env ign relDir s
      cases child with
      | file st c =>
          simp only [previewLoop]
          refine M.bind_state_id _ _ s ?_ ?_
          · split
            · rfl
            · refine M.tryCatch_state_id _ _ s ?_ (fun e => rfl)
              refine M.bind_state_id _ _ s rfl ?_
              intro ex
              split
              · rfl
              · refine M.bind_state_id _ _ s rfl ?_
                intro sstat
                refine M.bind_state_id _ _ s (statT_state _ s) ?_
                intro tstat
                refine M.bind_state_id _ _ s (areFilesDifferent_state env _ sstat c _ tstat s) ?_
                intro diff
                split
                · rfl
                · rfl
          · intro cs
            refine M.bind_state_id _ _ s (ihr env ign relDir s) ?_
            intro rests
            rfl
      | dnil =>
          simp only [previewLoop]
          refine M.bind_state_id _ _ s ?_ ?_
          · split
            · rfl
            · exact M.bind_state_id _ _ s rfl (fun a => ihc env ign (relDir ++ [name]) s)
          · intro cs
            exact M.bind_state_id _ _ s (ihr env ign relDir s) (fun rests => rfl)
      | dcons m c2 r2 =>
          simp only [previewLoop]
          refine M.bind_state_id _ _ s ?_ ?_
          · split
            · rfl
            · exact M.bind_state_id _ _ s rfl (fun a => ihc env ign (relDir ++ [name]) s)
          · intro cs
            exact M.bind_state_id _ _ s (ihr env ign relDir s) (fun rests => rfl)

/-- The forward preview scan performs only read operations. -/
theorem previewLoop_ops (t : SrcNode) :
    ∀ (env : Env) (ign : List String) (relDir : List String) (s : SyncSt),
    ∀ o ∈ ((previewLoop env ign relDir t) s).2.2, o.isRead = true := by
  induction t with
  | file st c =>
      intro env ign relDir s o ho
      cases ho
  | dnil =>
      intro env ign relDir s o ho
      cases ho
  | dcons name child rest ihc ihr =>
      intro env ign relDir s
      cases child with
      | file st c =>
          simp only [previewLoop]
          refine M.bind_ops_sub _ _ s _ ?_ ?_
          · split
            · intro o ho
              cases ho
            · refine M.tryCatch_ops_sub _ _ s _ ?_ ?_
              · refine M.bind_ops_sub _ _ s _ ?_ ?_
                · intro o ho
                  simp only [existsT, List.mem_singleton] at ho
                  rw [ho]
                  rfl
                · intro ex s1
                  split
                  · intro o ho
                    cases ho
                  · refine M.bind_ops_sub _ _ s1 _ ?_ ?_
                    · intro o ho
                      simp only [statSrc, List.mem_singleton] at ho
                      rw [ho]
                      rfl
                    · intro sstat s2
                      refine M.bind_ops_sub _ _ s2 _ ?_ ?_
                      · intro o ho
                        have hops : ((statT (relDir ++ [name])) s2).2.2 =
                            [Op.statT (relDir ++ [name])] := by
                          simp only [statT]
                          rcases s2.tgt.find (relDir ++ [name]) with _ | e
                          · rfl
                          · cases e <;> rfl
                        rw [hops] at ho
                        simp only [List.mem_singleton] at ho
                        rw [ho]
                        rfl
                      · intro tstat s3
                        refine M.bind_ops_sub _ _ s3 _ ?_ ?_
                        · exact areFilesDifferent_ops env _ sstat c _ tstat s3
                        · intro diff s4
                          split
                          · intro o ho
                            cases ho
                          · intro o ho
                            cases ho
              · intro e s1 o ho
                cases ho
          · intro cs s1
            refine M.bind_ops_sub _ _ s1 _ ?_ ?_
            · exact ihr env ign relDir s1
            · intro rests s2 o ho
              cases ho
      | dnil =>
          simp only [previewLoop]
          refine M.bind_ops_sub _ _ s _ ?_ ?_
          · split
            · intro o ho
              cases ho
            · refine M.bind_ops_sub _ _ s _ ?_ ?_
              · intro o ho
                simp only [emitOp, List.mem_singleton] at ho
                rw [ho]
                rfl
              · intro a s1
                exact ihc env ign (relDir ++ [name]) s1
          · intro cs s1
            refine M.bind_ops_sub _ _ s1 _ ?_ ?_
            · exact ihr env ign relDir s1
            · intro rests s2 o ho
              cases ho
      | dcons m c2 r2 =>
          simp only [previewLoop]
          refine M.bind_ops_sub _ _ s _ ?_ ?_
          · split
            · intro o ho
              cases ho
            · refine M.bind_ops_sub _ _ s _ ?_ ?_
              · intro o ho
                simp only [emitOp, List.mem_singleton] at ho
                rw [ho]
                rfl
              · intro a s1
                exact ihc env ign (relDir ++ [name]) s1
          · intro cs s1
            refine M.bind_ops_sub _ _ s1 _ ?_ ?_
            · exact ihr env ign relDir s1
            · intro rests s2 o ho
              cases ho

/-- The orphan scan never changes the state. -/
theorem orphanGo_state (fuel : Nat) :
    ∀ (env : Env) (ign : List String) (root : SrcNode) (cur : List String) (s : SyncSt),
    ((orphanGo env ign root fuel cur) s).2.1 = s := by
  induction fuel with
  | zero =>
      intro env ign root cur s
      rfl
  | succ n ih =>
      intro env ign root cur s
      simp only [orphanGo]
      refine M.bind_state_id _ _ s rfl ?_
      intro names
      induction names with
      | nil => rfl
      | cons name rest2 ihn =>
          simp only [List.foldr_cons]
          refine M.bind_state_id _ _ s ?_ ?_
          · split
            · rfl
            · refine M.bind_state_id _ _ s rfl ?_
              intro entry
              split
              · rfl
              · rcases entry with _ | e
                · rfl
                · cases e
                  · rfl
                  · exact ih env ign root (cur ++ [name]) s
          · intro cs
            exact M.bind_state_id _ _ s ihn (fun rests => rfl)

/-- The orphan scan performs only read operations. -/
theorem orphanGo_ops (fuel : Nat) :
    ∀ (env : Env) (ign : List String) (root : SrcNode) (cur : List String) (s : SyncSt),
    ∀ o ∈ ((orphanGo env ign root fuel cur) s).2.2, o.isRead = true := by
  induction fuel with
  | zero =>
      intro env ign root cur s o ho
      cases ho
  | succ n ih =>
      intro env ign root cur s
      simp only [orphanGo]
      refine M.bind_ops_sub _ _ s _ ?_ ?_
      · intro o ho
        simp only [List.mem_singleton] at ho
        rw [ho]
        rfl
      · intro names s1
        induction names generalizing s1 with
        | nil =>
            intro o ho
            cases ho
        | cons name rest2 ihn =>
            simp only [List.foldr_cons]
            refine M.bind_ops_sub _ _ s1 _ ?_ ?_
            · split
              · intro o ho
                cases ho
              · refine M.bind_ops_sub _ _ s1 _ ?_ ?_
                · intro o ho
                  cases ho
                · intro entry s2
                  split
                  · intro o ho
                    cases ho
                  · rcases entry with _ | e
                    · intro o ho
                      cases ho
                    · cases e
                      · intro o ho
                        cases ho
                      · exact ih env ign root (cur ++ [name]) s2
            · intro cs s2
              refine M.bind_ops_sub _ _ s2 _ ?_ ?_
              · exact ihn s2
              · intro rests s3 o ho
                cases ho

/-- C8: `PreviewCalculator.calculate` performs no filesystem mutation — the
engine state after a calculation is identical to the state before it — and
the operation log holds only reads, stats, and hashes: in particular, it
never invokes File Transfer (no `copy`) or the Conflict Resolver (no
`resolve`, no `prompt`). -/
theorem claim_C8_preview_pure (env : Env) (ign : List String) (root : SrcNode) (s : SyncSt) :
    ((previewCalculate env ign root) s).2.1 = s ∧
    (∀ o ∈ ((previewCalculate env ign root) s).2.2, o.isRead = true) ∧
    (∀ p, Op.copy p ∉ ((previewCalculate env ign root) s).2.2) ∧
    (∀ q p, Op.resolve q p ∉ ((previewCalculate env ign root) s).2.2) ∧
    (∀ p, Op.prompt p ∉ ((previewCalculate env ign root) s).2.2) := by
  have hops : ∀ o ∈ ((previewCalculate env ign root) s).2.2, o.isRead = true := by
    simp only [previewCalculate]
    refine M.bind_ops_sub _ _ s _ ?_ ?_
    · intro o ho
      simp only [emitOp, List.mem_singleton] at ho
      rw [ho]
      rfl
    · intro a s1
      refine M.bind_ops_sub _ _ s1 _ ?_ ?_
      · exact previewLoop_ops root env ign [] s1
      · intro cs s2
        refine M.bind_ops_sub _ _ s2 _ ?_ ?_
        · intro o ho
          cases ho
        · intro fuel s3
          refine M.bind_ops_sub _ _ s3 _ ?_ ?_
          · exact orphanGo_ops (fuel + 1) env ign root [] s3
          · intro orphans s4 o ho
            cases ho
  refine ⟨?_, hops, ?_, ?_, ?_⟩
  · simp only [previewCalculate]
    refine M.bind_state_id _ _ s rfl ?_
    intro a
    refine M.bind_state_id _ _ s (previewLoop_state root env ign [] s) ?_
    intro cs
    refine M.bind_state_id _ _ s rfl ?_
    intro fuel
    refine M.bind_state_id _ _ s (orphanGo_state (fuel + 1) env ign root [] s) ?_
    intro orphans
    rfl
  · intro p hp
    have := hops _ hp
    cases this
  · intro q p hp
    have := hops _ hp
    cases this
  · intro p hp
    have := hops _ hp
    cases this

theorem claim_C8_witness :
    ((previewCalculate envW [] (.dcons "a" (.file ⟨1, 0, 0⟩ [1]) .dnil))
       (SyncSt.mk [(["b"], .file ⟨2, 9, 9⟩ [3, 4])] wsW [])).2.1 =
      SyncSt.mk [(["b"], .file ⟨2, 9, 9⟩ [3, 4])] wsW [] ∧
    (∀ o ∈ ((previewCalculate envW [] (.dcons "a" (.file ⟨1, 0, 0⟩ [1]) .dnil))
       (SyncSt.mk [(["b"], .file ⟨2, 9, 9⟩ [3, 4])] wsW [])).2.2, o.isRead = true) ∧
    (∀ p, Op.copy p ∉ ((previewCalculate envW [] (.dcons "a" (.file ⟨1, 0, 0⟩ [1]) .dnil))
       (SyncSt.mk [(["b"], .file ⟨2, 9, 9⟩ [3, 4])] wsW [])).2.2) ∧
    (∀ q p, Op.resolve q p ∉ ((previewCalculate envW [] (.dcons "a" (.file ⟨1, 0, 0⟩ [1]) .dnil))
       (SyncSt.mk [(["b"], .file ⟨2, 9, 9⟩ [3, 4])] wsW [])).2.2) ∧
    (∀ p, Op.prompt p ∉ ((previewCalculate envW [] (.dcons "a" (.file ⟨1, 0, 0⟩ [1]) .dnil))
       (SyncSt.mk [(["b"], .file ⟨2, 9, 9⟩ [3, 4])] wsW [])).2.2) :=
  claim_C8_preview_pure envW [] (.dcons "a" (.file ⟨1, 0, 0⟩ [1]) .dnil)
    (SyncSt.mk [(["b"], .file ⟨2, 9, 9⟩ [3, 4])] wsW [])

/-- Members of `properPrefixes q` are prefixes of `q`. -/
theorem mem_properPrefixes_isPrefixOf {p q : List String}
    (h : p ∈ properPrefixes q) : p.isPrefixOf q = true := by
  simp only [properPrefixes, List.mem_map, List.mem_range] at h
  obtain ⟨i, _, rfl⟩ := h
  exact List.isPrefixOf_iff_prefix.mpr ( List.take_prefix _ _)

/-- A prefix of `relDir ++ [n]` is a prefix of `relDir` or the whole path. -/
theorem prefix_snoc {k relDir : List String} {n : String}
    (h : k.isPrefixOf (relDir ++ [n]) = true) :
    k.isPrefixOf relDir = true ∨ k = relDir ++ [n] := by
  have h2 := List.isPrefixOf_iff_prefix.mp h
  rcases List.prefix_concat_iff.mp h2 with h3 | h3
  · exact Or.inr h3
  · exact Or.inl ( List.isPrefixOf_iff_prefix.mpr h3)

/-- Every file key of a listing extends the listing root by at least one
entry name of the listing. -/
theorem fileKeys_shape (t : SrcNode) :
    ∀ (relDir k : List String), k ∈ SrcNode.fileKeys relDir t →
    ∃ m suffix, m ∈ t.names ∧ k = relDir ++ m :: suffix := by
  induction t with
  | file st c => intro relDir k h; simp [SrcNode.fileKeys] at h
  | dnil => intro relDir k h; simp [SrcNode.fileKeys] at h
  | dcons n c r ihc ihr =>
      intro relDir k h
      cases c with
      | file st cc =>
          simp only [SrcNode.fileKeys, List.mem_append, List.mem_singleton] at h
          rcases h with h | h
          · exact ⟨n, [], by simp [SrcNode.names], by rw [h]⟩
          · obtain ⟨m, suffix, hm, hk⟩ := ihr relDir k h
            refine ⟨m, suffix, ?_, hk⟩
            simp only [SrcNode.names]
            exact List.mem_cons_of_mem _ hm
      | dnil =>
          simp only [SrcNode.fileKeys, List.mem_append] at h
          rcases h with h | h
          · simp [SrcNode.fileKeys] at h
          · obtain ⟨m, suffix, hm, hk⟩ := ihr relDir k h
            refine ⟨m, suffix, ?_, hk⟩
            simp only [SrcNode.names]
            exact List.mem_cons_of_mem _ hm
      | dcons n2 c2 r2 =>
          simp only [SrcNode.fileKeys, List.mem_append] at h
          rcases h with h | h
          · obtain ⟨m, suffix, hm, hk⟩ := ihc (relDir ++ [n]) k h
            refine ⟨n, m :: suffix, ?_, ?_⟩
            · simp [SrcNode.names]
            · rw [hk, List.append_assoc, List.singleton_append]
          · obtain ⟨m, suffix, hm, hk⟩ := ihr relDir k h
            refine ⟨m, suffix, ?_, hk⟩
            simp only [SrcNode.names]
            exact List.mem_cons_of_mem _ hm

/-- File keys are strictly longer than the listing root. -/
theorem fileKeys_longer {t : SrcNode} {relDir k : List String}
    (h : k ∈ SrcNode.fileKeys relDir t) : relDir.length < k.length := by
  obtain ⟨m, suffix, _, hk⟩ := fileKeys_shape t relDir k h
  rw [hk]
  simp only [List.length_append, List.length_cons]
  omega

/-- No prefix of the listing root is a file key of the listing. -/
theorem prefix_not_fileKey (t : SrcNode) {d k : List String}
    (h : k.isPrefixOf d = true) : k ∉ SrcNode.fileKeys d t := by
  intro hm
  have h1 := fileKeys_longer hm
  have h2 := List.IsPrefix.length_le ( List.isPrefixOf_iff_prefix.mp h)
  omega

/-- A key extending `relDir ++ [n]` is no file key of a sibling listing
whose entry names avoid `n`. -/
theorem snoc_not_fileKey (rest : SrcNode) {relDir k : List String} {n : String}
    (hn : rest.names.contains n = false)
    (h : (relDir ++ [n]).isPrefixOf k = true) : k ∉ SrcNode.fileKeys relDir rest := by
  intro hm
  obtain ⟨m, suffix, hmem, hk⟩ := fileKeys_shape rest relDir k hm
  subst hk
  have h2 := List.isPrefixOf_iff_prefix.mp h
  have h3 := (List.prefix_append_right_inj relDir).mp h2
  have h4 := (List.cons_prefix_cons.mp h3).1
  subst h4
  have h5 : rest.names.contains n = true := List.elem_eq_true_of_mem hmem
  rw [hn] at h5
  cases h5

/-- Generic propagation of a transitive state relation through `M.bind`. -/
theorem M.bind_rel {α β : Type} (R : SyncSt → SyncSt → Prop)
    (htrans : ∀ a b c, R a b → R b c → R a c)
    (x : M α) (f : α → M β) (s : SyncSt)
    (hx : R s ((x s).2.1)) (hf : ∀ a s1, R s1 ((f a s1).2.1)) :
    R s (((M.bind x f) s).2.1) := by
  rcases hxs : x s with ⟨r, s1, ops⟩
  rw [hxs] at hx
  cases r with
  | ok a =>
      rcases hfs : f a s1 with ⟨r2, s2, ops2⟩
      have heq : (M.bind x f) s = (r2, s2, ops ++ ops2) := by
        simp only [M.bind, hxs, hfs]
      rw [heq]
      have h2 := hf a s1
      rw [hfs] at h2
      exact htrans _ _ _ hx h2
  | error e =>
      have heq : (M.bind x f) s = (.error e, s1, ops) := by
        simp only [M.bind, hxs]
      rw [heq]
      exact hx

/-- Generic propagation of a transitive state relation through
`M.tryCatch`. -/
theorem M.tryCatch_rel {α : Type} (R : SyncSt → SyncSt → Prop)
    (htrans : ∀ a b c, R a b → R b c → R a c)
    (x : M α) (h : Unit → M α) (s : SyncSt)
    (hx : R s ((x s).2.1)) (hh : ∀ e s1, R s1 ((h e s1).2.1)) :
    R s (((M.tryCatch x h) s).2.1) := by
  rcases hxs : x s with ⟨r, s1, ops⟩
  rw [hxs] at hx
  cases r with
  | ok a =>
      have heq : (M.tryCatch x h) s = (.ok a, s1, ops) := by
        simp only [M.tryCatch, hxs]
      rw [heq]
      exact hx
  | error e =>
      rcases hhs : h e s1 with ⟨r2, s2, ops2⟩
      have heq : (M.tryCatch x h) s = (r2, s2, ops ++ ops2) := by
        simp only [M.tryCatch, hxs, hhs]
      rw [heq]
      have h2 := hh e s1
      rw [hhs] at h2
      exact htrans _ _ _ hx h2

/-- Recursive directory creation only re-creates directories: the state
extends pointwise in the `DirExtAt` sense at every key. -/
theorem mkdirRec_dirext (kdir k : List String) (s : SyncSt) :
    DirExtAt s (((mkdirRec kdir) s).2.1) k := by
  obtain ⟨r, s2, ops, hrun, _, _, hfind, _⟩ := mkdirAux_run (properPrefixes kdir) s
  rw [mkdirRec, hrun]
  rcases hfind k with h | ⟨h1, h2, _⟩
  · exact Or.inl h
  · exact Or.inr ⟨h1, h2⟩

/-- `handleConflict` leaves the state unchanged under every non-interactive
policy. -/
theorem handleConflict_state (env : Env) (sp tp rp : List String) (pol : Policy)
    (s : SyncSt) (h : pol ≠ .ask) : ((handleConflict env sp tp rp pol) s).2.1 = s := by
  rw [handleConflict_nonask_run env sp tp rp pol s h]

/-- `shouldCopyFile` never changes the engine state (the bulk-effective
policy is never `Ask`, so no pending-set mutation can occur). -/
theorem shouldCopyFile_state (env : Env) (pol : Policy) (st : Stats) (c : List Nat)
    (sp tp : List String) (s : SyncSt) :
    ((shouldCopyFile env pol st c sp tp) s).2.1 = s := by
  refine M.bind_state_id _ _ s rfl ?_
  intro ex
  split
  · rfl
  · refine M.bind_state_id _ _ s rfl ?_
    intro sstat
    refine M.bind_state_id _ _ s (statT_state tp s) ?_
    intro tstat
    refine M.bind_state_id _ _ s (areFilesDifferent_state env sp sstat c tp tstat s) ?_
    intro diff
    split
    · rfl
    · split
      · exact handleConflict_state env sp tp tp _ s
          (by by_cases hp : pol = Policy.ask <;> simp [hp])
      · rfl

/-- `shouldCopyFile` when the target does not exist: copy, after only the
existence check. -/
theorem shouldCopyFile_run_absent (env : Env) (pol : Policy) (st : Stats) (c : List Nat)
    (sp tp : List String) (s : SyncSt)
    (hfind : s.tgt.find tp = none) :
    shouldCopyFile env pol st c sp tp s = (.ok true, s, [Op.existsT tp]) := by
  simp [shouldCopyFile, M.bind, existsT, hfind, M.pure]

/-- `shouldCopyFile` when a directory occupies the target path: the target
stat rejects and the decision fails like any per-file I/O error. -/
theorem shouldCopyFile_run_dir (env : Env) (pol : Policy) (st : Stats) (c : List Nat)
    (sp tp : List String) (s : SyncSt)
    (hfind : s.tgt.find tp = some TEntry.dir) :
    shouldCopyFile env pol st c sp tp s =
      (.error (), s, [Op.existsT tp, Op.statS sp, Op.statT tp]) := by
  simp only [shouldCopyFile, M.bind, existsT, statSrc, statT, hfind, Option.isSome_some,
    Bool.not_true, Bool.false_eq_true, if_false]
  simp [M.pure]

/-- `shouldCopyFile` on a differing file whose target is not newer than the
source by more than the tolerance: an ordinary update, whatever the cause
of the difference. -/
theorem shouldCopyFile_run_update_any (env : Env) (pol : Policy) (st : Stats) (c : List Nat)
    (sp tp : List String) (s : SyncSt) (tst : Stats) (tc : List Nat)
    (hfind : s.tgt.find tp = some (.file tst tc))
    (hdiff : st.size ≠ tst.size ∨ (st.mtimeMs - tst.mtimeMs).natAbs > 2000 ∨
      env.hash c ≠ env.hash tc)
    (hnotnewer : ¬tst.mtimeMs > st.mtimeMs + 2000) :
    ∃ ops, shouldCopyFile env pol st c sp tp s = (.ok true, s, ops) ∧
      ∀ o ∈ ops, o.isRead = true := by
  by_cases hsize : st.size = tst.size
  · by_cases htime : (st.mtimeMs - tst.mtimeMs).natAbs > 2000
    · refine ⟨[Op.existsT tp, Op.statS sp, Op.statT tp, Op.detect sp tp], ?_,
        by intro o ho; fin_cases ho <;> rfl⟩
      simp only [shouldCopyFile, M.bind, existsT, statSrc, statT, hfind, Option.isSome_some,
        Bool.not_true, Bool.false_eq_true, if_false, areFilesDifferent_run, M.pure]
      simp [M.pure, hsize, htime, hnotnewer]
    · have hhash : env.hash c ≠ env.hash tc := by
        rcases hdiff with h | h | h
        · exact absurd hsize h
        · exact absurd h htime
        · exact h
      refine ⟨[Op.existsT tp, Op.statS sp, Op.statT tp, Op.detect sp tp,
               Op.checksumS sp, Op.checksumT tp], ?_,
        by intro o ho; fin_cases ho <;> rfl⟩
      simp only [shouldCopyFile, M.bind, existsT, statSrc, statT, hfind, Option.isSome_some,
        Bool.not_true, Bool.false_eq_true, if_false, areFilesDifferent_run, M.pure]
      simp [M.pure, hsize, htime, hhash, hnotnewer]
  · refine ⟨[Op.existsT tp, Op.statS sp, Op.statT tp, Op.detect sp tp], ?_,
      by intro o ho; fin_cases ho <;> rfl⟩
    simp only [shouldCopyFile, M.bind, existsT, statSrc, statT, hfind, Option.isSome_some,
      Bool.not_true, Bool.false_eq_true, if_false, areFilesDifferent_run, M.pure]
    simp [M.pure, hsize, hnotnewer]

/-- Frame property of the smart traversal: at every key that is not a file
key of the traversed listing, the state is preserved up to directory
re-creation (`DirExtAt`). -/
theorem smartLoop_frame (t : SrcNode) :
    ∀ (env : Env) (ign : List String) (pol : Policy) (relDir : List String) (s : SyncSt)
      (k : List String), k ∉ SrcNode.fileKeys relDir t →
    DirExtAt s (((smartLoop env ign pol relDir t) s).2.1) k := by
  induction t with
  | file st c => intro env ign pol relDir s k _; exact DirExtAt.refl s k
  | dnil => intro env ign pol relDir s k _; exact DirExtAt.refl s k
  | dcons name child rest ihc ihr =>
      intro env ign pol relDir s k hk
      cases child with
      | file st c =>
          have hsplit : SrcNode.fileKeys relDir (SrcNode.dcons name (SrcNode.file st c) rest) =
              [relDir ++ [name]] ++ SrcNode.fileKeys relDir rest := rfl
          rw [hsplit, List.singleton_append, List.mem_cons] at hk
          push_neg at hk
          simp only [smartLoop]
          refine M.bind_rel (fun a b => DirExtAt a b k)
            (fun _ _ _ h1 h2 => DirExtAt.trans h1 h2) _ _ s ?_
            (fun a s1 => ihr env ign pol relDir s1 k hk.2)
          split
          · exact DirExtAt.refl _ _
          · refine M.tryCatch_rel (fun a b => DirExtAt a b k)
              (fun _ _ _ h1 h2 => DirExtAt.trans h1 h2) _ _ s ?_
              (fun e s1 => DirExtAt.refl _ _)
            refine M.bind_rel (fun a b => DirExtAt a b k)
              (fun _ _ _ h1 h2 => DirExtAt.trans h1 h2) _ _ s
              (mkdirRec_dirext relDir k s) ?_
            intro a s1
            refine M.bind_rel (fun a b => DirExtAt a b k)
              (fun _ _ _ h1 h2 => DirExtAt.trans h1 h2) _ _ s1 ?_ ?_
            · rw [shouldCopyFile_state]
              exact DirExtAt.refl _ _
            · intro b s2
              split
              · exact Or.inl
                  (by rw [copyFileWithMetadata_find, if_neg (fun h => hk.1 h.symm)])
              · exact DirExtAt.refl _ _
      | dnil =>
          have hsplit : SrcNode.fileKeys relDir (SrcNode.dcons name SrcNode.dnil rest) =
              SrcNode.fileKeys relDir rest := rfl
          rw [hsplit] at hk
          simp only [smartLoop]
          refine M.bind_rel (fun a b => DirExtAt a b k)
            (fun _ _ _ h1 h2 => DirExtAt.trans h1 h2) _ _ s ?_
            (fun a s1 => ihr env ign pol relDir s1 k hk)
          split
          · exact DirExtAt.refl _ _
          · refine M.bind_rel (fun a b => DirExtAt a b k)
              (fun _ _ _ h1 h2 => DirExtAt.trans h1 h2) _ _ s
              (mkdirRec_dirext _ k s) ?_
            intro a s1
            refine M.bind_rel (fun a b => DirExtAt a b k)
              (fun _ _ _ h1 h2 => DirExtAt.trans h1 h2) _ _ s1
              (DirExtAt.refl _ _) ?_
            intro b s2
            exact ihc env ign pol (relDir ++ [name]) s2 k (by simp [SrcNode.fileKeys])
      | dcons n2 c2 r2 =>
          have hsplit : SrcNode.fileKeys relDir
                (SrcNode.dcons name (SrcNode.dcons n2 c2 r2) rest) =
              SrcNode.fileKeys (relDir ++ [name]) (SrcNode.dcons n2 c2 r2) ++
                SrcNode.fileKeys relDir rest := rfl
          rw [hsplit, List.mem_append] at hk
          push_neg at hk
          simp only [smartLoop]
          refine M.bind_rel (fun a b => DirExtAt a b k)
            (fun _ _ _ h1 h2 => DirExtAt.trans h1 h2) _ _ s ?_
            (fun a s1 => ihr env ign pol relDir s1 k hk.2)
          split
          · exact DirExtAt.refl _ _
          · refine M.bind_rel (fun a b => DirExtAt a b k)
              (fun _ _ _ h1 h2 => DirExtAt.trans h1 h2) _ _ s
              (mkdirRec_dirext _ k s) ?_
            intro a s1
            refine M.bind_rel (fun a b => DirExtAt a b k)
              (fun _ _ _ h1 h2 => DirExtAt.trans h1 h2) _ _ s1
              (DirExtAt.refl _ _) ?_
            intro b s2
            exact ihc env ign pol (relDir ++ [name]) s2 k hk.1

/-- One non-ignored file entry of the smart traversal, re-run from any
state that extends the first run's final state (`DirExtAt`) at the parent
directory prefixes and at the file's relative path: the outcome is
identical, the state is left untouched, and no copy is performed. -/
theorem fileStep_idem (env : Env) (pol : Policy) (st : Stats) (c : List Nat)
    (d q : List String) (s : SyncSt) (r : Except Unit Unit) (sA : SyncSt) (opsA : List Op)
    (hqd : q ∉ properPrefixes d)
    (hrun : (M.tryCatch (M.bind (mkdirRec d) fun _ =>
        M.bind (shouldCopyFile env pol st c q q) fun b =>
        if b then copyFileWithMetadata env st c q q else M.pure ())
        (fun _ => M.pure ())) s = (r, sA, opsA))
    (sp : SyncSt)
    (hextP : ∀ k ∈ properPrefixes d, DirExtAt sA sp k)
    (hextR : DirExtAt sA sp q) :
    ∃ ops2, (M.tryCatch (M.bind (mkdirRec d) fun _ =>
        M.bind (shouldCopyFile env pol st c q q) fun b =>
        if b then copyFileWithMetadata env st c q q else M.pure ())
        (fun _ => M.pure ())) sp = (r, sp, ops2) ∧ ∀ p2, Op.copy p2 ∉ ops2 := by
  rcases hm1 : mkdirAux (properPrefixes d) s with ⟨rm, sm, opsm⟩
  cases rm with
  | error e =>
      cases e
      simp [M.tryCatch, M.bind, mkdirRec, hm1, M.pure] at hrun
      obtain ⟨hr, hsA, hops⟩ := hrun
      subst hr
      subst hsA
      obtain ⟨opsm2, hm2, hkinds⟩ :=
        mkdirAux_idem (properPrefixes d) s (.error ()) sm opsm hm1 sp hextP
      refine ⟨opsm2, ?_, ?_⟩
      · simp [M.tryCatch, M.bind, mkdirRec, hm2, M.pure]
      · intro p2 hp2
        obtain ⟨pq, hpq⟩ := hkinds _ hp2
        simp at hpq
  | ok a =>
      cases a
      rcases hfindm : sm.tgt.find q with _ | ent
      · -- absent target: the first run copies, the second run sees the copy
        have hscf := shouldCopyFile_run_absent env pol st c q q sm hfindm
        simp [M.tryCatch, M.bind, mkdirRec, hm1, hscf, copyFileWithMetadata_run,
          M.pure] at hrun
        obtain ⟨hr, hsA, hops⟩ := hrun
        subst hr
        subst hsA
        have hfindp : sp.tgt.find q =
            some (TEntry.file ⟨st.size, st.mtimeMs, st.atimeMs⟩ c) := by
          rcases hextR with h | ⟨h1, _⟩
          · rw [h]; simp [TgtFS.find_set]
          · simp [TgtFS.find_set] at h1
        have hchain : ∀ p ∈ properPrefixes d, DirExtAt sm sp p := by
          intro p hp
          refine DirExtAt.trans (Or.inl ?_) (hextP p hp)
          have hne : q ≠ p := fun h => hqd (h ▸ hp)
          simp [TgtFS.find_set, hne]
        obtain ⟨opsm2, hm2, hkinds⟩ :=
          mkdirAux_idem (properPrefixes d) s (.ok ()) sm opsm hm1 sp hchain
        have hscf2 := shouldCopyFile_run_same env pol st c q q sp
          ⟨st.size, st.mtimeMs, st.atimeMs⟩ c hfindp rfl (by simp) rfl
        refine ⟨opsm2 ++ [Op.existsT q, Op.statS q, Op.statT q, Op.detect q q,
            Op.checksumS q, Op.checksumT q], ?_, ?_⟩
        · simp [M.tryCatch, M.bind, mkdirRec, hm2, hscf2, M.pure]
        · intro p2 hp2
          rcases List.mem_append.mp hp2 with h | h
          · obtain ⟨pq, hpq⟩ := hkinds _ h
            simp at hpq
          · simp at h
      · cases ent with
        | dir =>
            -- a directory occupies the target path: both runs fail the stat
            have hscf := shouldCopyFile_run_dir env pol st c q q sm hfindm
            simp [M.tryCatch, M.bind, mkdirRec, hm1, hscf, M.pure] at hrun
            obtain ⟨hr, hsA, hops⟩ := hrun
            subst hr
            subst hsA
            have hfindp : sp.tgt.find q = some TEntry.dir := by
              rcases hextR with h | ⟨h1, _⟩
              · rw [h, hfindm]
              · rw [hfindm] at h1
                simp at h1
            obtain ⟨opsm2, hm2, hkinds⟩ :=
              mkdirAux_idem (properPrefixes d) s (.ok ()) sm opsm hm1 sp hextP
            have hscf2 := shouldCopyFile_run_dir env pol st c q q sp hfindp
            refine ⟨opsm2 ++ [Op.existsT q, Op.statS q, Op.statT q], ?_, ?_⟩
            · simp [M.tryCatch, M.bind, mkdirRec, hm2, hscf2, M.pure]
            · intro p2 hp2
              rcases List.mem_append.mp hp2 with h | h
              · obtain ⟨pq, hpq⟩ := hkinds _ h
                simp at hpq
              · simp at h
        | file tst tc =>
            by_cases hsame : st.size = tst.size ∧ (st.mtimeMs - tst.mtimeMs).natAbs ≤ 2000 ∧
                env.hash c = env.hash tc
            · -- not different: both runs skip
              obtain ⟨hs1, hs2, hs3⟩ := hsame
              have hscf := shouldCopyFile_run_same env pol st c q q sm tst tc hfindm hs1 hs2 hs3
              simp [M.tryCatch, M.bind, mkdirRec, hm1, hscf, M.pure] at hrun
              obtain ⟨hr, hsA, hops⟩ := hrun
              subst hr
              subst hsA
              have hfindp : sp.tgt.find q = some (TEntry.file tst tc) := by
                rcases hextR with h | ⟨h1, _⟩
                · rw [h, hfindm]
                · rw [hfindm] at h1
                  simp at h1
              obtain ⟨opsm2, hm2, hkinds⟩ :=
                mkdirAux_idem (properPrefixes d) s (.ok ()) sm opsm hm1 sp hextP
              have hscf2 := shouldCopyFile_run_same env pol st c q q sp tst tc hfindp hs1 hs2 hs3
              refine ⟨opsm2 ++ [Op.existsT q, Op.statS q, Op.statT q, Op.detect q q,
                  Op.checksumS q, Op.checksumT q], ?_, ?_⟩
              · simp [M.tryCatch, M.bind, mkdirRec, hm2, hscf2, M.pure]
              · intro p2 hp2
                rcases List.mem_append.mp hp2 with h | h
                · obtain ⟨pq, hpq⟩ := hkinds _ h
                  simp at hpq
                · simp at h
            · have hdiff3 : st.size ≠ tst.size ∨ (st.mtimeMs - tst.mtimeMs).natAbs > 2000 ∨
                  env.hash c ≠ env.hash tc := by
                by_contra hcon
                push_neg at hcon
                exact hsame ⟨hcon.1, hcon.2.1, hcon.2.2⟩
              by_cases hnewer : tst.mtimeMs > st.mtimeMs + 2000
              · -- conflict: the resolver verdict is deterministic across runs
                obtain ⟨opsb, hscf, hresmem, hkindsb, hncb⟩ :=
                  shouldCopyFile_run_conflict env pol st c q q sm tst tc hfindm hdiff3 hnewer
                cases hv : resolverVerdict env
                    (if pol = Policy.ask then Policy.logAndSkip else pol) q with
                | false =>
                    rw [hv] at hscf
                    simp [M.tryCatch, M.bind, mkdirRec, hm1, hscf, M.pure] at hrun
                    obtain ⟨hr, hsA, hops⟩ := hrun
                    subst hr
                    subst hsA
                    have hfindp : sp.tgt.find q = some (TEntry.file tst tc) := by
                      rcases hextR with h | ⟨h1, _⟩
                      · rw [h, hfindm]
                      · rw [hfindm] at h1
                        simp at h1
                    obtain ⟨opsm2, hm2, hkinds⟩ :=
                      mkdirAux_idem (properPrefixes d) s (.ok ()) sm opsm hm1 sp hextP
                    obtain ⟨opsb2, hscf2, hresmem2, hkindsb2, hncb2⟩ :=
                      shouldCopyFile_run_conflict env pol st c q q sp tst tc hfindp hdiff3 hnewer
                    rw [hv] at hscf2
                    refine ⟨opsm2 ++ opsb2, ?_, ?_⟩
                    · simp [M.tryCatch, M.bind, mkdirRec, hm2, hscf2, M.pure]
                    · intro p2 hp2
                      rcases List.mem_append.mp hp2 with h | h
                      · obtain ⟨pq, hpq⟩ := hkinds _ h
                        simp at hpq
                      · exact hncb2 p2 h
                | true =>
                    rw [hv] at hscf
                    simp [M.tryCatch, M.bind, mkdirRec, hm1, hscf,
                      copyFileWithMetadata_run, M.pure] at hrun
                    obtain ⟨hr, hsA, hops⟩ := hrun
                    subst hr
                    subst hsA
                    have hfindp : sp.tgt.find q =
                        some (TEntry.file ⟨st.size, st.mtimeMs, st.atimeMs⟩ c) := by
                      rcases hextR with h | ⟨h1, _⟩
                      · rw [h]; simp [TgtFS.find_set]
                      · simp [TgtFS.find_set] at h1
                    have hchain : ∀ p ∈ properPrefixes d, DirExtAt sm sp p := by
                      intro p hp
                      refine DirExtAt.trans (Or.inl ?_) (hextP p hp)
                      have hne : q ≠ p := fun h => hqd (h ▸ hp)
                      simp [TgtFS.find_set, hne]
                    obtain ⟨opsm2, hm2, hkinds⟩ :=
                      mkdirAux_idem (properPrefixes d) s (.ok ()) sm opsm hm1 sp hchain
                    have hscf2 := shouldCopyFile_run_same env pol st c q q sp
                      ⟨st.size, st.mtimeMs, st.atimeMs⟩ c hfindp rfl (by simp) rfl
                    refine ⟨opsm2 ++ [Op.existsT q, Op.statS q, Op.statT q, Op.detect q q,
                        Op.checksumS q, Op.checksumT q], ?_, ?_⟩
                    · simp [M.tryCatch, M.bind, mkdirRec, hm2, hscf2, M.pure]
                    · intro p2 hp2
                      rcases List.mem_append.mp hp2 with h | h
                      · obtain ⟨pq, hpq⟩ := hkinds _ h
                        simp at hpq
                      · simp at h
              · -- ordinary update: the first run copies, the second run skips
                obtain ⟨opsb, hscf, hreads⟩ :=
                  shouldCopyFile_run_update_any env pol st c q q sm tst tc hfindm hdiff3 hnewer
                simp [M.tryCatch, M.bind, mkdirRec, hm1, hscf,
                  copyFileWithMetadata_run, M.pure] at hrun
                obtain ⟨hr, hsA, hops⟩ := hrun
                subst hr
                subst hsA
                have hfindp : sp.tgt.find q =
                    some (TEntry.file ⟨st.size, st.mtimeMs, st.atimeMs⟩ c) := by
                  rcases hextR with h | ⟨h1, _⟩
                  · rw [h]; simp [TgtFS.find_set]
                  · simp [TgtFS.find_set] at h1
                have hchain : ∀ p ∈ properPrefixes d, DirExtAt sm sp p := by
                  intro p hp
                  refine DirExtAt.trans (Or.inl ?_) (hextP p hp)
                  have hne : q ≠ p := fun h => hqd (h ▸ hp)
                  simp [TgtFS.find_set, hne]
                obtain ⟨opsm2, hm2, hkinds⟩ :=
                  mkdirAux_idem (properPrefixes d) s (.ok ()) sm opsm hm1 sp hchain
                have hscf2 := shouldCopyFile_run_same env pol st c q q sp
                  ⟨st.size, st.mtimeMs, st.atimeMs⟩ c hfindp rfl (by simp) rfl
                refine ⟨opsm2 ++ [Op.existsT q, Op.statS q, Op.statT q, Op.detect q q,
                    Op.checksumS q, Op.checksumT q], ?_, ?_⟩
                · simp [M.tryCatch, M.bind, mkdirRec, hm2, hscf2, M.pure]
                · intro p2 hp2
                  rcases List.mem_append.mp hp2 with h | h
                  · obtain ⟨pq, hpq⟩ := hkinds _ h
                    simp at hpq
                  · simp at h

/-- Evaluation rule for `M.bind` when the first computation succeeds. -/
theorem M.bind_eval_ok {α β : Type} (x : M α) (f : α → M β) (s : SyncSt)
    {a : α} {s1 : SyncSt} {ops : List Op} (hx : x s = (.ok a, s1, ops))
    {r2 : Except Unit β} {s2 : SyncSt} {ops2 : List Op} (hf : f a s1 = (r2, s2, ops2)) :
    (M.bind x f) s = (r2, s2, ops ++ ops2) := by
  simp only [M.bind, hx, hf]

/-- Evaluation rule for `M.bind` when the first computation throws. -/
theorem M.bind_eval_error {α β : Type} (x : M α) (f : α → M β) (s : SyncSt)
    {s1 : SyncSt} {ops : List Op} (hx : x s = (.error (), s1, ops)) :
    (M.bind x f) s = (.error (), s1, ops) := by
  simp only [M.bind, hx]

/-- A computation protected by a catch-to-skip handler always succeeds. -/
theorem tryCatch_skip_ok (x : M Unit) (s : SyncSt) :
    ∃ s2 ops, (M.tryCatch x (fun _ => M.pure ())) s = (.ok (), s2, ops) := by
  rcases hxs : x s with ⟨rx, s1, ops⟩
  cases rx with
  | ok a =>
      cases a
      exact ⟨s1, ops, by simp [M.tryCatch, hxs]⟩
  | error e =>
      exact ⟨s1, ops, by simp [M.tryCatch, hxs, M.pure]⟩

/-- A touched key of the tail listing is a touched key of the whole
listing. -/
theorem touchedKey_rest {relDir : List String} {name : String} {child rest : SrcNode}
    {k : List String} (h : touchedKey relDir rest k) :
    touchedKey relDir (SrcNode.dcons name child rest) k := by
  rcases h with h | ⟨n, hn2, hp⟩
  · exact Or.inl h
  · refine Or.inr ⟨n, ?_, hp⟩
    simp only [SrcNode.names]
    exact List.mem_cons_of_mem _ hn2

/-- A touched key of the head entry's sub-listing is a touched key of the
whole listing. -/
theorem touchedKey_child {relDir : List String} {name : String} {child rest : SrcNode}
    {k : List String} (h : touchedKey (relDir ++ [name]) child k) :
    touchedKey relDir (SrcNode.dcons name child rest) k := by
  rcases h with h | ⟨n, hn2, hp⟩
  · rcases prefix_snoc h with h2 | h2
    · exact Or.inl h2
    · refine Or.inr ⟨name, ?_, ?_⟩
      · simp [SrcNode.names]
      · rw [h2]
        simp [ List.isPrefixOf_iff_prefix]
  · refine Or.inr ⟨name, ?_, ?_⟩
    · simp [SrcNode.names]
    · have h3 := List.isPrefixOf_iff_prefix.mp hp
      exact List.isPrefixOf_iff_prefix.mpr (( List.prefix_append _ _).trans h3)

/-- A prefix of the head entry's path is a touched key of the whole
listing. -/
theorem touchedKey_of_snoc {relDir k : List String} {name : String}
    (child rest : SrcNode) (h : k.isPrefixOf (relDir ++ [name]) = true) :
    touchedKey relDir (SrcNode.dcons name child rest) k := by
  rcases prefix_snoc h with h2 | h2
  · exact Or.inl h2
  · refine Or.inr ⟨name, ?_, ?_⟩
    · simp [SrcNode.names]
    · rw [h2]
      simp [ List.isPrefixOf_iff_prefix]

/-- Re-running the smart traversal of a well-formed listing, from any state
that extends the first run's final state (`DirExtAt`) at the traversal's
touched keys: the same outcome is produced, the state is left untouched,
and no copy operation is performed. -/
theorem smartLoop_idem (t : SrcNode) :
    ∀ (env : Env) (ign : List String) (pol : Policy) (relDir : List String) (s : SyncSt)
      (r : Except Unit Unit) (s1 : SyncSt) (ops1 : List Op),
    t.wf = true →
    smartLoop env ign pol relDir t s = (r, s1, ops1) →
    ∀ sp, (∀ k, touchedKey relDir t k → DirExtAt s1 sp k) →
    ∃ ops2, smartLoop env ign pol relDir t sp = (r, sp, ops2) ∧ ∀ p, Op.copy p ∉ ops2 := by
  induction t with
  | file st c =>
      intro env ign pol relDir s r s1 ops1 _ hrun sp _
      have hcomp : smartLoop env ign pol relDir (SrcNode.file st c) s =
          ((.ok () : Except Unit Unit), s, ([] : List Op)) := rfl
      rw [hrun] at hcomp
      obtain ⟨hr, hs, hops⟩ : r = .ok () ∧ s1 = s ∧ ops1 = [] :=
        ⟨congrArg Prod.fst hcomp, congrArg (fun x => x.2.1) hcomp,
         congrArg (fun x => x.2.2) hcomp⟩
      subst hr
      exact ⟨[], rfl, by simp⟩
  | dnil =>
      intro env ign pol relDir s r s1 ops1 _ hrun sp _
      have hcomp : smartLoop env ign pol relDir SrcNode.dnil s =
          ((.ok () : Except Unit Unit), s, ([] : List Op)) := rfl
      rw [hrun] at hcomp
      obtain ⟨hr, hs, hops⟩ : r = .ok () ∧ s1 = s ∧ ops1 = [] :=
        ⟨congrArg Prod.fst hcomp, congrArg (fun x => x.2.1) hcomp,
         congrArg (fun x => x.2.2) hcomp⟩
      subst hr
      exact ⟨[], rfl, by simp⟩
  | dcons name child rest ihc ihr =>
      intro env ign pol relDir s r s1 ops1 hwf hrun sp hext
      have hwf2 := hwf
      simp only [SrcNode.wf, Bool.and_eq_true, Bool.not_eq_true'] at hwf2
      obtain ⟨⟨hn, hcwf⟩, hrwf⟩ := hwf2
      cases child with
      | file st c =>
          cases hig : isIgnored env (relDir ++ [name]) ign with
          | true =>
              rcases hr1 : smartLoop env ign pol relDir rest s with ⟨rr, sr, opsr⟩
              have hcomp : smartLoop env ign pol relDir
                  (SrcNode.dcons name (SrcNode.file st c) rest) s = (rr, sr, opsr) := by
                simp [smartLoop, hig, M.bind, M.pure, hr1]
              rw [hrun] at hcomp
              obtain ⟨hr, hs, hops⟩ : r = rr ∧ s1 = sr ∧ ops1 = opsr :=
                ⟨congrArg Prod.fst hcomp, congrArg (fun x => x.2.1) hcomp,
                 congrArg (fun x => x.2.2) hcomp⟩
              subst hr
              subst hs
              obtain ⟨ops2r, hrun2, hnc⟩ := ihr env ign pol relDir s r s1 opsr hrwf hr1 sp
                (fun k hk => hext k (touchedKey_rest hk))
              exact ⟨ops2r, by simp [smartLoop, hig, M.bind, M.pure, hrun2], hnc⟩
          | false =>
              obtain ⟨sE, opsE, hstep⟩ := tryCatch_skip_ok
                (M.bind (mkdirRec relDir) fun _ =>
                 M.bind (shouldCopyFile env pol st c (relDir ++ [name])
                   (relDir ++ [name])) fun b =>
                 if b then copyFileWithMetadata env st c (relDir ++ [name]) (relDir ++ [name])
                 else M.pure ()) s
              rcases hr1 : smartLoop env ign pol relDir rest sE with ⟨rr, sr, opsr⟩
              have hcomp : smartLoop env ign pol relDir
                  (SrcNode.dcons name (SrcNode.file st c) rest) s = (rr, sr, opsE ++ opsr) := by
                simp only [smartLoop, hig, Bool.false_eq_true, if_false]
                exact M.bind_eval_ok _ _ s hstep hr1
              rw [hrun] at hcomp
              obtain ⟨hr, hs, hops⟩ : r = rr ∧ s1 = sr ∧ ops1 = opsE ++ opsr :=
                ⟨congrArg Prod.fst hcomp, congrArg (fun x => x.2.1) hcomp,
                 congrArg (fun x => x.2.2) hcomp⟩
              subst hr
              subst hs
              have hq1 : (relDir ++ [name]) ∉ properPrefixes relDir := by
                intro hmem
                have h1 := mem_properPrefixes_isPrefixOf hmem
                have h2 := List.IsPrefix.length_le ( List.isPrefixOf_iff_prefix.mp h1)
                simp only [List.length_append, List.length_singleton] at h2
                omega
              have hextE : ∀ k ∈ properPrefixes relDir, DirExtAt sE sp k := by
                intro k hk
                have hpre := mem_properPrefixes_isPrefixOf hk
                have hfr := smartLoop_frame rest env ign pol relDir sE k
                  (prefix_not_fileKey rest hpre)
                rw [hr1] at hfr
                exact DirExtAt.trans hfr (hext k (Or.inl hpre))
              have hextR : DirExtAt sE sp (relDir ++ [name]) := by
                have hpref : (relDir ++ [name]).isPrefixOf (relDir ++ [name]) = true := by
                  simp [ List.isPrefixOf_iff_prefix]
                have hfr := smartLoop_frame rest env ign pol relDir sE _
                  (snoc_not_fileKey rest hn hpref)
                rw [hr1] at hfr
                refine DirExtAt.trans hfr (hext _ (Or.inr ⟨name, ?_, hpref⟩))
                simp [SrcNode.names]
              obtain ⟨ops2E, hstep2, hncE⟩ := fileStep_idem env pol st c relDir
                (relDir ++ [name]) s (.ok ()) sE opsE hq1 hstep sp hextE hextR
              obtain ⟨ops2r, hr2, hncr⟩ := ihr env ign pol relDir sE r s1 opsr hrwf hr1 sp
                (fun k hk => hext k (touchedKey_rest hk))
              refine ⟨ops2E ++ ops2r, ?_, ?_⟩
              · simp only [smartLoop, hig, Bool.false_eq_true, if_false]
                exact M.bind_eval_ok _ _ sp hstep2 hr2
              · intro p hp
                rcases List.mem_append.mp hp with h | h
                · exact hncE p h
                · exact hncr p h
      | dnil =>
          cases hig : isIgnored env (relDir ++ [name]) ign with
          | true =>
              rcases hr1 : smartLoop env ign pol relDir rest s with ⟨rr, sr, opsr⟩
              have hcomp : smartLoop env ign pol relDir
                  (SrcNode.dcons name SrcNode.dnil rest) s = (rr, sr, opsr) := by
                simp [smartLoop, hig, M.bind, M.pure, hr1]
              rw [hrun] at hcomp
              obtain ⟨hr, hs, hops⟩ : r = rr ∧ s1 = sr ∧ ops1 = opsr :=
                ⟨congrArg Prod.fst hcomp, congrArg (fun x => x.2.1) hcomp,
                 congrArg (fun x => x.2.2) hcomp⟩
              subst hr
              subst hs
              obtain ⟨ops2r, hrun2, hnc⟩ := ihr env ign pol relDir s r s1 opsr hrwf hr1 sp
                (fun k hk => hext k (touchedKey_rest hk))
              exact ⟨ops2r, by simp [smartLoop, hig, M.bind, M.pure, hrun2], hnc⟩
          | false =>
              rcases hm1 : mkdirAux (properPrefixes (relDir ++ [name])) s with ⟨rm, sm, opsm⟩
              cases rm with
              | error e =>
                  cases e
                  have hcomp : smartLoop env ign pol relDir
                      (SrcNode.dcons name SrcNode.dnil rest) s = (.error (), sm, opsm) := by
                    simp only [smartLoop, hig, Bool.false_eq_true, if_false]
                    exact M.bind_eval_error _ _ s
                      (M.bind_eval_error _ _ s hm1)
                  rw [hrun] at hcomp
                  obtain ⟨hr, hs, hops⟩ : r = .error () ∧ s1 = sm ∧ ops1 = opsm :=
                    ⟨congrArg Prod.fst hcomp, congrArg (fun x => x.2.1) hcomp,
                     congrArg (fun x => x.2.2) hcomp⟩
                  subst hr
                  subst hs
                  obtain ⟨opsm2, hm2, hkinds⟩ := mkdirAux_idem
                    (properPrefixes (relDir ++ [name])) s (.error ()) s1 opsm hm1 sp
                    (fun p hp => hext p (touchedKey_of_snoc SrcNode.dnil rest
                      (mem_properPrefixes_isPrefixOf hp)))
                  refine ⟨opsm2, ?_, ?_⟩
                  · simp only [smartLoop, hig, Bool.false_eq_true, if_false]
                    exact M.bind_eval_error _ _ sp
                      (M.bind_eval_error _ _ sp hm2)
                  · intro p hp
                    obtain ⟨pq, hpq⟩ := hkinds _ hp
                    simp at hpq
              | ok a =>
                  cases a
                  rcases hc1 : smartLoop env ign pol (relDir ++ [name]) SrcNode.dnil sm
                    with ⟨rc, sc, opsc⟩
                  cases rc with
                  | error e =>
                      cases e
                      have hcomp : smartLoop env ign pol relDir
                          (SrcNode.dcons name SrcNode.dnil rest) s =
                          (.error (), sc, opsm ++ ([Op.readdirS (relDir ++ [name])] ++ opsc)) := by
                        simp only [smartLoop, hig, Bool.false_eq_true, if_false]
                        exact M.bind_eval_error _ _ s
                          (M.bind_eval_ok _ _ s hm1
                            (M.bind_eval_ok (emitOp (Op.readdirS (relDir ++ [name])))
                            (fun _ => smartLoop env ign pol (relDir ++ [name]) SrcNode.dnil) sm rfl hc1))
                      rw [hrun] at hcomp
                      obtain ⟨hr, hs, hops⟩ : r = .error () ∧ s1 = sc ∧
                          ops1 = opsm ++ ([Op.readdirS (relDir ++ [name])] ++ opsc) :=
                        ⟨congrArg Prod.fst hcomp, congrArg (fun x => x.2.1) hcomp,
                         congrArg (fun x => x.2.2) hcomp⟩
                      subst hr
                      subst hs
                      have hmhyp : ∀ p ∈ properPrefixes (relDir ++ [name]),
                          DirExtAt sm sp p := by
                        intro p hp
                        have hpre := mem_properPrefixes_isPrefixOf hp
                        have hfr := smartLoop_frame SrcNode.dnil env ign pol
                          (relDir ++ [name]) sm p (prefix_not_fileKey SrcNode.dnil hpre)
                        rw [hc1] at hfr
                        exact DirExtAt.trans hfr
                          (hext p (touchedKey_of_snoc SrcNode.dnil rest hpre))
                      obtain ⟨opsm2, hm2, hkinds⟩ := mkdirAux_idem
                        (properPrefixes (relDir ++ [name])) s (.ok ()) sm opsm hm1 sp hmhyp
                      obtain ⟨opsc2, hc2, hncc⟩ := ihc env ign pol (relDir ++ [name]) sm
                        (.error ()) s1 opsc hcwf hc1 sp
                        (fun k hk => hext k (touchedKey_child hk))
                      refine ⟨opsm2 ++ ([Op.readdirS (relDir ++ [name])] ++ opsc2), ?_, ?_⟩
                      · simp only [smartLoop, hig, Bool.false_eq_true, if_false]
                        exact M.bind_eval_error _ _ sp
                          (M.bind_eval_ok _ _ sp hm2
                            (M.bind_eval_ok (emitOp (Op.readdirS (relDir ++ [name])))
                            (fun _ => smartLoop env ign pol (relDir ++ [name]) SrcNode.dnil) sp rfl hc2))
                      · intro p hp
                        rcases List.mem_append.mp hp with h | h
                        · obtain ⟨pq, hpq⟩ := hkinds _ h
                          simp at hpq
                        · rcases List.mem_append.mp h with h2 | h2
                          · simp at h2
                          · exact hncc p h2
                  | ok a2 =>
                      cases a2
                      rcases hr1 : smartLoop env ign pol relDir rest sc with ⟨rr, sr, opsr⟩
                      have hcomp : smartLoop env ign pol relDir
                          (SrcNode.dcons name SrcNode.dnil rest) s =
                          (rr, sr, (opsm ++ ([Op.readdirS (relDir ++ [name])] ++ opsc)) ++ opsr) := by
                        simp only [smartLoop, hig, Bool.false_eq_true, if_false]
                        exact M.bind_eval_ok _ _ s
                          (M.bind_eval_ok _ _ s hm1
                            (M.bind_eval_ok (emitOp (Op.readdirS (relDir ++ [name])))
                            (fun _ => smartLoop env ign pol (relDir ++ [name]) SrcNode.dnil) sm rfl hc1)) hr1
                      rw [hrun] at hcomp
                      obtain ⟨hr, hs, hops⟩ : r = rr ∧ s1 = sr ∧
                          ops1 = (opsm ++ ([Op.readdirS (relDir ++ [name])] ++ opsc)) ++ opsr :=
                        ⟨congrArg Prod.fst hcomp, congrArg (fun x => x.2.1) hcomp,
                         congrArg (fun x => x.2.2) hcomp⟩
                      subst hr
                      subst hs
                      have hscs1 : ∀ k, k ∉ SrcNode.fileKeys relDir rest →
                          DirExtAt sc s1 k := by
                        intro k hk
                        have hfr := smartLoop_frame rest env ign pol relDir sc k hk
                        rw [hr1] at hfr
                        exact hfr
                      have hmhyp : ∀ p ∈ properPrefixes (relDir ++ [name]),
                          DirExtAt sm sp p := by
                        intro p hp
                        have hpre := mem_properPrefixes_isPrefixOf hp
                        have hfr1 := smartLoop_frame SrcNode.dnil env ign pol
                          (relDir ++ [name]) sm p (prefix_not_fileKey SrcNode.dnil hpre)
                        rw [hc1] at hfr1
                        have hnotr : p ∉ SrcNode.fileKeys relDir rest := by
                          rcases prefix_snoc hpre with h2 | h2
                          · exact prefix_not_fileKey rest h2
                          · rw [h2]
                            refine snoc_not_fileKey rest hn ?_
                            simp [ List.isPrefixOf_iff_prefix]
                        exact DirExtAt.trans hfr1 (DirExtAt.trans (hscs1 p hnotr)
                          (hext p (touchedKey_of_snoc SrcNode.dnil rest hpre)))
                      obtain ⟨opsm2, hm2, hkinds⟩ := mkdirAux_idem
                        (properPrefixes (relDir ++ [name])) s (.ok ()) sm opsm hm1 sp hmhyp
                      have hchyp : ∀ k, touchedKey (relDir ++ [name]) SrcNode.dnil k →
                          DirExtAt sc sp k := by
                        intro k hk
                        have hnotr : k ∉ SrcNode.fileKeys relDir rest := by
                          rcases hk with h2 | ⟨n2, hn2, hp2⟩
                          · rcases prefix_snoc h2 with h3 | h3
                            · exact prefix_not_fileKey rest h3
                            · rw [h3]
                              refine snoc_not_fileKey rest hn ?_
                              simp [ List.isPrefixOf_iff_prefix]
                          · refine snoc_not_fileKey rest hn ?_
                            have h3 := List.isPrefixOf_iff_prefix.mp hp2
                            exact List.isPrefixOf_iff_prefix.mpr
                              (( List.prefix_append _ _).trans h3)
                        exact DirExtAt.trans (hscs1 k hnotr) (hext k (touchedKey_child hk))
                      obtain ⟨opsc2, hc2, hncc⟩ := ihc env ign pol (relDir ++ [name]) sm
                        (.ok ()) sc opsc hcwf hc1 sp hchyp
                      obtain ⟨opsr2, hr2, hncr⟩ := ihr env ign pol relDir sc r s1 opsr
                        hrwf hr1 sp (fun k hk => hext k (touchedKey_rest hk))
                      refine ⟨(opsm2 ++ ([Op.readdirS (relDir ++ [name])] ++ opsc2)) ++ opsr2,
                        ?_, ?_⟩
                      · simp only [smartLoop, hig, Bool.false_eq_true, if_false]
                        exact M.bind_eval_ok _ _ sp
                          (M.bind_eval_ok _ _ sp hm2
                            (M.bind_eval_ok (emitOp (Op.readdirS (relDir ++ [name])))
                            (fun _ => smartLoop env ign pol (relDir ++ [name]) SrcNode.dnil) sp rfl hc2)) hr2
                      · intro p hp
                        rcases List.mem_append.mp hp with h | h
                        · rcases List.mem_append.mp h with h2 | h2
                          · obtain ⟨pq, hpq⟩ := hkinds _ h2
                            simp at hpq
                          · rcases List.mem_append.mp h2 with h3 | h3
                            · simp at h3
                            · exact hncc p h3
                        · exact hncr p h
      | dcons n2 c2 r2 =>
          cases hig : isIgnored env (relDir ++ [name]) ign with
          | true =>
              rcases hr1 : smartLoop env ign pol relDir rest s with ⟨rr, sr, opsr⟩
              have hcomp : smartLoop env ign pol relDir
                  (SrcNode.dcons name (SrcNode.dcons n2 c2 r2) rest) s = (rr, sr, opsr) := by
                simp [smartLoop, hig, M.bind, M.pure, hr1]
              rw [hrun] at hcomp
              obtain ⟨hr, hs, hops⟩ : r = rr ∧ s1 = sr ∧ ops1 = opsr :=
                ⟨congrArg Prod.fst hcomp, congrArg (fun x => x.2.1) hcomp,
                 congrArg (fun x => x.2.2) hcomp⟩
              subst hr
              subst hs
              obtain ⟨ops2r, hrun2, hnc⟩ := ihr env ign pol relDir s r s1 opsr hrwf hr1 sp
                (fun k hk => hext k (touchedKey_rest hk))
              exact ⟨ops2r, by simp [smartLoop, hig, M.bind, M.pure, hrun2], hnc⟩
          | false =>
              rcases hm1 : mkdirAux (properPrefixes (relDir ++ [name])) s with ⟨rm, sm, opsm⟩
              cases rm with
              | error e =>
                  cases e
                  have hcomp : smartLoop env ign pol relDir
                      (SrcNode.dcons name (SrcNode.dcons n2 c2 r2) rest) s =
                      (.error (), sm, opsm) := by
                    simp only [smartLoop, hig, Bool.false_eq_true, if_false]
                    exact M.bind_eval_error _ _ s
                      (M.bind_eval_error _ _ s hm1)
                  rw [hrun] at hcomp
                  obtain ⟨hr, hs, hops⟩ : r = .error () ∧ s1 = sm ∧ ops1 = opsm :=
                    ⟨congrArg Prod.fst hcomp, congrArg (fun x => x.2.1) hcomp,
                     congrArg (fun x => x.2.2) hcomp⟩
                  subst hr
                  subst hs
                  obtain ⟨opsm2, hm2, hkinds⟩ := mkdirAux_idem
                    (properPrefixes (relDir ++ [name])) s (.error ()) s1 opsm hm1 sp
                    (fun p hp => hext p (touchedKey_of_snoc (SrcNode.dcons n2 c2 r2) rest
                      (mem_properPrefixes_isPrefixOf hp)))
                  refine ⟨opsm2, ?_, ?_⟩
                  · simp only [smartLoop, hig, Bool.false_eq_true, if_false]
                    exact M.bind_eval_error _ _ sp
                      (M.bind_eval_error _ _ sp hm2)
                  · intro p hp
                    obtain ⟨pq, hpq⟩ := hkinds _ hp
                    simp at hpq
              | ok a =>
                  cases a
                  rcases hc1 : smartLoop env ign pol (relDir ++ [name])
                    (SrcNode.dcons n2 c2 r2) sm with ⟨rc, sc, opsc⟩
                  cases rc with
                  | error e =>
                      cases e
                      have hcomp : smartLoop env ign pol relDir
                          (SrcNode.dcons name (SrcNode.dcons n2 c2 r2) rest) s =
                          (.error (), sc, opsm ++ ([Op.readdirS (relDir ++ [name])] ++ opsc)) := by
                        simp only [smartLoop, hig, Bool.false_eq_true, if_false]
                        exact M.bind_eval_error _ _ s
                          (M.bind_eval_ok _ _ s hm1
                            (M.bind_eval_ok (emitOp (Op.readdirS (relDir ++ [name])))
                            (fun _ => smartLoop env ign pol (relDir ++ [name]) (SrcNode.dcons n2 c2 r2)) sm rfl hc1))
                      rw [hrun] at hcomp
                      obtain ⟨hr, hs, hops⟩ : r = .error () ∧ s1 = sc ∧
                          ops1 = opsm ++ ([Op.readdirS (relDir ++ [name])] ++ opsc) :=
                        ⟨congrArg Prod.fst hcomp, congrArg (fun x => x.2.1) hcomp,
                         congrArg (fun x => x.2.2) hcomp⟩
                      subst hr
                      subst hs
                      have hmhyp : ∀ p ∈ properPrefixes (relDir ++ [name]),
                          DirExtAt sm sp p := by
                        intro p hp
                        have hpre := mem_properPrefixes_isPrefixOf hp
                        have hfr := smartLoop_frame (SrcNode.dcons n2 c2 r2) env ign pol
                          (relDir ++ [name]) sm p
                          (prefix_not_fileKey (SrcNode.dcons n2 c2 r2) hpre)
                        rw [hc1] at hfr
                        exact DirExtAt.trans hfr
                          (hext p (touchedKey_of_snoc (SrcNode.dcons n2 c2 r2) rest hpre))
                      obtain ⟨opsm2, hm2, hkinds⟩ := mkdirAux_idem
                        (properPrefixes (relDir ++ [name])) s (.ok ()) sm opsm hm1 sp hmhyp
                      obtain ⟨opsc2, hc2, hncc⟩ := ihc env ign pol (relDir ++ [name]) sm
                        (.error ()) s1 opsc hcwf hc1 sp
                        (fun k hk => hext k (touchedKey_child hk))
                      refine ⟨opsm2 ++ ([Op.readdirS (relDir ++ [name])] ++ opsc2), ?_, ?_⟩
                      · simp only [smartLoop, hig, Bool.false_eq_true, if_false]
                        exact M.bind_eval_error _ _ sp
                          (M.bind_eval_ok _ _ sp hm2
                            (M.bind_eval_ok (emitOp (Op.readdirS (relDir ++ [name])))
                            (fun _ => smartLoop env ign pol (relDir ++ [name]) (SrcNode.dcons n2 c2 r2)) sp rfl hc2))
                      · intro p hp
                        rcases List.mem_append.mp hp with h | h
                        · obtain ⟨pq, hpq⟩ := hkinds _ h
                          simp at hpq
                        · rcases List.mem_append.mp h with h2 | h2
                          · simp at h2
                          · exact hncc p h2
                  | ok a2 =>
                      cases a2
                      rcases hr1 : smartLoop env ign pol relDir rest sc with ⟨rr, sr, opsr⟩
                      have hcomp : smartLoop env ign pol relDir
                          (SrcNode.dcons name (SrcNode.dcons n2 c2 r2) rest) s =
                          (rr, sr, (opsm ++ ([Op.readdirS (relDir ++ [name])] ++ opsc)) ++ opsr) := by
                        simp only [smartLoop, hig, Bool.false_eq_true, if_false]
                        exact M.bind_eval_ok _ _ s
                          (M.bind_eval_ok _ _ s hm1
                            (M.bind_eval_ok (emitOp (Op.readdirS (relDir ++ [name])))
                            (fun _ => smartLoop env ign pol (relDir ++ [name]) (SrcNode.dcons n2 c2 r2)) sm rfl hc1)) hr1
                      rw [hrun] at hcomp
                      obtain ⟨hr, hs, hops⟩ : r = rr ∧ s1 = sr ∧
                          ops1 = (opsm ++ ([Op.readdirS (relDir ++ [name])] ++ opsc)) ++ opsr :=
                        ⟨congrArg Prod.fst hcomp, congrArg (fun x => x.2.1) hcomp,
                         congrArg (fun x => x.2.2) hcomp⟩
                      subst hr
                      subst hs
                      have hscs1 : ∀ k, k ∉ SrcNode.fileKeys relDir rest →
                          DirExtAt sc s1 k := by
                        intro k hk
                        have hfr := smartLoop_frame rest env ign pol relDir sc k hk
                        rw [hr1] at hfr
                        exact hfr
                      have hmhyp : ∀ p ∈ properPrefixes (relDir ++ [name]),
                          DirExtAt sm sp p := by
                        intro p hp
                        have hpre := mem_properPrefixes_isPrefixOf hp
                        have hfr1 := smartLoop_frame (SrcNode.dcons n2 c2 r2) env ign pol
                          (relDir ++ [name]) sm p
                          (prefix_not_fileKey (SrcNode.dcons n2 c2 r2) hpre)
                        rw [hc1] at hfr1
                        have hnotr : p ∉ SrcNode.fileKeys relDir rest := by
                          rcases prefix_snoc hpre with h2 | h2
                          · exact prefix_not_fileKey rest h2
                          · rw [h2]
                            refine snoc_not_fileKey rest hn ?_
                            simp [ List.isPrefixOf_iff_prefix]
                        exact DirExtAt.trans hfr1 (DirExtAt.trans (hscs1 p hnotr)
                          (hext p (touchedKey_of_snoc (SrcNode.dcons n2 c2 r2) rest hpre)))
                      obtain ⟨opsm2, hm2, hkinds⟩ := mkdirAux_idem
                        (properPrefixes (relDir ++ [name])) s (.ok ()) sm opsm hm1 sp hmhyp
                      have hchyp : ∀ k, touchedKey (relDir ++ [name]) (SrcNode.dcons n2 c2 r2) k →
                          DirExtAt sc sp k := by
                        intro k hk
                        have hnotr : k ∉ SrcNode.fileKeys relDir rest := by
                          rcases hk with h2 | ⟨n3, hn3, hp3⟩
                          · rcases prefix_snoc h2 with h3 | h3
                            · exact prefix_not_fileKey rest h3
                            · rw [h3]
                              refine snoc_not_fileKey rest hn ?_
                              simp [ List.isPrefixOf_iff_prefix]
                          · refine snoc_not_fileKey rest hn ?_
                            have h3 := List.isPrefixOf_iff_prefix.mp hp3
                            exact List.isPrefixOf_iff_prefix.mpr
                              (( List.prefix_append _ _).trans h3)
                        exact DirExtAt.trans (hscs1 k hnotr) (hext k (touchedKey_child hk))
                      obtain ⟨opsc2, hc2, hncc⟩ := ihc env ign pol (relDir ++ [name]) sm
                        (.ok ()) sc opsc hcwf hc1 sp hchyp
                      obtain ⟨opsr2, hr2, hncr⟩ := ihr env ign pol relDir sc r s1 opsr
                        hrwf hr1 sp (fun k hk => hext k (touchedKey_rest hk))
                      refine ⟨(opsm2 ++ ([Op.readdirS (relDir ++ [name])] ++ opsc2)) ++ opsr2,
                        ?_, ?_⟩
                      · simp only [smartLoop, hig, Bool.false_eq_true, if_false]
                        exact M.bind_eval_ok _ _ sp
                          (M.bind_eval_ok _ _ sp hm2
                            (M.bind_eval_ok (emitOp (Op.readdirS (relDir ++ [name])))
                            (fun _ => smartLoop env ign pol (relDir ++ [name]) (SrcNode.dcons n2 c2 r2)) sp rfl hc2)) hr2
                      · intro p hp
                        rcases List.mem_append.mp hp with h | h
                        · rcases List.mem_append.mp h with h2 | h2
                          · obtain ⟨pq, hpq⟩ := hkinds _ h2
                            simp at hpq
                          · rcases List.mem_append.mp h2 with h3 | h3
                            · simp at h3
                            · exact hncc p h3
                        · exact hncr p h

/-- An operation satisfying `isCopy` is a copy. -/
theorem Op.isCopy_eq {o : Op} (h : o.isCopy = true) : ∃ p, o = Op.copy p := by
  cases o <;> simp [Op.isCopy] at h <;> exact ⟨_, rfl⟩

/-- C5: Smart bulk sync is idempotent.  For every well-formed source
listing (as a real directory listing is: sibling entry names are pairwise
distinct) and every starting target state, running the Smart strategy's
execute twice in succession with no intervening source change makes the
second run reproduce the first run's outcome on an unchanged state while
performing zero file-copy operations. -/
theorem claim_C5_smart_idempotent (env : Env) (ign : List String) (pol : Policy)
    (root : SrcNode) (s : SyncSt) (r : Except Unit Unit) (s1 : SyncSt) (ops1 : List Op)
    (hwf : root.wf = true)
    (hrun : smartExecute env ign pol root s = (r, s1, ops1)) :
    ∃ ops2, smartExecute env ign pol root s1 = (r, s1, ops2) ∧
      ops2.countP Op.isCopy = 0 := by
  rcases h1 : smartLoop env ign pol [] root s with ⟨rl, sl, opsl⟩
  have hcomp : smartExecute env ign pol root s = (rl, sl, [Op.readdirS []] ++ opsl) :=
    M.bind_eval_ok (emitOp (Op.readdirS []))
      (fun _ => smartLoop env ign pol [] root) s rfl h1
  rw [hrun] at hcomp
  obtain ⟨hr, hs, hops⟩ : r = rl ∧ s1 = sl ∧ ops1 = [Op.readdirS []] ++ opsl :=
    ⟨congrArg Prod.fst hcomp, congrArg (fun x => x.2.1) hcomp,
     congrArg (fun x => x.2.2) hcomp⟩
  subst hr
  subst hs
  obtain ⟨ops2, h2, hnc⟩ := smartLoop_idem root env ign pol [] s r s1 opsl hwf h1 s1
    (fun k _ => DirExtAt.refl s1 k)
  refine ⟨[Op.readdirS []] ++ ops2, ?_, ?_⟩
  · exact M.bind_eval_ok (emitOp (Op.readdirS []))
      (fun _ => smartLoop env ign pol [] root) s1 rfl h2
  · rw [List.countP_eq_zero]
    intro o ho hc
    rcases List.mem_append.mp ho with h | h
    · rw [List.mem_singleton] at h
      subst h
      simp [Op.isCopy] at hc
    · obtain ⟨p, hp⟩ := Op.isCopy_eq hc
      subst hp
      exact hnc p h

/-- Witness for C5: a one-file listing synced into an empty target; the
re-run reproduces the outcome with zero copies. -/
theorem claim_C5_witness :
    ∃ ops2,
      smartExecute envW [] .sourceWins
        (SrcNode.dcons "a" (SrcNode.file ⟨1, 0, 0⟩ [7]) SrcNode.dnil)
        ⟨[(["a"], TEntry.file ⟨1, 0, 0⟩ [7]), (["a"], TEntry.file ⟨1, 5000, 5000⟩ [7])],
         wsW, []⟩ =
      (.ok (),
       ⟨[(["a"], TEntry.file ⟨1, 0, 0⟩ [7]), (["a"], TEntry.file ⟨1, 5000, 5000⟩ [7])],
        wsW, []⟩, ops2) ∧
      ops2.countP Op.isCopy = 0 :=
  claim_C5_smart_idempotent envW [] .sourceWins
    (SrcNode.dcons "a" (SrcNode.file ⟨1, 0, 0⟩ [7]) SrcNode.dnil)
    ⟨[], wsW, []⟩ (.ok ())
    ⟨[(["a"], TEntry.file ⟨1, 0, 0⟩ [7]), (["a"], TEntry.file ⟨1, 5000, 5000⟩ [7])],
     wsW, []⟩
    [Op.readdirS [], Op.existsT ["a"], Op.statS ["a"], Op.copy ["a"], Op.utimes ["a"]]
    (by decide) rfl
